import Mathlib

/-!
# Verification of a secp256k1 library (noble-secp256k1 variant)

Shallow embedding of `src/src/secp251k1/index.ts` (field and scalar
arithmetic, Jacobian point arithmetic, wNAF scalar multiplication with the
GLV endomorphism split, hex/byte conversions, DER parsing and serialization,
ECDSA `verify`, public-key recovery, and BIP-340 Schnorr verification),
together with theorems settling the specification's claims.

Conventions of the embedding:
* JavaScript `bigint` values are modelled as `Int`.  JavaScript `%` on
  bigints truncates towards zero (sign of the dividend), and `/` truncates
  towards zero; these are `Int.tmod` and `Int.tdiv`.
* `Uint8Array` values are modelled as `List Nat` (entries `< 256` by
  construction of every producer in the library).
* JavaScript strings are modelled as `List Char`.
* A function that can `throw` returns `Except Err α` for the enumerated
  error type `Err` below; each constructor corresponds to one `throw` site
  of the source.  `try/catch` is modelled by matching on the result.
* Loops are modelled by structural recursion; the two unbounded loops of
  the source (`invert`'s extended Euclid and `multiplyUnsafe`'s
  double-and-add) get an explicit fuel argument large enough for every
  input they are ever called on (proved where a claim needs it); exhausting
  the fuel yields the dedicated errors `Err.invertFuel` / `Err.loopFuel`,
  which are proved unreachable where relevant.
* The injected SHA-256 primitive (`utils.sha256`) is a parameter
  `sha : List Nat → List Nat` of the Schnorr functions, mirroring the
  specification's "injected byte-in/byte-out function".
* The mutable per-point `_WINDOW_SIZE` (set to 8 for the base point at
  module initialization, absent i.e. 1 for freshly parsed points) is passed
  as the explicit parameter `W` of the multiplication functions; the call
  sites below instantiate it exactly as the source's dynamic lookup does.
  The `pointPrecomputes` cache only memoizes `precomputeWindow` results and
  cannot change any returned value, so the embedding recomputes the table.
-/

set_option maxRecDepth 4000
set_option exponentiation.threshold 700

namespace Secp

/-- Enumerated error type standing for the `Error`/`TypeError` values thrown
by the source; each constructor corresponds to one `throw` site. -/
inductive Err : Type where
  | expectedPositive      -- invert: expected positive integers
  | invertNoInverse       -- invert: does not exist
  | invertFuel            -- (fuel exhaustion of the embedded Euclid loop)
  | loopFuel              -- (fuel exhaustion of the embedded double-and-add loop)
  | badIndex              -- JS undefined array element subsequently dereferenced
  | wnafWindow            -- Point#wNAF: Invalid precomputation window
  | splitEndoFail         -- splitScalarEndo: Endomorphism failed
  | invalidScalar         -- Expected valid private scalar: 0 < scalar < curve.n
  | invalidPrivateKey     -- Expected private key: 0 < key < n / Expected valid private key
  | pointNotOnCurve       -- Point is not on curve / not on elliptic curve
  | invalidPointHex       -- Point.fromHex: received invalid point
  | sigIntTag             -- Invalid signature integer tag
  | sigIntLength          -- Invalid signature integer: wrong length
  | sigIntTrailing        -- Invalid signature integer: trailing length
  | sigTag                -- Invalid signature tag
  | sigLength             -- Invalid signature: incorrect length
  | sigLeftBytes          -- Invalid signature: left bytes after parsing
  | sigInvalidR           -- Invalid Signature: r must be 0 < r < n
  | sigInvalidS           -- Invalid Signature: s must be 0 < s < n
  | compactExpected64     -- Signature.fromCompact: Expected 64-byte hex
  | unpaddedHex           -- hexToBytes: received invalid unpadded hex
  | badByteSequence       -- Invalid byte sequence
  | bigIntConvert         -- SyntaxError of BigInt("0x" + junk) in hexToNumber
  | numTooLarge           -- Expected number < 2^256
  | invalidRecovery       -- Cannot recover signature: invalid recovery bit
  | zeroMsgHash           -- Cannot recover signature: msgHash cannot be 0
  | schnorrInvalidSig     -- Invalid signature (SchnorrSignature constructor)
  | schnorrExpected64     -- SchnorrSignature.fromHex: expected 64 bytes
deriving DecidableEq, Repr

/-- Result type of embedded functions that can throw. -/
abbrev EX (α : Type) : Type := Except Err α

instance {ε α : Type} [DecidableEq ε] [DecidableEq α] : DecidableEq (Except ε α) := fun a b =>
  match a, b with
  | .ok x, .ok y =>
      if h : x = y then .isTrue (by rw [h]) else .isFalse (by intro hc; cases hc; exact h rfl)
  | .error x, .error y =>
      if h : x = y then .isTrue (by rw [h]) else .isFalse (by intro hc; cases hc; exact h rfl)
  | .ok _, .error _ => .isFalse (by intro hc; cases hc)
  | .error _, .ok _ => .isFalse (by intro hc; cases hc)

/-! ## Numeric layer -/

/-- JavaScript `%` on bigints (truncated remainder, sign of the dividend). -/
def jsMod (a b : Int) : Int := Int.tmod a b

/-- JavaScript `/` on bigints (truncated division, towards zero). -/
def jsDiv (a b : Int) : Int := Int.tdiv a b

/-- The source's `pow` helper: `result *= a`, `b` times. -/
def jsPow (a : Int) : Nat → Int
  | 0 => 1
  | k + 1 => jsPow a k * a

/-- `CURVE.P = 2^256 - 2^32 - 977` (stated as the numeral so that kernel
reduction is cheap; the defining expression is proved in `Pc_def`). -/
def Pc : Int := 115792089237316195423570985008687907853269984665640564039457584007908834671663

/-- `CURVE.n`, the curve order (numeral form, proved in `Nc_def`). -/
def Nc : Int := 115792089237316195423570985008687907852837564279074904382605163141518161494337

theorem Pc_def : Pc = jsPow 2 256 - jsPow 2 32 - 977 := by decide

theorem Nc_def : Nc = jsPow 2 256 - 432420386565659656852420866394968145599 := by decide

/-- `POW_2_256 = pow(2, 256)` (numeral form, proved in `POW_2_256_def`). -/
def POW_2_256 : Int := 115792089237316195423570985008687907853269984665640564039457584007913129639936

theorem POW_2_256_def : POW_2_256 = jsPow 2 256 := by decide

/-- `CURVE.Gx`. -/
def Gx : Int := 55066263022277343669578718895168534326250603453777594175500187360389116729240

/-- `CURVE.Gy`. -/
def Gy : Int := 32670510020758816978083085130507043184471273380659243275938904335757337482424

/-- `CURVE.beta`, the GLV endomorphism constant. -/
def betaC : Int := 0x7ae96a2b657c07106e64479eac3434e99cf0497512f58995c1396c28719501ee

/-- `mod(a, b)`: least nonnegative residue, correcting JS `%` for negative
dividends.  The source's default argument `b = CURVE.P` is written out at
every call site. -/
def mod (a b : Int) : Int :=
  let r := jsMod a b
  if r >= 0 then r else b + r

/-- `weistrass(x) = x³ + a·x + b mod P` with `a = 0`, `b = 7` (the source
reduces `x²` and `x³` separately). -/
def weistrass (x : Int) : Int :=
  let x2 := mod (x * x) Pc
  let x3 := mod (x2 * x) Pc
  mod (x3 + 0 * x + 7) Pc

/-- `isWithinCurveOrder`: `0 < num < CURVE.n`. -/
def isWithinCurveOrder (num : Int) : Bool := 0 < num && num < Nc

/-- `isValidFieldElement`: `0 < num < CURVE.P`. -/
def isValidFieldElement (num : Int) : Bool := 0 < num && num < Pc

/-- `pow2(x, power)`: square `power` times, reducing mod `P` each step. -/
def pow2 (x : Int) : Nat → Int
  | 0 => x
  | k + 1 => pow2 (jsMod (x * x) Pc) k

/-- `sqrtMod(x)`: the fixed addition chain for `x^((P+1)/4) mod P`. -/
def sqrtMod (x : Int) : Int :=
  let b2 := jsMod (x * x * x) Pc
  let b3 := jsMod (b2 * b2 * x) Pc
  let b6 := jsMod (pow2 b3 3 * b3) Pc
  let b9 := jsMod (pow2 b6 3 * b3) Pc
  let b11 := jsMod (pow2 b9 2 * b2) Pc
  let b22 := jsMod (pow2 b11 11 * b11) Pc
  let b44 := jsMod (pow2 b22 22 * b22) Pc
  let b88 := jsMod (pow2 b44 44 * b44) Pc
  let b176 := jsMod (pow2 b88 88 * b88) Pc
  let b220 := jsMod (pow2 b176 44 * b44) Pc
  let b223 := jsMod (pow2 b220 3 * b3) Pc
  let t1 := jsMod (pow2 b223 23 * b22) Pc
  let t2 := jsMod (pow2 t1 6 * b2) Pc
  pow2 t2 2

/-- The `while (a !== 0)` loop of `invert`, with explicit fuel.
State: `(a, b, x, y, u, v)`; returns `(gcd, x)` on termination. -/
def invertLoop : Nat → Int → Int → Int → Int → Int → Int → Option (Int × Int)
  | 0, _, _, _, _, _, _ => none
  | fuel + 1, a, b, x, y, u, v =>
    if a = 0 then some (b, x)
    else
      let q := jsDiv b a
      let r := jsMod b a
      let m := x - u * q
      let n := y - v * q
      invertLoop fuel r a u v m n

/-- Fuel sufficient for `invertLoop` on every modulus `< 2^600` (the Euclid
remainder at least halves every two iterations). -/
def invertFuelN : Nat := 1300

/-- `invert(number, modulo)` via extended Euclid.  The source's default
argument `modulo = CURVE.P` is written out at every call site. -/
def invert (number modulo : Int) : EX Int :=
  if number = 0 || modulo <= 0 then .error .expectedPositive
  else
    match invertLoop invertFuelN (mod number modulo) modulo 0 1 1 0 with
    | some (gcd, x) =>
        if gcd != 1 then .error .invertNoInverse else .ok (mod x modulo)
    | none => .error .invertFuel

/-- Forward pass of `invertBatch` (the source's upward `for` loop, as an
accumulating tail recursion): collects the running products (`scratch`, in
reverse emission order) and the final accumulator.  A `none` entry is the
skipped hole the source leaves in `scratch` at a zero input. -/
def ibFwd (m : Int) : List Int → Int → List (Option Int) → (List (Option Int) × Int)
  | [], acc, out => (out.reverse, acc)
  | x :: xs, acc, out =>
    if x = 0 then ibFwd m xs acc (none :: out)
    else ibFwd m xs (mod (acc * x) m) (some acc :: out)

/-- Backward pass of `invertBatch` (the source's downward `for` loop),
consuming the (value, scratch) pairs in reverse order; because it conses as
it walks, the output list is in original order. -/
def ibBwd (m : Int) : List (Int × Option Int) → Int → List Int → (List Int × Int)
  | [], acc, out => (out, acc)
  | (x, sc) :: rest, acc, out =>
    if x = 0 then ibBwd m rest acc (x :: out)
    else ibBwd m rest (mod (acc * x) m) (mod (acc * sc.getD 0) m :: out)

/-- Reversed `List.zip`, as an accumulating tail recursion. -/
def zipRev {α β : Type} : List α → List β → List (α × β) → List (α × β)
  | a :: as, b :: bs, out => zipRev as bs ((a, b) :: out)
  | _, _, out => out

/-- Tail-recursive `List.map` (JS `Array.prototype.map` is a loop). -/
def listMapTR {α β : Type} (f : α → β) (l : List α) : List β :=
  (l.foldl (fun out a => f a :: out) []).reverse

/-- `invertBatch(nums, n)`: Montgomery's trick, one `invert` call in total.
The source mutates `nums` in place and returns it; the embedding returns the
new list.  The default argument `n = CURVE.P` is written out at call sites. -/
def invertBatch (nums : List Int) (m : Int) : EX (List Int) := do
  let (sc, acc) := ibFwd m nums 1 []
  let a ← invert acc m
  let (l, _) := ibBwd m (zipRev nums sc []) a []
  return l

/-! ## Byte / hex / string layer -/

/-- The characters JavaScript treats as whitespace when trimming for
`parseInt` / `BigInt(string)` (WhiteSpace and LineTerminator code points;
the exotic Unicode space separators are included for completeness). -/
def jsWhitespace (c : Char) : Bool :=
  c.toNat = 32 || c.toNat = 9 || c.toNat = 10 || c.toNat = 11 || c.toNat = 12 ||
  c.toNat = 13 || c.toNat = 160 || c.toNat = 65279 || c.toNat = 8232 || c.toNat = 8233 ||
  c.toNat = 5760 || (8192 <= c.toNat && c.toNat <= 8202) || c.toNat = 8239 ||
  c.toNat = 8287 || c.toNat = 12288

/-- Value of a hexadecimal digit character (`0-9`, `a-f`, `A-F`). -/
def hexDigitVal (c : Char) : Option Nat :=
  if 48 <= c.toNat && c.toNat <= 57 then some (c.toNat - 48)
  else if 97 <= c.toNat && c.toNat <= 102 then some (c.toNat - 87)
  else if 65 <= c.toNat && c.toNat <= 70 then some (c.toNat - 55)
  else none

/-- Lowercase hex digit character for a value `< 16` (the `hexes` table). -/
def hexChar (d : Nat) : Char :=
  if d < 10 then Char.ofNat (48 + d) else Char.ofNat (87 + d)

/-- Longest-prefix hexadecimal digit parse, `none` when the first character
is not a digit (the digit-consuming phase of JS `parseInt(s, 16)`). -/
def parseHexDigitsAux : List Char → Option Nat → Option Nat
  | [], acc => acc
  | c :: cs, acc =>
    match hexDigitVal c with
    | some d => parseHexDigitsAux cs (some (16 * acc.getD 0 + d))
    | none => acc

/-- Sign phase of JS `parseInt`. -/
def jsParseIntSign : List Char → (Int × List Char)
  | '+' :: rest => (1, rest)
  | '-' :: rest => (-1, rest)
  | l => (1, l)

/-- `0x`/`0X` prefix stripping phase of JS `parseInt(·, 16)`. -/
def jsParseIntStrip : List Char → List Char
  | '0' :: 'x' :: rest => rest
  | '0' :: 'X' :: rest => rest
  | l => l

/-- JS `Number.parseInt(s, 16)`: trim leading whitespace, optional sign,
optional `0x`/`0X`, then the longest hex-digit prefix; `none` models `NaN`. -/
def jsParseIntHex (s : List Char) : Option Int :=
  match parseHexDigitsAux (jsParseIntStrip (jsParseIntSign (s.dropWhile jsWhitespace)).2) none with
  | some v => some ((jsParseIntSign (s.dropWhile jsWhitespace)).1 * Int.ofNat v)
  | none => none

/-- Pair-consuming loop of `hexToBytes`; the singleton case is unreachable
because the caller has checked the length to be even. -/
def hexToBytesGo : List Char → EX (List Nat)
  | [] => .ok []
  | c1 :: c2 :: rest =>
    match jsParseIntHex [c1, c2] with
    | none => .error .badByteSequence
    | some b =>
      if b < 0 then .error .badByteSequence
      else do
        let bs ← hexToBytesGo rest
        return b.toNat :: bs
  | [_] => .error .badByteSequence

/-- `hexToBytes(hex)`: reject odd length, then convert 2-character groups
through JS `parseInt(·, 16)`. -/
def hexToBytes (hex : List Char) : EX (List Nat) :=
  if hex.length % 2 = 1 then .error .unpaddedHex else hexToBytesGo hex

/-- `bytesToHex`: each byte becomes its two lowercase hex digits
(`hexes[b]`).  Every byte produced by the library is `< 256`. -/
def bytesToHex (bytes : List Nat) : List Char :=
  bytes.foldr (fun b acc => hexChar (b / 16) :: hexChar (b % 16) :: acc) []

/-- Full-string hexadecimal evaluation (no prefix, every character must be
a digit), used by `hexToNumber`. -/
def hexValAll : List Char → Nat → Option Nat
  | [], acc => some acc
  | c :: cs, acc =>
    match hexDigitVal c with
    | some d => hexValAll cs (16 * acc + d)
    | none => none

/-- `hexToNumber(hex) = BigInt("0x" + hex)`.  `StringToBigInt` trims
surrounding whitespace (leading whitespace cannot help here because of the
prepended `0x`), then requires a nonempty all-hex-digit body; otherwise it
throws a `SyntaxError`. -/
def hexToNumber (hex : List Char) : EX Int :=
  match hexValAll ((hex.reverse.dropWhile jsWhitespace).reverse) 0 with
  | some v =>
    if ((hex.reverse.dropWhile jsWhitespace).reverse).isEmpty then .error .bigIntConvert
    else .ok (Int.ofNat v)
  | none => .error .bigIntConvert

/-- `bytesToNumber = hexToNumber ∘ bytesToHex` (big-endian). -/
def bytesToNumber (bytes : List Nat) : EX Int :=
  hexToNumber (bytesToHex bytes)

/-- Minimal big-endian hexadecimal digits of a natural number
(JS `num.toString(16)`), with fuel (sufficient for `n < 16^600`). -/
def natHexDigits : Nat → Nat → List Char
  | 0, _ => []
  | fuel + 1, n =>
    if n < 16 then [hexChar n] else natHexDigits fuel (n / 16) ++ [hexChar (n % 16)]

/-- JS `num.toString(16)` for the nonnegative bigints the library passes. -/
def natToString16 (n : Nat) : List Char := natHexDigits 600 n

/-- JS `String.prototype.padStart`. -/
def padStart (s : List Char) (n : Nat) (c : Char) : List Char :=
  List.replicate (n - s.length) c ++ s

/-- `numTo32bStr(num)`: reject `num > 2^256`, then 64 hex digits, zero
padded.  (All call sites pass nonnegative values.) -/
def numTo32bStr (num : Int) : EX (List Char) :=
  if num > POW_2_256 then .error .numTooLarge
  else .ok (padStart (natToString16 num.toNat) 64 '0')

/-- `numberToHex(num)`: minimal hex, left-padded with one `0` to an even
length. -/
def numberToHex (num : Int) : List Char :=
  let hex := natToString16 num.toNat
  if hex.length % 2 = 1 then '0' :: hex else hex

/-- `numTo32b = hexToBytes ∘ numTo32bStr`. -/
def numTo32b (num : Int) : EX (List Nat) := do
  hexToBytes (← numTo32bStr num)

/-- The source's `Hex = Uint8Array | string` input type. -/
inductive HexInput : Type where
  | bytes (bs : List Nat)
  | str (s : List Char)
deriving DecidableEq, Repr

/-- `ensureBytes`: copy a `Uint8Array`, or convert a string through
`hexToBytes`. -/
def ensureBytes : HexInput → EX (List Nat)
  | .bytes bs => .ok bs
  | .str s => hexToBytes s

/-- `concatBytes`. -/
def concatBytes (arrays : List (List Nat)) : List Nat := arrays.flatten

/-- `truncateHash(hash)`: big-endian value, right-shifted by the excess
bits beyond 256, reduced by a single subtraction of `n` if still `>= n`.
Throws (from `bytesToNumber` via `BigInt("0x")`) on an empty hash. -/
def truncateHash (hash : List Nat) : EX Int := do
  let delta : Int := Int.ofNat hash.length * 8 - 256
  let h0 <- bytesToNumber hash
  let h1 := if delta > 0 then Int.ofNat (h0.toNat >>> delta.toNat) else h0
  return if h1 >= Nc then h1 - Nc else h1

/-! ## Point layer -/

/-- Bitwise AND with a small mask, for the nonnegative bigints the scalar
loops operate on (JS `n & mask`). -/
def jsAndNat (a : Int) (m : Nat) : Int := Int.ofNat (a.toNat &&& m)

/-- Right shift of a nonnegative bigint (JS `n >> k`). -/
def jsShr (a : Int) (k : Nat) : Int := Int.ofNat (a.toNat >>> k)

/-- Affine point (the source's `Point`, without the mutable
`_WINDOW_SIZE`, which the multiplication functions take as a parameter). -/
structure Point : Type where
  x : Int
  y : Int
deriving DecidableEq, Repr

/-- `Point.BASE`. -/
def basePoint : Point := ⟨Gx, Gy⟩

/-- `Point.ZERO`. -/
def zeroPoint : Point := ⟨0, 0⟩

/-- Jacobian point (the source's `JacobianPoint`). -/
structure JPoint : Type where
  x : Int
  y : Int
  z : Int
deriving DecidableEq, Repr

/-- `JacobianPoint.BASE`. -/
def jBASE : JPoint := ⟨Gx, Gy, 1⟩

/-- `JacobianPoint.ZERO`. -/
def jZERO : JPoint := ⟨0, 1, 0⟩

/-- `JacobianPoint.fromAffine`. -/
def fromAffine (p : Point) : JPoint := ⟨p.x, p.y, 1⟩

/-- `JacobianPoint#negate`. -/
def jnegate (p : JPoint) : JPoint := ⟨p.x, mod (-p.y) Pc, p.z⟩

/-- `JacobianPoint#double` (dbl-2009-l, a = 0). -/
def jdouble (p : JPoint) : JPoint :=
  let X1 := p.x
  let Y1 := p.y
  let Z1 := p.z
  let A := mod (jsPow X1 2) Pc
  let B := mod (jsPow Y1 2) Pc
  let C := mod (jsPow B 2) Pc
  let D := mod (2 * (mod (mod (jsPow (X1 + B) 2) Pc) Pc - A - C)) Pc
  let E := mod (3 * A) Pc
  let F := mod (jsPow E 2) Pc
  let X3 := mod (F - 2 * D) Pc
  let Y3 := mod (E * (D - X3) - 8 * C) Pc
  let Z3 := mod (2 * Y1 * Z1) Pc
  ⟨X3, Y3, Z3⟩

/-- `JacobianPoint#add` (add-1998-cmo-2, a = 0), with the coordinate-level
identity short-circuits and the equal-`x` branching of the source. -/
def jadd (p q : JPoint) : JPoint :=
  let X1 := p.x
  let Y1 := p.y
  let Z1 := p.z
  let X2 := q.x
  let Y2 := q.y
  let Z2 := q.z
  if X2 = 0 || Y2 = 0 then p
  else if X1 = 0 || Y1 = 0 then q
  else
    let Z1Z1 := mod (jsPow Z1 2) Pc
    let Z2Z2 := mod (jsPow Z2 2) Pc
    let U1 := mod (X1 * Z2Z2) Pc
    let U2 := mod (X2 * Z1Z1) Pc
    let S1 := mod (Y1 * Z2 * Z2Z2) Pc
    let S2 := mod (mod (Y2 * Z1) Pc * Z1Z1) Pc
    let H := mod (U2 - U1) Pc
    let r := mod (S2 - S1) Pc
    if H = 0 then
      if r = 0 then jdouble p else jZERO
    else
      let HH := mod (jsPow H 2) Pc
      let HHH := mod (H * HH) Pc
      let V := mod (U1 * HH) Pc
      let X3 := mod (jsPow r 2 - HHH - 2 * V) Pc
      let Y3 := mod (r * (V - X3) - S1 * HHH) Pc
      let Z3 := mod (Z1 * Z2 * H) Pc
      ⟨X3, Y3, Z3⟩

/-- `JacobianPoint#subtract`. -/
def jsub (p q : JPoint) : JPoint := jadd p (jnegate q)

/-- `JacobianPoint#toAffine` with a supplied `invZ` (the `invertBatch`
path, which performs no inversion of its own). -/
def toAffineInv (p : JPoint) (invZ : Int) : Point :=
  let invZ2 := jsPow invZ 2
  ⟨mod (p.x * invZ2) Pc, mod (p.y * invZ2 * invZ) Pc⟩

/-- `JacobianPoint#toAffine` with the default `invZ = invert(this.z)`;
throws (inside `invert`) when `z = 0`, i.e. on the identity. -/
def toAffine (p : JPoint) : EX Point := do
  let invZ <- invert p.z Pc
  return toAffineInv p invZ

/-- `JacobianPoint.toAffineBatch`: one `invertBatch` over all `z`. -/
def toAffineBatch (points : List JPoint) : EX (List Point) := do
  let toInv <- invertBatch (listMapTR (fun p => p.z) points) Pc
  return (zipRev points toInv []).foldl (fun out pi => toAffineInv pi.1 pi.2 :: out) []

/-- `JacobianPoint.normalizeZ`. -/
def normalizeZ (points : List JPoint) : EX (List JPoint) := do
  return listMapTR fromAffine (<- toAffineBatch points)

/-- Inner loop of `precomputeWindow`: `2^(W-1) - 1` accumulating additions;
returns the emitted points and the final `base`. -/
def pwInner (pj : JPoint) : Nat → JPoint → (List JPoint × JPoint)
  | 0, base => ([], base)
  | i + 1, base =>
    let b := jadd base pj
    let (rest, fin) := pwInner pj i b
    (b :: rest, fin)

/-- Outer loop of `precomputeWindow` over the windows. -/
def pwGo (W : Nat) : Nat → JPoint → List JPoint
  | 0, _ => []
  | w + 1, p =>
    let (inner, fin) := pwInner p (2 ^ (W - 1) - 1) p
    (p :: inner) ++ pwGo W w (jdouble fin)

/-- `JacobianPoint#precomputeWindow(W)`: `(128 / W + 1)` windows (the
endomorphism is always enabled for secp256k1) of `2^(W-1)` multiples. -/
def precomputeWindow (p : JPoint) (W : Nat) : List JPoint :=
  pwGo W (128 / W + 1) p

/-- JS array indexing; `none` is `undefined`, on which the subsequent point
operation would throw. -/
def listGet (l : List JPoint) (i : Nat) : EX JPoint :=
  match l.get? i with
  | some p => .ok p
  | none => .error .badIndex

/-- The window loop of `wNAF`: maintains the real accumulator `p` and the
fake accumulator `f`; `wleft` counts the remaining windows. -/
def wnafGo (pre : List JPoint) (windowSize maxNumber : Nat) (mask : Int) (shiftBy : Nat) :
    Nat → Nat → Int → JPoint → JPoint → EX (JPoint × JPoint)
  | 0, _, _, p, f => .ok (p, f)
  | wleft + 1, window, n, p, f => do
    let offset := window * windowSize
    let wbits0 : Int := jsAndNat n mask.toNat
    let n1 : Int := jsShr n shiftBy
    let (wbits, n2) :=
      if wbits0 > Int.ofNat windowSize then (wbits0 - Int.ofNat maxNumber, n1 + 1)
      else (wbits0, n1)
    if wbits = 0 then
      let pr0 <- listGet pre offset
      let pr := if window % 2 = 1 then jnegate pr0 else pr0
      wnafGo pre windowSize maxNumber mask shiftBy wleft (window + 1) n2 p (jadd f pr)
    else
      let c0 <- listGet pre (offset + wbits.natAbs - 1)
      let cached := if wbits < 0 then jnegate c0 else c0
      wnafGo pre windowSize maxNumber mask shiftBy wleft (window + 1) n2 (jadd p cached) f

/-- `JacobianPoint#wNAF(n, affinePoint)`.  `W` is the window size the
source reads from the affine anchor (8 for the base point, 1 otherwise);
the precompute table is normalized and cached only for `W ≠ 1`. -/
def wNAF (pj : JPoint) (n : Int) (W : Nat) : EX (JPoint × JPoint) := do
  if 256 % W != 0 then .error .wnafWindow
  else
    let pre <-
      (if W != 1 then normalizeZ (precomputeWindow pj W)
       else pure (precomputeWindow pj W))
    let windows := 128 / W + 1
    let windowSize := 2 ^ (W - 1)
    let mask : Int := Int.ofNat (2 ^ W - 1)
    wnafGo pre windowSize (2 ^ W) mask W windows 0 n jZERO jZERO

/-- `divNearest(a, b) = (a + b/2) / b` on JS bigints. -/
def divNearest (a b : Int) : Int := jsDiv (a + jsDiv b 2) b

/-- GLV lattice constant `a1`. -/
def a1c : Int := 0x3086d221a7d46bcde86c90e49284eb15

/-- GLV lattice constant `b1` (negative). -/
def b1c : Int := -1 * 0xe4437ed6010e88286f547fa90abfe4c3

/-- GLV lattice constant `a2`. -/
def a2c : Int := 0x114ca50f7a8e2f3f657c1108d9d44cfd8

/-- `2^128` (numeral form, proved in `POW_2_128_def`). -/
def POW_2_128 : Int := 340282366920938463463374607431768211456

theorem POW_2_128_def : POW_2_128 = jsPow 2 128 := by decide

/-- `splitScalarEndo(k)`: split into `(k1neg, k1, k2neg, k2)` with
`k = ±k1 + λ·(±k2) (mod n)` and both halves `≤ 2^128`, else throw. -/
def splitScalarEndo (k : Int) : EX (Bool × Int × Bool × Int) :=
  let b2 := a1c
  let c1 := divNearest (b2 * k) Nc
  let c2 := divNearest (-b1c * k) Nc
  let k1 := mod (k - c1 * a1c - c2 * a2c) Nc
  let k2 := mod (-c1 * b1c - c2 * b2) Nc
  let k1neg := k1 > POW_2_128
  let k2neg := k2 > POW_2_128
  let k1 := if k1neg then Nc - k1 else k1
  let k2 := if k2neg then Nc - k2 else k2
  if k1 > POW_2_128 || k2 > POW_2_128 then .error .splitEndoFail
  else .ok (k1neg, k1, k2neg, k2)

/-- `normalizeScalar` on a bigint argument (every call site of the
embedding passes a bigint): `0 < scalar < n` or throw. -/
def normalizeScalar (num : Int) : EX Int :=
  if isWithinCurveOrder num then .ok num else .error .invalidScalar

/-- `JacobianPoint#multiply(scalar, affinePoint)`: constant-pattern wNAF
with the endomorphism split; returns the `normalizeZ`-normalized real
point (the fake point is discarded).  `W` is the anchor's window size. -/
def jmultiply (pj : JPoint) (scalar : Int) (W : Nat) : EX JPoint := do
  let n <- normalizeScalar scalar
  let (k1neg, k1, k2neg, k2) <- splitScalarEndo n
  let (k1p0, f1p) <- wNAF pj k1 W
  let (k2p0, f2p) <- wNAF pj k2 W
  let k1p := if k1neg then jnegate k1p0 else k1p0
  let k2p1 := if k2neg then jnegate k2p0 else k2p0
  let k2p : JPoint := ⟨mod (k2p1.x * betaC) Pc, k2p1.y, k2p1.z⟩
  let point := jadd k1p k2p
  let fake := jadd f1p f2p
  let norm <- normalizeZ [point, fake]
  match norm with
  | pt :: _ => .ok pt
  | [] => .error .badIndex

/-- The `while (k1 > 0 || k2 > 0)` double-and-add loop of
`multiplyUnsafe`, with fuel (both halves are `≤ 2^128`, so 200 always
suffices). -/
def muLoop : Nat → Int → Int → JPoint → JPoint → JPoint → EX (JPoint × JPoint)
  | 0, k1, k2, k1p, k2p, _ =>
    if k1 > 0 || k2 > 0 then .error .loopFuel else .ok (k1p, k2p)
  | fuel + 1, k1, k2, k1p, k2p, d =>
    if k1 > 0 || k2 > 0 then
      let k1p1 := if jsAndNat k1 1 = 1 then jadd k1p d else k1p
      let k2p1 := if jsAndNat k2 1 = 1 then jadd k2p d else k2p
      muLoop fuel (jsShr k1 1) (jsShr k2 1) k1p1 k2p1 (jdouble d)
    else .ok (k1p, k2p)

/-- `JacobianPoint#multiplyUnsafe(scalar)`: endomorphism split followed by
plain double-and-add on both halves. -/
def multiplyUnsafe (pj : JPoint) (scalar : Int) : EX JPoint := do
  let n <- normalizeScalar scalar
  let (k1neg, k1, k2neg, k2) <- splitScalarEndo n
  let (k1p0, k2p0) <- muLoop 200 k1 k2 jZERO jZERO pj
  let k1p := if k1neg then jnegate k1p0 else k1p0
  let k2p1 := if k2neg then jnegate k2p0 else k2p0
  let k2p : JPoint := ⟨mod (k2p1.x * betaC) Pc, k2p1.y, k2p1.z⟩
  return jadd k1p k2p

/-- `Point#assertValidity`: coordinates in `(0, P)` and `y² = x³ + 7`. -/
def assertValidity (p : Point) : EX Unit :=
  if !(isValidFieldElement p.x) || !(isValidFieldElement p.y) then
    .error .pointNotOnCurve
  else if mod (mod (p.y * p.y) Pc - weistrass p.x) Pc != 0 then
    .error .pointNotOnCurve
  else .ok ()

/-- `Point#negate`. -/
def pointNegate (p : Point) : Point := ⟨p.x, mod (-p.y) Pc⟩

/-- `Point#add` (convert to Jacobian, add, convert back). -/
def pointAdd (p q : Point) : EX Point :=
  toAffine (jadd (fromAffine p) (fromAffine q))

/-- `Point#subtract`. -/
def pointSub (p q : Point) : EX Point := pointAdd p (pointNegate q)

/-- `Point#multiply(scalar)` with the point's window size `W`. -/
def pointMultiply (p : Point) (scalar : Int) (W : Nat) : EX Point := do
  toAffine (<- jmultiply (fromAffine p) scalar W)

/-- `hasEvenY`. -/
def hasEvenY (p : Point) : Bool := mod p.y 2 = 0

/-- `Point.fromCompressedHex` (32-byte Schnorr x-only, or 33-byte ECDSA). -/
def fromCompressedHex (bytes : List Nat) : EX Point := do
  let isShort : Bool := bytes.length == 32
  let x <- bytesToNumber (if isShort then bytes else bytes.drop 1)
  if !(isValidFieldElement x) then .error .pointNotOnCurve
  else
    let y2 := weistrass x
    let y0 := sqrtMod y2
    let isYOdd : Bool := jsAndNat y0 1 == 1
    let y :=
      if isShort then
        if isYOdd then mod (-y0) Pc else y0
      else
        let isFirstByteOdd : Bool := (bytes.headD 0) % 2 == 1
        if isFirstByteOdd != isYOdd then mod (-y0) Pc else y0
    let point : Point := ⟨x, y⟩
    let _ <- assertValidity point
    return point

/-- `Point.fromUncompressedHex` (65 bytes, `04 x y`). -/
def fromUncompressedHex (bytes : List Nat) : EX Point := do
  let x <- bytesToNumber ((bytes.drop 1).take 32)
  let y <- bytesToNumber (bytes.drop 33)
  let point : Point := ⟨x, y⟩
  let _ <- assertValidity point
  return point

/-- `Point.fromHex`: dispatch on length and tag byte. -/
def pointFromHex (hex : HexInput) : EX Point := do
  let bytes <- ensureBytes hex
  let header := bytes.headD 0
  if bytes.length = 32 || (bytes.length = 33 && (header = 2 || header = 3)) then
    fromCompressedHex bytes
  else if bytes.length = 65 && header = 4 then
    fromUncompressedHex bytes
  else .error .invalidPointHex

/-- The source's `PrivKey = Hex | bigint | number` input type (the `number`
alternative is subsumed by `int` for the values the claims quantify over). -/
inductive PrivInput : Type where
  | int (i : Int)
  | hex (h : HexInput)
deriving DecidableEq, Repr

/-- `normalizePrivateKey`. -/
def normalizePrivateKey (key : PrivInput) : EX Int := do
  let num <-
    match key with
    | .int i => pure i
    | .hex (.str s) =>
      if s.length != 64 then .error .invalidPrivateKey else hexToNumber s
    | .hex (.bytes b) =>
      if b.length != 32 then .error .invalidPrivateKey else bytesToNumber b
  if !(isWithinCurveOrder num) then .error .invalidPrivateKey
  else return num

/-- `Point.fromPrivateKey`: `Point.BASE.multiply(d)`; the base point's
window size is 8 (set by `Point.BASE._setWindowSize(8)` at module load). -/
def fromPrivateKey (privateKey : PrivInput) : EX Point := do
  pointMultiply basePoint (<- normalizePrivateKey privateKey) 8

/-- `Point#toHex(isCompressed)`. -/
def pointToHex (p : Point) (isCompressed : Bool) : EX (List Char) := do
  let x <- numTo32bStr p.x
  if isCompressed then
    return (if jsAndNat p.y 1 = 1 then ['0', '3'] else ['0', '2']) ++ x
  else
    return ['0', '4'] ++ x ++ (<- numTo32bStr p.y)

/-- `Point#toRawBytes(isCompressed)`. -/
def pointToRawBytes (p : Point) (isCompressed : Bool) : EX (List Nat) := do
  hexToBytes (<- pointToHex p isCompressed)

/-- `Point#toRawX` (compressed bytes without the parity byte). -/
def pointToRawX (p : Point) : EX (List Nat) := do
  return (<- pointToRawBytes p true).drop 1

/-! ## Signature / DER layer -/

/-- `sliceDER(s)`: prepend `00` when the leading hex digit is `>= 8`
(`parseInt` of an undefined first character is `NaN`, hence no padding). -/
def sliceDER (s : List Char) : List Char :=
  match s with
  | [] => s
  | c :: _ =>
    match jsParseIntHex [c] with
    | some v => if v >= 8 then '0' :: '0' :: s else s
    | none => s

/-- `parseDERInt(data)`: one `02 len payload` integer; rejects a missing or
wrong tag, a zero or mismatched length, and a non-minimal encoding (leading
zero byte followed by a byte `<= 0x7f`).  As in JS, when the payload has a
single byte the `res[1] <= 0x7f` comparison involves `undefined` and is
false (modelled by the out-of-range default 256). -/
def parseDERInt (data : List Nat) : EX (Int × List Nat) := do
  if data.length < 2 || data.headD 0 != 2 then .error .sigIntTag
  else
    let len := data.getD 1 0
    let res := (data.drop 2).take len
    if len = 0 || res.length != len then .error .sigIntLength
    else if res.headD 0 = 0 && res.getD 1 256 <= 0x7f then .error .sigIntTrailing
    else do
      let v <- bytesToNumber res
      return (v, data.drop (len + 2))

/-- `parseDERSignature(data)`: `30 len (r-int) (s-int)` with no bytes left. -/
def parseDERSignature (data : List Nat) : EX (Int × Int) := do
  if data.length < 2 || data.headD 0 != 0x30 then .error .sigTag
  else if data.getD 1 0 != data.length - 2 then .error .sigLength
  else do
    let (r, sBytes) <- parseDERInt (data.drop 2)
    let (s, rBytesLeft) <- parseDERInt sBytes
    if rBytesLeft.length != 0 then .error .sigLeftBytes
    else return (r, s)

/-- ECDSA signature value (the source's `Signature` fields). -/
structure Signature : Type where
  r : Int
  s : Int
deriving DecidableEq, Repr

/-- `Signature#assertValidity`: `0 < r < n` and `0 < s < n`. -/
def sigAssertValidity (sig : Signature) : EX Unit :=
  if !(isWithinCurveOrder sig.r) then .error .sigInvalidR
  else if !(isWithinCurveOrder sig.s) then .error .sigInvalidS
  else .ok ()

/-- `new Signature(r, s)` (the constructor immediately asserts validity). -/
def mkSignature (r s : Int) : EX Signature := do
  let sig : Signature := ⟨r, s⟩
  let _ <- sigAssertValidity sig
  return sig

/-- The source's `Sig = Hex | Signature` input type. -/
inductive SigInput : Type where
  | sig (s : Signature)
  | hex (h : HexInput)
deriving DecidableEq, Repr

/-- `Signature.fromCompact`. -/
def signatureFromCompact (hex : HexInput) : EX Signature := do
  let str :=
    match hex with
    | .bytes b => bytesToHex b
    | .str s => s
  if str.length != 128 then .error .compactExpected64
  else do
    let r <- hexToNumber (str.take 64)
    let s <- hexToNumber ((str.drop 64).take 64)
    mkSignature r s

/-- `Signature.fromDER` (bytes are used directly, a string goes through
`hexToBytes`). -/
def signatureFromDER (hex : HexInput) : EX Signature := do
  let bytes <-
    match hex with
    | .bytes b => pure b
    | .str s => hexToBytes s
  let (r, s) <- parseDERSignature bytes
  mkSignature r s

/-- `normalizeSignature`: a `Signature` instance is re-validated; a hex
input is tried as DER first, then as compact. -/
def normalizeSignature (signature : SigInput) : EX Signature :=
  match signature with
  | .sig s => do
    let _ <- sigAssertValidity s
    return s
  | .hex h =>
    match signatureFromDER h with
    | .ok s => .ok s
    | .error _ => signatureFromCompact h

/-- `Signature#hasHighS`: `s > n >> 1`. -/
def hasHighS (sig : Signature) : Bool := sig.s > jsShr Nc 1

/-- `Signature#normalizeS`. -/
def normalizeS (sig : Signature) : Signature :=
  if hasHighS sig then ⟨sig.r, Nc - sig.s⟩ else sig

/-- `Signature#toDERHex(isCompressed)`. -/
def toDERHex (sig : Signature) (isCompressed : Bool) : List Char :=
  let sHex := sliceDER (numberToHex sig.s)
  if isCompressed then sHex
  else
    let rHex := sliceDER (numberToHex sig.r)
    let rLen := numberToHex (Int.ofNat (rHex.length / 2))
    let sLen := numberToHex (Int.ofNat (sHex.length / 2))
    let len := numberToHex (Int.ofNat (rHex.length / 2 + sHex.length / 2 + 4))
    ['3', '0'] ++ len ++ ['0', '2'] ++ rLen ++ rHex ++ ['0', '2'] ++ sLen ++ sHex

/-- `Signature#toDERRawBytes`. -/
def toDERRawBytes (sig : Signature) (isCompressed : Bool) : EX (List Nat) :=
  hexToBytes (toDERHex sig isCompressed)

/-- `Signature#toCompactHex`. -/
def toCompactHex (sig : Signature) : EX (List Char) := do
  return (<- numTo32bStr sig.r) ++ (<- numTo32bStr sig.s)

/-- `Signature#toCompactRawBytes`. -/
def toCompactRawBytes (sig : Signature) : EX (List Nat) := do
  hexToBytes (<- toCompactHex sig)

/-- The source's `PubKey = Hex | Point` input type. -/
inductive PubInput : Type where
  | point (p : Point)
  | hex (h : HexInput)
deriving DecidableEq, Repr

/-- `normalizePublicKey`. -/
def normalizePublicKey (publicKey : PubInput) : EX Point :=
  match publicKey with
  | .point p => do
    let _ <- assertValidity p
    return p
  | .hex h => pointFromHex h

/-! ## ECDSA verify and public-key recovery -/

/-- `verify(signature, msgHash, publicKey, { strict })`.  The first
`try/catch` covers signature normalization and hash byte conversion, the
second covers public-key normalization; everything else throws through. -/
def verify (signature : SigInput) (msgHash : HexInput) (publicKey : PubInput)
    (strict : Bool) : EX Bool := do
  let parsed : Option (Signature × List Nat) :=
    match (do
      let sig <- normalizeSignature signature
      let m <- ensureBytes msgHash
      pure (sig, m) : EX (Signature × List Nat)) with
    | .ok x => some x
    | .error _ => none
  match parsed with
  | none => return false
  | some (sig, msgBytes) =>
    if strict && hasHighS sig then return false
    else do
      let h <- truncateHash msgBytes
      if h = 0 then return false
      else
        match normalizePublicKey publicKey with
        | .error _ => return false
        | .ok pub => do
          let pubKey := fromAffine pub
          let s1 <- invert sig.s Nc
          let u1 := mod (h * s1) Nc
          let u2 := mod (sig.r * s1) Nc
          let Ghs1 <- jmultiply jBASE u1 8
          let Prs1 <- multiplyUnsafe pubKey u2
          let R <- toAffine (jadd Ghs1 Prs1)
          let v := mod R.x Nc
          return v == sig.r

/-- `Point.fromSignature(msgHash, signature, recovery)`: the candidate
point is decoded from `(recovery, r)` and `Q = r⁻¹(sP − hG)` is computed
with the unsafe multiplication; every failure throws. -/
def pointFromSignature (msgHash : HexInput) (signature : SigInput)
    (recovery : Int) : EX Point := do
  let msg <- ensureBytes msgHash
  let h <- truncateHash msg
  let sig <- normalizeSignature signature
  if recovery != 0 && recovery != 1 then .error .invalidRecovery
  else if h = 0 then .error .zeroMsgHash
  else do
    let pD : Char := if jsAndNat recovery 1 = 1 then '3' else '2'
    let rStr <- numTo32bStr sig.r
    let P_ <- pointFromHex (.str ('0' :: pD :: rStr))
    let sP <- multiplyUnsafe (fromAffine P_) sig.s
    let hG <- jmultiply jBASE h 8
    let rinv <- invert sig.r Nc
    let Q <- multiplyUnsafe (jsub sP hG) rinv
    let point <- toAffine Q
    let _ <- assertValidity point
    return point

/-- `recoverPublicKey(msgHash, signature, recovery)`: no internal catch,
all `Point.fromSignature` errors propagate; there is no code path that
produces the `undefined` of the declared return type. -/
def recoverPublicKey (msgHash : HexInput) (signature : SigInput)
    (recovery : Int) : EX (List Nat) := do
  pointToRawBytes (<- pointFromSignature msgHash signature recovery) false

/-! ## Schnorr (BIP-340) verification -/

/-- `taggedHash(tag, ...messages)` over the injected `sha`. -/
def taggedHash (sha : List Nat → List Nat) (tag : List Char)
    (messages : List (List Nat)) : EX Int := do
  let tagB := tag.map Char.toNat
  let tagH := sha tagB
  let h := sha (concatBytes ([tagH, tagH] ++ messages))
  bytesToNumber h

/-- `createChallenge(x, P, message)`. -/
def createChallenge (sha : List Nat → List Nat) (x : Int) (p : Point)
    (message : List Nat) : EX Int := do
  let rx <- numTo32b x
  let px <- pointToRawX p
  let t <- taggedHash sha ("BIP0340/challenge".toList) [rx, px, message]
  return mod t Nc

/-- Schnorr signature value. -/
structure SchnorrSignature : Type where
  r : Int
  s : Int
deriving DecidableEq, Repr

/-- `new SchnorrSignature(r, s)`: requires `0 < r < P` and `0 < s < n`. -/
def mkSchnorrSignature (r s : Int) : EX SchnorrSignature :=
  if !(isValidFieldElement r) || !(isWithinCurveOrder s) then
    .error .schnorrInvalidSig
  else .ok ⟨r, s⟩

/-- `SchnorrSignature.fromHex`: exactly 64 bytes, split 32/32 big-endian. -/
def schnorrSignatureFromHex (hex : HexInput) : EX SchnorrSignature := do
  let bytes <- ensureBytes hex
  if bytes.length != 64 then .error .schnorrExpected64
  else do
    let r <- bytesToNumber (bytes.take 32)
    let s <- bytesToNumber ((bytes.drop 32).take 32)
    mkSchnorrSignature r s

/-- Signature argument of `schnorrVerify` (the dynamic
`instanceof SchnorrSignature` dispatch of the source). -/
inductive SchnorrSigInput : Type where
  | sig (s : SchnorrSignature)
  | hex (h : HexInput)
deriving DecidableEq, Repr

/-- `schnorrVerify(signature, message, publicKey)` over the injected
`sha`.  Note the accept test compares `R` against `Point.BASE`. -/
def schnorrVerify (sha : List Nat → List Nat) (signature : SchnorrSigInput)
    (message : HexInput) (publicKey : HexInput) : EX Bool := do
  let sig <-
    match signature with
    | .sig s => pure s
    | .hex h => schnorrSignatureFromHex h
  let m <- ensureBytes message
  let P <- normalizePublicKey (.hex publicKey)
  let e <- createChallenge sha sig.r P m
  let sG <- fromPrivateKey (.int sig.s)
  let eP <- pointMultiply P e 1
  let R <- pointSub sG eP
  if R == basePoint || !(hasEvenY R) || R.x != sig.r then return false
  else return true

/-! ## Proof infrastructure: `mod` and basic arithmetic bridges -/

theorem jsMod_eq_emod {a b : Int} (ha : 0 <= a) (hb : 0 <= b) : jsMod a b = a % b :=
  Int.tmod_eq_emod ha hb

theorem tmod_gt_neg (a : Int) {b : Int} (hb : 0 < b) : -b < Int.tmod a b := by
  match a, b with
  | .ofNat m, b =>
    exact lt_of_lt_of_le (by omega) (Int.tmod_nonneg b (Int.ofNat_nonneg m))
  | .negSucc m, .ofNat (n + 1) =>
    show -(Int.ofNat (n + 1)) < -Int.ofNat ((m + 1) % (n + 1))
    exact Int.neg_lt_neg (Int.ofNat_lt.mpr (Nat.mod_lt _ (Nat.succ_pos n)))

theorem mod_emod (a b : Int) (hb : 0 < b) : mod a b = a % b := by
  unfold mod jsMod
  have htd : Int.tmod a b = a - b * Int.tdiv a b := Int.tmod_def a b
  have hcong : (Int.tmod a b) % b = a % b := by
    rw [htd, Int.sub_eq_add_neg, Int.neg_mul_eq_mul_neg, Int.add_mul_emod_self_left]
  by_cases h : 0 <= Int.tmod a b
  · have hlt : Int.tmod a b < b := Int.tmod_lt_of_pos a hb
    simp only [ge_iff_le, h, if_pos]
    rw [← hcong, Int.emod_eq_of_lt h hlt]
  · have hgt : -b < Int.tmod a b := tmod_gt_neg a hb
    have h0 : ¬ (Int.tmod a b >= 0) := h
    simp only [ge_iff_le, h0, if_false]
    have h2 : (b + Int.tmod a b) % b = a % b := by
      have h3 := Int.add_mul_emod_self_left (Int.tmod a b) b 1
      rw [Int.mul_one] at h3
      rw [← hcong, Int.add_comm, h3]
    rw [← h2, Int.emod_eq_of_lt (by omega) (by omega)]

theorem mod_nonneg_lt (a : Int) {b : Int} (hb : 0 < b) : 0 <= mod a b ∧ mod a b < b := by
  rw [mod_emod a b hb]
  exact ⟨Int.emod_nonneg a (by omega), Int.emod_lt_of_pos a hb⟩

theorem Pc_pos : (0 : Int) < Pc := by decide

theorem Nc_pos : (0 : Int) < Nc := by decide

theorem jsPow_two (a : Int) : jsPow a 2 = a * a := by
  show jsPow a 1 * a = a * a
  show jsPow a 0 * a * a = a * a
  show (1 : Int) * a * a = a * a
  rw [Int.one_mul]

/-! ## Proof infrastructure: big-endian byte and hex values -/

/-- Big-endian value of a byte list (specification-side helper). -/
def beVal (bs : List Nat) : Nat := bs.foldl (fun a b => 256 * a + b) 0

/-- Big-endian value of a hex-digit-value list (specification-side). -/
def hexVal (ds : List Nat) : Nat := ds.foldl (fun a d => 16 * a + d) 0

theorem hexDigitVal_hexChar {d : Nat} (hd : d < 16) : hexDigitVal (hexChar d) = some d := by
  interval_cases d <;> decide

theorem hexChar_not_ws {d : Nat} (hd : d < 16) : jsWhitespace (hexChar d) = false := by
  interval_cases d <;> decide

theorem hexChar_not_sign {d : Nat} (hd : d < 16) : hexChar d ≠ '+' ∧ hexChar d ≠ '-' := by
  interval_cases d <;> exact ⟨by decide, by decide⟩

theorem hexChar_ne_x {d : Nat} (hd : d < 16) : hexChar d ≠ 'x' ∧ hexChar d ≠ 'X' := by
  interval_cases d <;> exact ⟨by decide, by decide⟩

/-- The three digit ranges of `hexDigitVal`. -/
theorem hexDigitVal_bounds {c : Char} {d : Nat} (h : hexDigitVal c = some d) :
    (48 <= c.toNat ∧ c.toNat <= 57 ∧ d = c.toNat - 48) ∨
    (97 <= c.toNat ∧ c.toNat <= 102 ∧ d = c.toNat - 87) ∨
    (65 <= c.toNat ∧ c.toNat <= 70 ∧ d = c.toNat - 55) := by
  unfold hexDigitVal at h
  split at h
  next hc =>
    simp only [Bool.and_eq_true, decide_eq_true_eq] at hc
    simp only [Option.some.injEq] at h
    exact Or.inl ⟨hc.1, hc.2, h.symm⟩
  next =>
    split at h
    next hc =>
      simp only [Bool.and_eq_true, decide_eq_true_eq] at hc
      simp only [Option.some.injEq] at h
      exact Or.inr (Or.inl ⟨hc.1, hc.2, h.symm⟩)
    next =>
      split at h
      next hc =>
        simp only [Bool.and_eq_true, decide_eq_true_eq] at hc
        simp only [Option.some.injEq] at h
        exact Or.inr (Or.inr ⟨hc.1, hc.2, h.symm⟩)
      next => exact absurd h (by simp)

/-- A hex digit value is `< 16`. -/
theorem hexDigitVal_lt {c : Char} {d : Nat} (h : hexDigitVal c = some d) : d < 16 := by
  rcases hexDigitVal_bounds h with ⟨h1, h2, h3⟩ | ⟨h1, h2, h3⟩ | ⟨h1, h2, h3⟩ <;> omega

theorem hexDigitVal_not_ws {c : Char} {d : Nat} (h : hexDigitVal c = some d) :
    jsWhitespace c = false := by
  have hb := hexDigitVal_bounds h
  unfold jsWhitespace
  simp only [Bool.or_eq_false_iff, Bool.and_eq_false_iff, decide_eq_false_iff_not]
  omega

/-- Specification-side: bytes of consecutive hex-digit-value pairs. -/
def pairBytes : List Nat → List Nat
  | [] => []
  | [_] => []
  | d1 :: d2 :: t => (16 * d1 + d2) :: pairBytes t

/-- Specification-side: the hex-digit values of a byte list. -/
def byteDigits : List Nat → List Nat
  | [] => []
  | b :: t => b / 16 :: b % 16 :: byteDigits t

theorem hexValAll_map_hexChar (ds : List Nat) (hd : ∀ d ∈ ds, d < 16) (a : Nat) :
    hexValAll (ds.map hexChar) a = some (ds.foldl (fun x d => 16 * x + d) a) := by
  induction ds generalizing a with
  | nil => rfl
  | cons d t ih =>
    have hdlt : d < 16 := hd d (List.mem_cons_self d t)
    simp only [List.map_cons, hexValAll, hexDigitVal_hexChar hdlt, List.foldl_cons]
    exact ih (fun x hx => hd x (List.mem_cons_of_mem d hx)) (16 * a + d)

theorem dropWhile_eq_self_of_all {p : Char → Bool} {l : List Char}
    (h : ∀ c ∈ l, p c = false) : l.dropWhile p = l := by
  cases l with
  | nil => rfl
  | cons c t =>
    rw [List.dropWhile_cons_of_neg]
    simp [h c (List.mem_cons_self c t)]

theorem trimEnd_eq_self_of_all {l : List Char}
    (h : ∀ c ∈ l, jsWhitespace c = false) :
    (l.reverse.dropWhile jsWhitespace).reverse = l := by
  rw [dropWhile_eq_self_of_all (fun c hc => h c (List.mem_reverse.mp hc)), List.reverse_reverse]

theorem hexToNumber_map_hexChar (ds : List Nat) (hd : ∀ d ∈ ds, d < 16)
    (hne : ds ≠ []) : hexToNumber (ds.map hexChar) = .ok (Int.ofNat (hexVal ds)) := by
  unfold hexToNumber
  rw [trimEnd_eq_self_of_all (fun c hc => by
    obtain ⟨d, hdm, rfl⟩ := List.mem_map.mp hc
    exact hexChar_not_ws (hd d hdm))]
  rw [hexValAll_map_hexChar ds hd 0]
  have hemp : (ds.map hexChar).isEmpty = false := by
    cases ds with
    | nil => exact absurd rfl hne
    | cons a t => rfl
  simp only [hemp, Bool.false_eq_true, if_false, hexVal]

theorem bytesToHex_eq_map (bs : List Nat) :
    bytesToHex bs = (byteDigits bs).map hexChar := by
  induction bs with
  | nil => rfl
  | cons b t ih =>
    simp only [bytesToHex, List.foldr_cons, byteDigits, List.map_cons] at *
    rw [ih]

theorem byteDigits_lt (bs : List Nat) (h : ∀ b ∈ bs, b < 256) :
    ∀ d ∈ byteDigits bs, d < 16 := by
  induction bs with
  | nil => intro d hd; cases hd
  | cons b t ih =>
    intro d hd
    have hb : b < 256 := h b (List.mem_cons_self b t)
    simp only [byteDigits, List.mem_cons] at hd
    rcases hd with rfl | rfl | hd
    · omega
    · exact Nat.mod_lt _ (by omega)
    · exact ih (fun x hx => h x (List.mem_cons_of_mem b hx)) d hd

theorem hexVal_byteDigits_aux (bs : List Nat) (h : ∀ b ∈ bs, b < 256) (a : Nat) :
    (byteDigits bs).foldl (fun x d => 16 * x + d) a =
      bs.foldl (fun x b => 256 * x + b) a := by
  induction bs generalizing a with
  | nil => rfl
  | cons b t ih =>
    have hb : b < 256 := h b (List.mem_cons_self b t)
    simp only [byteDigits, List.foldl_cons]
    rw [ih (fun x hx => h x (List.mem_cons_of_mem b hx))]
    congr 1
    omega

theorem hexVal_byteDigits (bs : List Nat) (h : ∀ b ∈ bs, b < 256) :
    hexVal (byteDigits bs) = beVal bs :=
  hexVal_byteDigits_aux bs h 0

/-- `bytesToNumber` on a nonempty byte list is its big-endian value. -/
theorem bytesToNumber_ok (bs : List Nat) (h : ∀ b ∈ bs, b < 256) (hne : bs ≠ []) :
    bytesToNumber bs = .ok (Int.ofNat (beVal bs)) := by
  unfold bytesToNumber
  rw [bytesToHex_eq_map]
  rw [hexToNumber_map_hexChar _ (byteDigits_lt bs h)]
  · rw [hexVal_byteDigits bs h]
  · cases bs with
    | nil => exact absurd rfl hne
    | cons b t => simp [byteDigits]

/-- `bytesToNumber []` throws (`BigInt("0x")`). -/
theorem bytesToNumber_nil : bytesToNumber [] = .error .bigIntConvert := by decide

theorem jsParseIntSign_other {c : Char} {l : List Char} (h1 : c ≠ '+') (h2 : c ≠ '-') :
    jsParseIntSign (c :: l) = (1, c :: l) := by
  unfold jsParseIntSign
  split
  next heq => exact absurd (List.cons_eq_cons.mp heq).1 h1
  next heq => exact absurd (List.cons_eq_cons.mp heq).1 h2
  next => rfl

theorem jsParseIntStrip_other {c1 c2 : Char} {l : List Char}
    (h1 : ¬(c1 = '0' ∧ c2 = 'x')) (h2 : ¬(c1 = '0' ∧ c2 = 'X')) :
    jsParseIntStrip (c1 :: c2 :: l) = c1 :: c2 :: l := by
  unfold jsParseIntStrip
  split
  next heq =>
    have hc := List.cons_eq_cons.mp heq
    exact absurd ⟨hc.1, (List.cons_eq_cons.mp hc.2).1⟩ h1
  next heq =>
    have hc := List.cons_eq_cons.mp heq
    exact absurd ⟨hc.1, (List.cons_eq_cons.mp hc.2).1⟩ h2
  next => rfl

theorem jsParseIntHex_digit_pair {c1 c2 : Char} {d1 d2 : Nat}
    (h1 : hexDigitVal c1 = some d1) (h2 : hexDigitVal c2 = some d2) :
    jsParseIntHex [c1, c2] = some (Int.ofNat (16 * d1 + d2)) := by
  have hb1 := hexDigitVal_bounds h1
  have hb2 := hexDigitVal_bounds h2
  have hnw1 : jsWhitespace c1 = false := hexDigitVal_not_ws h1
  have hplus : c1 ≠ '+' := by
    intro hc
    subst hc
    have h43 : ('+').toNat = 43 := rfl
    omega
  have hminus : c1 ≠ '-' := by
    intro hc
    subst hc
    have h45 : ('-').toNat = 45 := rfl
    omega
  have hx : c2 ≠ 'x' := by
    intro hc
    subst hc
    have h120 : ('x').toNat = 120 := rfl
    omega
  have hX : c2 ≠ 'X' := by
    intro hc
    subst hc
    have h88 : ('X').toNat = 88 := rfl
    omega
  unfold jsParseIntHex
  rw [List.dropWhile_cons_of_neg (by simp [hnw1])]
  rw [jsParseIntSign_other hplus hminus,
    jsParseIntStrip_other (fun hcc => hx hcc.2) (fun hcc => hX hcc.2)]
  simp only [parseHexDigitsAux, h1, h2, Option.getD]
  rw [Int.one_mul]
  have harith : 16 * (16 * 0 + d1) + d2 = 16 * d1 + d2 := by omega
  rw [harith]

set_option maxHeartbeats 400000 in
theorem hexToBytesGo_pairs : ∀ ds : List Nat, (∀ d ∈ ds, d < 16) →
    ds.length % 2 = 0 → hexToBytesGo (ds.map hexChar) = .ok (pairBytes ds)
  | [], _, _ => rfl
  | [d], _, heven => by simp at heven
  | d1 :: d2 :: t, hd, heven => by
    have h1 : d1 < 16 := hd d1 (by simp)
    have h2 : d2 < 16 := hd d2 (by simp)
    have ih := hexToBytesGo_pairs t (fun x hx => hd x (by simp [hx]))
      (by simp only [List.length_cons] at heven; omega)
    rw [List.map_cons, List.map_cons]
    show (match jsParseIntHex [hexChar d1, hexChar d2] with
      | none => Except.error Err.badByteSequence
      | some b =>
        if b < 0 then Except.error Err.badByteSequence
        else do
          let bs ← hexToBytesGo ((t).map hexChar)
          return b.toNat :: bs) = _
    rw [jsParseIntHex_digit_pair (hexDigitVal_hexChar h1) (hexDigitVal_hexChar h2)]
    have hneg : ¬ ((Int.ofNat (16 * d1 + d2)) < 0) := Int.not_lt.mpr (Int.ofNat_nonneg _)
    simp only [hneg, if_false, ih, pairBytes, Int.toNat_ofNat]
    rfl

theorem hexToBytes_pairs (ds : List Nat) (hd : ∀ d ∈ ds, d < 16)
    (heven : ds.length % 2 = 0) : hexToBytes (ds.map hexChar) = .ok (pairBytes ds) := by
  unfold hexToBytes
  rw [List.length_map]
  simp only [heven, if_neg (by omega : ¬ (0 = 1))]
  exact hexToBytesGo_pairs ds hd heven

theorem pairBytes_length : ∀ ds : List Nat, (pairBytes ds).length = ds.length / 2
  | [] => rfl
  | [_] => by simp [pairBytes]
  | d1 :: d2 :: t => by
    simp only [pairBytes, List.length_cons, pairBytes_length t]
    omega

theorem pairBytes_lt : ∀ ds : List Nat, (∀ d ∈ ds, d < 16) →
    ∀ b ∈ pairBytes ds, b < 256
  | [], _ => by intro b hb; cases hb
  | [_], _ => by intro b hb; cases hb
  | d1 :: d2 :: t, hd => by
    intro b hb
    simp only [pairBytes, List.mem_cons] at hb
    rcases hb with rfl | hb
    · have h1 : d1 < 16 := hd d1 (by simp)
      have h2 : d2 < 16 := hd d2 (by simp)
      omega
    · exact pairBytes_lt t (fun x hx => hd x (by simp [hx])) b hb

theorem beVal_pairBytes_aux : ∀ ds : List Nat, ds.length % 2 = 0 → ∀ a : Nat,
    (pairBytes ds).foldl (fun x b => 256 * x + b) a =
      ds.foldl (fun x d => 16 * x + d) a
  | [], _, _ => rfl
  | [_], h, _ => by simp at h
  | d1 :: d2 :: t, h, a => by
    simp only [pairBytes, List.foldl_cons]
    rw [beVal_pairBytes_aux t (by simp only [List.length_cons] at h; omega)]
    congr 1
    omega

theorem beVal_pairBytes (ds : List Nat) (heven : ds.length % 2 = 0) :
    beVal (pairBytes ds) = hexVal ds :=
  beVal_pairBytes_aux ds heven 0

/-- Specification-side hex digits of a natural number (mirrors
`natHexDigits` at the digit-value level). -/
def natDigits16 : Nat → Nat → List Nat
  | 0, _ => []
  | fuel + 1, n => if n < 16 then [n] else natDigits16 fuel (n / 16) ++ [n % 16]

theorem natHexDigits_eq_map : ∀ fuel n, natHexDigits fuel n = (natDigits16 fuel n).map hexChar
  | 0, _ => rfl
  | fuel + 1, n => by
    simp only [natHexDigits, natDigits16]
    by_cases h : n < 16
    · simp [h]
    · simp only [h, if_false, List.map_append, natHexDigits_eq_map fuel (n / 16), List.map_cons,
        List.map_nil]

theorem natDigits16_lt : ∀ fuel n, ∀ d ∈ natDigits16 fuel n, d < 16
  | 0, _ => by intro d hd; cases hd
  | fuel + 1, n => by
    intro d hd
    simp only [natDigits16] at hd
    by_cases h : n < 16
    · simp only [h, if_true, List.mem_singleton] at hd
      omega
    · simp only [h, if_false, List.mem_append, List.mem_singleton] at hd
      rcases hd with hd | rfl
      · exact natDigits16_lt fuel (n / 16) d hd
      · exact Nat.mod_lt _ (by omega)

theorem hexVal_append_digit (l : List Nat) (d : Nat) :
    hexVal (l ++ [d]) = 16 * hexVal l + d := by
  unfold hexVal
  rw [List.foldl_append]
  rfl

theorem natDigits16_val : ∀ fuel n, n < 16 ^ fuel → hexVal (natDigits16 fuel n) = n
  | 0, n, h => by
    simp only [pow_zero, Nat.lt_one_iff] at h
    simp [natDigits16, hexVal, h]
  | fuel + 1, n, h => by
    simp only [natDigits16]
    by_cases hn : n < 16
    · simp [hn, hexVal]
    · simp only [hn, if_false]
      rw [hexVal_append_digit, natDigits16_val fuel (n / 16) (by
        rw [pow_succ] at h
        exact Nat.div_lt_of_lt_mul (by omega))]
      omega

theorem natDigits16_ne_nil : ∀ fuel n, 0 < fuel → natDigits16 fuel n ≠ []
  | fuel + 1, n, _ => by
    simp only [natDigits16]
    by_cases h : n < 16
    · simp [h]
    · simp only [h, if_false]
      intro hc
      exact absurd (List.append_eq_nil.mp hc).2 (by simp)

theorem natDigits16_length_le : ∀ fuel n k, n < 16 ^ k → 1 <= k → k <= fuel →
    (natDigits16 fuel n).length <= k
  | 0, _, _, _, _, _ => by omega
  | fuel + 1, n, k, hk, h1, hf => by
    simp only [natDigits16]
    by_cases h : n < 16
    · simp only [h, if_true, List.length_singleton]
      omega
    · simp only [h, if_false, List.length_append, List.length_singleton]
      have hk2 : 2 <= k := by
        by_contra hc
        have : k = 1 := by omega
        subst this
        simp only [pow_one] at hk
        omega
      have := natDigits16_length_le fuel (n / 16) (k - 1)
        (by
          have : 16 ^ k = 16 ^ (k - 1) * 16 := by
            have hke : k - 1 + 1 = k := by omega
            rw [← pow_succ, hke]
          exact Nat.div_lt_of_lt_mul (by omega))
        (by omega) (by omega)
      omega

theorem natDigits16_head_pos : ∀ fuel n, 16 <= n → n < 16 ^ fuel →
    (natDigits16 fuel n).headD 0 ≠ 0
  | 0, n, h16, hlt => by
    simp only [pow_zero] at hlt
    omega
  | fuel + 1, n, h16, hlt => by
    simp only [natDigits16]
    have h : ¬ (n < 16) := by omega
    simp only [h, if_false]
    have hdiv : n / 16 < 16 ^ fuel := by
      rw [pow_succ] at hlt
      exact Nat.div_lt_of_lt_mul (by omega)
    by_cases hd : 16 <= n / 16
    · have ih := natDigits16_head_pos fuel (n / 16) hd hdiv
      have hne := natDigits16_ne_nil fuel (n / 16) (by
        by_contra hf
        have : fuel = 0 := by omega
        subst this
        simp only [pow_zero] at hdiv
        omega)
      cases hnd : natDigits16 fuel (n / 16) with
      | nil => exact absurd hnd hne
      | cons a t =>
        rw [hnd] at ih
        simpa using ih
    · have hpos : 1 <= n / 16 := Nat.one_le_div_iff (by omega) |>.mpr h16
      have hlt16 : n / 16 < 16 := by omega
      cases fuel with
      | zero =>
        simp only [pow_zero] at hdiv
        omega
      | succ f =>
        have hnd : natDigits16 (f + 1) (n / 16) = [n / 16] := by
          simp [natDigits16, hlt16]
        rw [hnd, List.cons_append, List.headD_cons]
        omega

theorem padStart_length (s : List Char) (n : Nat) (c : Char) (h : s.length <= n) :
    (padStart s n c).length = n := by
  simp only [padStart, List.length_append, List.length_replicate]
  omega

theorem padStart_zero_map (ds : List Nat) (n : Nat) :
    padStart (ds.map hexChar) n '0' =
      (List.replicate (n - ds.length) 0 ++ ds).map hexChar := by
  simp only [padStart, List.map_append, List.map_replicate, List.length_map]
  rfl

theorem hexVal_replicate_zero (k : Nat) (ds : List Nat) :
    hexVal (List.replicate k 0 ++ ds) = hexVal ds := by
  induction k with
  | zero => rfl
  | succ m ih =>
    simp only [List.replicate_succ, List.cons_append, hexVal, List.foldl_cons] at *
    simpa using ih

/-- Zero-padded 64 hex-digit values of `n < 16^64`. -/
def pad64 (n : Nat) : List Nat :=
  List.replicate (64 - (natDigits16 600 n).length) 0 ++ natDigits16 600 n

theorem pow16_64_eq : (16 : Nat) ^ 64 = 2 ^ 256 := by norm_num

theorem pad64_length {n : Nat} (h : n < 2 ^ 256) : (pad64 n).length = 64 := by
  have hlen : (natDigits16 600 n).length <= 64 :=
    natDigits16_length_le 600 n 64 (by rw [pow16_64_eq]; exact h) (by omega) (by omega)
  simp only [pad64, List.length_append, List.length_replicate]
  omega

theorem pad64_lt (n : Nat) : ∀ d ∈ pad64 n, d < 16 := by
  intro d hd
  simp only [pad64, List.mem_append, List.mem_replicate] at hd
  rcases hd with ⟨_, rfl⟩ | hd
  · omega
  · exact natDigits16_lt 600 n d hd

theorem pad64_val {n : Nat} (h : n < 2 ^ 256) : hexVal (pad64 n) = n := by
  rw [pad64, hexVal_replicate_zero, natDigits16_val 600 n (by
    calc n < 2 ^ 256 := h
    _ <= 16 ^ 600 := by norm_num)]

theorem numTo32bStr_ok {num : Int} (h0 : 0 <= num) (hlt : num < POW_2_256) :
    numTo32bStr num = .ok ((pad64 num.toNat).map hexChar) := by
  unfold numTo32bStr
  rw [if_neg (by omega)]
  unfold natToString16
  rw [natHexDigits_eq_map]
  show Except.ok (padStart _ 64 '0') = _
  rw [padStart_zero_map]
  rw [pad64]

theorem toNat_lt_2_256 {num : Int} (h0 : 0 <= num) (hlt : num < POW_2_256) :
    num.toNat < 2 ^ 256 := by
  have hp : POW_2_256 = ((2 ^ 256 : Nat) : Int) := by decide
  rw [hp] at hlt
  omega

/-- `numTo32b` on `0 <= num < 2^256`: exactly the 32 big-endian bytes. -/
theorem numTo32b_ok {num : Int} (h0 : 0 <= num) (hlt : num < POW_2_256) :
    numTo32b num = .ok (pairBytes (pad64 num.toNat)) := by
  unfold numTo32b
  rw [numTo32bStr_ok h0 hlt]
  show hexToBytes _ = _
  rw [hexToBytes_pairs _ (pad64_lt num.toNat)
    (by rw [pad64_length (toNat_lt_2_256 h0 hlt)])]

theorem numTo32b_bytes_length {num : Int} (h0 : 0 <= num) (hlt : num < POW_2_256) :
    (pairBytes (pad64 num.toNat)).length = 32 := by
  rw [pairBytes_length, pad64_length (toNat_lt_2_256 h0 hlt)]

theorem numTo32b_bytes_lt (num : Int) : ∀ b ∈ pairBytes (pad64 num.toNat), b < 256 :=
  pairBytes_lt _ (pad64_lt num.toNat)

theorem numTo32b_bytes_val {num : Int} (h0 : 0 <= num) (hlt : num < POW_2_256) :
    beVal (pairBytes (pad64 num.toNat)) = num.toNat := by
  rw [beVal_pairBytes _ (by rw [pad64_length (toNat_lt_2_256 h0 hlt)]),
    pad64_val (toNat_lt_2_256 h0 hlt)]

/-- Generalization of the digit-pair parse to arbitrary hex-digit
characters (upper- or lowercase). -/
theorem hexToBytesGo_pairsGen : ∀ ps : List (Char × Nat),
    (∀ p ∈ ps, hexDigitVal p.1 = some p.2) → ps.length % 2 = 0 →
    hexToBytesGo (ps.map (fun p => p.1)) = .ok (pairBytes (ps.map (fun p => p.2)))
  | [], _, _ => rfl
  | [_], _, heven => by simp at heven
  | p1 :: p2 :: t, hd, heven => by
    have h1 : hexDigitVal p1.1 = some p1.2 := hd p1 (by simp)
    have h2 : hexDigitVal p2.1 = some p2.2 := hd p2 (by simp)
    have ih := hexToBytesGo_pairsGen t (fun x hx => hd x (by simp [hx]))
      (by simp only [List.length_cons] at heven; omega)
    rw [List.map_cons, List.map_cons]
    show (match jsParseIntHex [p1.1, p2.1] with
      | none => Except.error Err.badByteSequence
      | some b =>
        if b < 0 then Except.error Err.badByteSequence
        else do
          let bs ← hexToBytesGo (t.map (fun p : Char × Nat => p.1))
          return b.toNat :: bs) = _
    rw [jsParseIntHex_digit_pair h1 h2]
    have hneg : ¬ ((Int.ofNat (16 * p1.2 + p2.2)) < 0) := Int.not_lt.mpr (Int.ofNat_nonneg _)
    simp only [hneg, if_false, ih, List.map_cons, pairBytes, Int.toNat_ofNat]
    rfl

/-- A pair whose first character is not whitespace, not a sign and not a
hex digit makes JS `parseInt` return `NaN`. -/
theorem jsParseIntHex_bad_first {c1 c2 : Char} (hno : hexDigitVal c1 = none)
    (hws : jsWhitespace c1 = false) (hp : c1 ≠ '+') (hm : c1 ≠ '-') :
    jsParseIntHex [c1, c2] = none := by
  have h0 : c1 ≠ '0' := by
    intro hc
    rw [hc] at hno
    exact absurd hno (by decide)
  unfold jsParseIntHex
  rw [List.dropWhile_cons_of_neg (by simp [hws])]
  rw [jsParseIntSign_other hp hm, jsParseIntStrip_other (fun hcc => h0 hcc.1) (fun hcc => h0 hcc.1)]
  simp only [parseHexDigitsAux, hno]

/-- `hexToBytesGo` raises as soon as some group fails to parse. -/
theorem hexToBytesGo_bad : ∀ pre : List Char, ∀ c1 c2 : Char, ∀ post : List Char,
    pre.length % 2 = 0 →
    (jsParseIntHex [c1, c2] = none ∨ ∃ v : Int, jsParseIntHex [c1, c2] = some v ∧ v < 0) →
    ∃ e, hexToBytesGo (pre ++ c1 :: c2 :: post) = .error e
  | [], c1, c2, post, _, hbad => by
    rcases hbad with hnone | ⟨v, hv, hneg⟩
    · exact ⟨.badByteSequence, by
        show (match jsParseIntHex [c1, c2] with
          | none => Except.error Err.badByteSequence
          | some b =>
            if b < 0 then Except.error Err.badByteSequence
            else do
              let bs ← hexToBytesGo post
              return b.toNat :: bs) = _
        rw [hnone]⟩
    · exact ⟨.badByteSequence, by
        show (match jsParseIntHex [c1, c2] with
          | none => Except.error Err.badByteSequence
          | some b =>
            if b < 0 then Except.error Err.badByteSequence
            else do
              let bs ← hexToBytesGo post
              return b.toNat :: bs) = _
        rw [hv]
        simp only [hneg, if_true]⟩
  | [_], _, _, _, hpre, _ => by simp at hpre
  | a :: b :: pre, c1, c2, post, hpre, hbad => by
    obtain ⟨e, he⟩ := hexToBytesGo_bad pre c1 c2 post
      (by simp only [List.length_cons] at hpre; omega) hbad
    cases hj : jsParseIntHex [a, b] with
    | none =>
      exact ⟨.badByteSequence, by
        show (match jsParseIntHex [a, b] with
          | none => Except.error Err.badByteSequence
          | some v =>
            if v < 0 then Except.error Err.badByteSequence
            else do
              let bs ← hexToBytesGo (pre ++ c1 :: c2 :: post)
              return v.toNat :: bs) = _
        rw [hj]⟩
    | some v =>
      by_cases hv : v < 0
      · exact ⟨.badByteSequence, by
          show (match jsParseIntHex [a, b] with
            | none => Except.error Err.badByteSequence
            | some v =>
              if v < 0 then Except.error Err.badByteSequence
              else do
                let bs ← hexToBytesGo (pre ++ c1 :: c2 :: post)
                return v.toNat :: bs) = _
          rw [hj]
          simp only [hv, if_true]⟩
      · exact ⟨e, by
          show (match jsParseIntHex [a, b] with
            | none => Except.error Err.badByteSequence
            | some v =>
              if v < 0 then Except.error Err.badByteSequence
              else do
                let bs ← hexToBytesGo (pre ++ c1 :: c2 :: post)
                return v.toNat :: bs) = _
          rw [hj]
          simp only [hv, if_false, he]
          rfl⟩

theorem EX_bind_ok {α β : Type} (a : α) (f : α → EX β) :
    (Except.ok a >>= f) = f a := rfl

theorem EX_bind_err {α β : Type} (e : Err) (f : α → EX β) :
    ((Except.error e : EX α) >>= f) = .error e := rfl

/-! ## Claim C8: Schnorr signature parsing range -/

/-- C8, counterexample: the all-zero 64-byte signature has `r = 0 ∈ [0, P)`
and `s = 0 ∈ [0, n)`, which the claim says must parse successfully, yet the
parser rejects it (`isValidFieldElement`/`isWithinCurveOrder` demand strict
positivity). -/
theorem claim_C8_counterexample :
    (0 : Int) < Pc ∧ (0 : Int) < Nc ∧
    beVal ((List.replicate 64 0).take 32) = 0 ∧
    beVal (((List.replicate 64 0).drop 32).take 32) = 0 ∧
    schnorrSignatureFromHex (.bytes (List.replicate 64 0)) =
      .error .schnorrInvalidSig := by
  refine ⟨by decide, by decide, by decide, by decide, by decide⟩

theorem take32_props {bs : List Nat} (hlen : bs.length = 64) (hb : ∀ b ∈ bs, b < 256) :
    (bs.take 32).length = 32 ∧ (∀ b ∈ bs.take 32, b < 256) ∧
    ((bs.drop 32).take 32).length = 32 ∧ (∀ b ∈ (bs.drop 32).take 32, b < 256) := by
  refine ⟨?_, ?_, ?_, ?_⟩
  · rw [List.length_take, hlen]
    decide
  · intro b hbm
    exact hb b (List.take_subset 32 bs hbm)
  · rw [List.length_take, List.length_drop, hlen]
    decide
  · intro b hbm
    exact hb b (List.drop_subset 32 bs (List.take_subset 32 _ hbm))

theorem mkSchnorrSignature_spec (r s : Int) :
    mkSchnorrSignature r s =
      if 0 < r ∧ r < Pc ∧ 0 < s ∧ s < Nc then .ok ⟨r, s⟩
      else .error .schnorrInvalidSig := by
  unfold mkSchnorrSignature isValidFieldElement isWithinCurveOrder
  split
  next hcond =>
    simp only [Bool.or_eq_true, Bool.not_eq_true', Bool.and_eq_false_iff,
      decide_eq_false_iff_not] at hcond
    rw [if_neg (by
      intro hall
      rcases hcond with (h | h) | (h | h) <;> exact h (by tauto))]
  next hcond =>
    simp only [Bool.or_eq_true, Bool.not_eq_true', Bool.and_eq_false_iff,
      decide_eq_false_iff_not, not_or] at hcond
    push_neg at hcond
    rw [if_pos ⟨hcond.1.1, hcond.1.2, hcond.2.1, hcond.2.2⟩]

/-- C8, amended: a 64-byte signature parses exactly when `0 < r < P` and
`0 < s < n` (strict, not the claim's `r ∈ [0, P)`, `s ∈ [0, n)`); any other
length is rejected; every `(r, s)` in the strict ranges round-trips through
the 64-byte encoding. -/
theorem claim_C8 :
    (∀ bs : List Nat, bs.length = 64 → (∀ b ∈ bs, b < 256) →
      schnorrSignatureFromHex (.bytes bs) =
        (if 0 < (beVal (bs.take 32) : Int) ∧ (beVal (bs.take 32) : Int) < Pc ∧
            0 < (beVal ((bs.drop 32).take 32) : Int) ∧
            (beVal ((bs.drop 32).take 32) : Int) < Nc
         then .ok ⟨(beVal (bs.take 32) : Int), (beVal ((bs.drop 32).take 32) : Int)⟩
         else .error .schnorrInvalidSig)) ∧
    (∀ bs : List Nat, bs.length ≠ 64 →
      schnorrSignatureFromHex (.bytes bs) = .error .schnorrExpected64) ∧
    (∀ r s : Int, 0 < r → r < Pc → 0 < s → s < Nc →
      ∃ rb sb : List Nat, numTo32b r = .ok rb ∧ numTo32b s = .ok sb ∧
        schnorrSignatureFromHex (.bytes (rb ++ sb)) = .ok ⟨r, s⟩) := by
  have hmain : ∀ bs : List Nat, bs.length = 64 → (∀ b ∈ bs, b < 256) →
      schnorrSignatureFromHex (.bytes bs) =
        (if 0 < (beVal (bs.take 32) : Int) ∧ (beVal (bs.take 32) : Int) < Pc ∧
            0 < (beVal ((bs.drop 32).take 32) : Int) ∧
            (beVal ((bs.drop 32).take 32) : Int) < Nc
         then .ok ⟨(beVal (bs.take 32) : Int), (beVal ((bs.drop 32).take 32) : Int)⟩
         else .error .schnorrInvalidSig) := by
    intro bs hlen hb
    obtain ⟨hl1, hb1, hl2, hb2⟩ := take32_props hlen hb
    have hne1 : bs.take 32 ≠ [] := by
      intro hc
      rw [hc] at hl1
      simp at hl1
    have hne2 : (bs.drop 32).take 32 ≠ [] := by
      intro hc
      rw [hc] at hl2
      simp at hl2
    unfold schnorrSignatureFromHex
    rw [show ensureBytes (HexInput.bytes bs) = .ok bs from rfl, EX_bind_ok]
    simp only [hlen]
    rw [if_neg (by decide)]
    rw [bytesToNumber_ok _ hb1 hne1, EX_bind_ok]
    rw [bytesToNumber_ok _ hb2 hne2, EX_bind_ok]
    rw [mkSchnorrSignature_spec]
    simp only [Int.ofNat_eq_natCast]
  refine ⟨hmain, ?_, ?_⟩
  · intro bs hlen
    unfold schnorrSignatureFromHex
    rw [show ensureBytes (HexInput.bytes bs) = .ok bs from rfl, EX_bind_ok]
    rw [if_pos (by simpa using hlen)]
  · intro r s hr0 hrP hs0 hsN
    have hrlt : r < POW_2_256 := lt_trans hrP (by decide)
    have hslt : s < POW_2_256 := lt_trans hsN (by decide)
    refine ⟨pairBytes (pad64 r.toNat), pairBytes (pad64 s.toNat),
      numTo32b_ok (by omega) hrlt, numTo32b_ok (by omega) hslt, ?_⟩
    have hrl := @numTo32b_bytes_length r (by omega) hrlt
    have hsl := @numTo32b_bytes_length s (by omega) hslt
    have hcat_len : (pairBytes (pad64 r.toNat) ++ pairBytes (pad64 s.toNat)).length = 64 := by
      rw [List.length_append, hrl, hsl]
    have hcat_lt : ∀ b ∈ pairBytes (pad64 r.toNat) ++ pairBytes (pad64 s.toNat), b < 256 := by
      intro b hbm
      rcases List.mem_append.mp hbm with hbm | hbm
      · exact numTo32b_bytes_lt r b hbm
      · exact numTo32b_bytes_lt s b hbm
    rw [hmain _ hcat_len hcat_lt]
    have htake : (pairBytes (pad64 r.toNat) ++ pairBytes (pad64 s.toNat)).take 32 =
        pairBytes (pad64 r.toNat) := by
      rw [← hrl, List.take_left]
    have hdrop : (pairBytes (pad64 r.toNat) ++ pairBytes (pad64 s.toNat)).drop 32 =
        pairBytes (pad64 s.toNat) := by
      rw [← hrl, List.drop_left]
    rw [htake, hdrop, List.take_of_length_le (by omega)]
    rw [numTo32b_bytes_val (by omega) hrlt, numTo32b_bytes_val (by omega) hslt]
    have hrn : ((r.toNat : Nat) : Int) = r := Int.toNat_of_nonneg (by omega)
    have hsn : ((s.toNat : Nat) : Int) = s := Int.toNat_of_nonneg (by omega)
    rw [hrn, hsn]
    rw [if_pos ⟨hr0, hrP, hs0, hsN⟩]

/-- C8, witness: a concrete in-range pair round-trips, and a concrete
out-of-range 64-byte signature is rejected. -/
theorem claim_C8_witness :
    (∃ rb sb : List Nat, numTo32b 1 = .ok rb ∧ numTo32b 2 = .ok sb ∧
      schnorrSignatureFromHex (.bytes (rb ++ sb)) = .ok ⟨1, 2⟩) ∧
    schnorrSignatureFromHex (.bytes (List.replicate 63 0)) = .error .schnorrExpected64 := by
  constructor
  · exact claim_C8.2.2 1 2 (by decide) (by decide) (by decide) (by decide)
  · exact claim_C8.2.1 (List.replicate 63 0) (by decide)

/-! ## Claim C10: bad hex raising -/

/-- C10, counterexample: `"0z"` contains a character outside `0-9a-fA-F`,
yet `hexToBytes` converts it to the single byte `0x00` instead of raising
(JS `parseInt("0z", 16)` parses the longest digit prefix `"0"`). -/
theorem claim_C10_counterexample :
    hexDigitVal 'z' = none ∧ hexToBytes ['0', 'z'] = .ok [0] := by
  exact ⟨by decide, by decide⟩

/-- C10, amended: the conversion raises on odd-length strings, converts
every even-length all-hex-digit string to its byte values, raises when
the first character of some 2-character group is not a hex digit (nor
whitespace, nor a sign), and also raises when some group is exactly
`"0x"` or `"0X"` (JS `parseInt(·, 16)` strips the hex prefix and then
finds no digits); but not every string with a character outside
`0-9a-fA-F` raises — the counterexample group `"0z"` parses its longest
digit prefix and yields the byte `0x00`. -/
theorem claim_C10 :
    (∀ s : List Char, s.length % 2 = 1 → hexToBytes s = .error .unpaddedHex) ∧
    (∀ ps : List (Char × Nat), (∀ p ∈ ps, hexDigitVal p.1 = some p.2) →
      ps.length % 2 = 0 →
      hexToBytes (ps.map (fun p => p.1)) = .ok (pairBytes (ps.map (fun p => p.2)))) ∧
    (∀ pre : List Char, ∀ c1 c2 : Char, ∀ post : List Char,
      (pre ++ c1 :: c2 :: post).length % 2 = 0 → pre.length % 2 = 0 →
      hexDigitVal c1 = none → jsWhitespace c1 = false → c1 ≠ '+' → c1 ≠ '-' →
      ∃ e, hexToBytes (pre ++ c1 :: c2 :: post) = .error e) ∧
    (∀ pre : List Char, ∀ c2 : Char, ∀ post : List Char,
      (pre ++ '0' :: c2 :: post).length % 2 = 0 → pre.length % 2 = 0 →
      c2 = 'x' ∨ c2 = 'X' →
      ∃ e, hexToBytes (pre ++ '0' :: c2 :: post) = .error e) := by
  refine ⟨?_, ?_, ?_, ?_⟩
  · intro s hodd
    unfold hexToBytes
    rw [if_pos hodd]
  · intro ps hps heven
    unfold hexToBytes
    rw [List.length_map]
    rw [if_neg (by omega)]
    exact hexToBytesGo_pairsGen ps hps heven
  · intro pre c1 c2 post htot hpre hno hws hp hm
    obtain ⟨e, he⟩ := hexToBytesGo_bad pre c1 c2 post hpre
      (Or.inl (jsParseIntHex_bad_first hno hws hp hm))
    refine ⟨e, ?_⟩
    unfold hexToBytes
    rw [if_neg (by omega)]
    exact he
  · intro pre c2 post htot hpre hc2
    have hnone : jsParseIntHex ['0', c2] = none := by
      rcases hc2 with rfl | rfl
      · decide
      · decide
    obtain ⟨e, he⟩ := hexToBytesGo_bad pre '0' c2 post hpre (Or.inl hnone)
    refine ⟨e, ?_⟩
    unfold hexToBytes
    rw [if_neg (by omega)]
    exact he

/-- C10, witness: instances of the four parts at concrete inputs. -/
theorem claim_C10_witness :
    hexToBytes ['a', 'b', 'c'] = .error .unpaddedHex ∧
    hexToBytes ['A', 'b'] = .ok [171] ∧
    (∃ e, hexToBytes ['z', '0'] = .error e) ∧
    (∃ e, hexToBytes ['0', 'x'] = .error e) := by
  refine ⟨claim_C10.1 ['a', 'b', 'c'] (by decide), ?_, ?_, ?_⟩
  · have h := claim_C10.2.1 [('A', 10), ('b', 11)] (by decide) (by decide)
    simpa using h
  · have h := claim_C10.2.2.1 [] 'z' '0' [] (by decide) (by decide) (by decide)
      (by decide) (by decide) (by decide)
    simpa using h
  · have h := claim_C10.2.2.2 [] 'x' [] (by decide) (by decide) (Or.inl rfl)
    simpa using h

/-! ## Claim C7: recoverPublicKey error behavior -/

/-- C7, counterexample: an invalid recovery bit makes `recoverPublicKey`
throw (`Cannot recover signature: invalid recovery bit`) instead of
returning the absent value the claim promises; there is no code path that
produces `undefined`. -/
theorem claim_C7_counterexample :
    recoverPublicKey (.bytes (List.replicate 31 0 ++ [1])) (.sig ⟨1, 1⟩) 2 =
      .error .invalidRecovery := by
  decide

/-- C7, amended: `recoverPublicKey` raises rather than returning
`undefined`: on an invalid recovery bit, on a message hash whose truncation
is zero, on an invalid signature (the `normalizeSignature` error
propagates), and on an invalid candidate point (the error of the
compressed-point decode of `(recovery, r)` propagates); its only outcomes
are a public-key byte array or a raised error. -/
theorem claim_C7 :
    (∀ (msgHash : HexInput) (sig : SigInput) (recovery : Int),
      recovery ≠ 0 → recovery ≠ 1 →
      ∃ e, recoverPublicKey msgHash sig recovery = .error e) ∧
    (∀ (msgHash : HexInput) (sig : SigInput) (recovery : Int) (bs : List Nat),
      ensureBytes msgHash = .ok bs → truncateHash bs = .ok 0 →
      ∃ e, recoverPublicKey msgHash sig recovery = .error e) ∧
    (∀ (msgHash : HexInput) (sig : SigInput) (recovery : Int) (e0 : Err),
      normalizeSignature sig = .error e0 →
      ∃ e, recoverPublicKey msgHash sig recovery = .error e) ∧
    (∀ (msgHash : HexInput) (sig : SigInput) (recovery : Int) (bs : List Nat)
        (h : Int) (s : Signature) (rStr : List Char) (e0 : Err),
      ensureBytes msgHash = .ok bs → truncateHash bs = .ok h →
      normalizeSignature sig = .ok s →
      (recovery != 0 && recovery != 1) = false → h ≠ 0 →
      numTo32bStr s.r = .ok rStr →
      pointFromHex (.str ('0' :: (if jsAndNat recovery 1 = 1 then '3' else '2') :: rStr))
        = .error e0 →
      recoverPublicKey msgHash sig recovery = .error e0) := by
  refine ⟨?_, ?_, ?_, ?_⟩
  · intro msgHash sig recovery h0 h1
    unfold recoverPublicKey pointFromSignature
    cases hms : ensureBytes msgHash with
    | error e => exact ⟨e, rfl⟩
    | ok bs =>
      rw [EX_bind_ok]
      cases hth : truncateHash bs with
      | error e => exact ⟨e, rfl⟩
      | ok h =>
        rw [EX_bind_ok]
        cases hns : normalizeSignature sig with
        | error e => exact ⟨e, rfl⟩
        | ok s =>
          rw [EX_bind_ok]
          rw [if_pos (by simp [h0, h1])]
          exact ⟨.invalidRecovery, rfl⟩
  · intro msgHash sig recovery bs hms hth
    unfold recoverPublicKey pointFromSignature
    rw [hms, EX_bind_ok, hth, EX_bind_ok]
    cases hns : normalizeSignature sig with
    | error e => exact ⟨e, rfl⟩
    | ok s =>
      rw [EX_bind_ok]
      by_cases hrec : recovery != 0 && recovery != 1
      · rw [if_pos hrec]
        exact ⟨.invalidRecovery, rfl⟩
      · rw [if_neg hrec]
        rw [if_pos rfl]
        exact ⟨.zeroMsgHash, rfl⟩
  · intro msgHash sig recovery e0 hns
    unfold recoverPublicKey pointFromSignature
    cases hms : ensureBytes msgHash with
    | error e => exact ⟨e, rfl⟩
    | ok bs =>
      rw [EX_bind_ok]
      cases hth : truncateHash bs with
      | error e => exact ⟨e, rfl⟩
      | ok h =>
        rw [EX_bind_ok, hns]
        exact ⟨e0, rfl⟩
  · intro msgHash sig recovery bs h s rStr e0 hms hth hns hrec hh0 hrs hpfh
    unfold recoverPublicKey pointFromSignature
    rw [hms, EX_bind_ok, hth, EX_bind_ok, hns, EX_bind_ok]
    rw [if_neg (show ¬ ((recovery != 0 && recovery != 1) = true) from by
      rw [hrec]; exact Bool.false_ne_true)]
    rw [if_neg hh0]
    simp only [hrs, EX_bind_ok, hpfh, EX_bind_err]

/-- C7, witness: the amended behavior at concrete inputs — a bad recovery
bit, a zero-truncation hash, an invalid signature (`r = 0`), and a valid
signature whose `r = 5` is not the x-coordinate of any curve point
(`5³ + 7 = 132` is a quadratic non-residue mod `P`). -/
theorem claim_C7_witness :
    (∃ e, recoverPublicKey (.str []) (.sig ⟨1, 1⟩) 3 = .error e) ∧
    (∃ e, recoverPublicKey (.bytes (List.replicate 32 0)) (.sig ⟨1, 1⟩) 0 = .error e) ∧
    (∃ e, recoverPublicKey (.bytes (List.replicate 31 0 ++ [1])) (.sig ⟨0, 1⟩) 0
      = .error e) ∧
    recoverPublicKey (.bytes (List.replicate 31 0 ++ [1])) (.sig ⟨5, 1⟩) 0
      = .error .pointNotOnCurve := by
  refine ⟨?_, ?_, ?_, ?_⟩
  · exact claim_C7.1 (.str []) (.sig ⟨1, 1⟩) 3 (by decide) (by decide)
  · exact claim_C7.2.1 (.bytes (List.replicate 32 0)) (.sig ⟨1, 1⟩) 0
      (List.replicate 32 0) (by decide) (by decide)
  · exact claim_C7.2.2.1 (.bytes (List.replicate 31 0 ++ [1])) (.sig ⟨0, 1⟩) 0
      .sigInvalidR (by decide)
  · exact claim_C7.2.2.2 (.bytes (List.replicate 31 0 ++ [1])) (.sig ⟨5, 1⟩) 0
      (List.replicate 31 0 ++ [1]) 1 ⟨5, 1⟩ (List.replicate 63 '0' ++ ['5'])
      .pointNotOnCurve (by decide) (by decide) (by decide) (by decide) (by decide)
      (by decide) (by decide)

/-! ## Claim C2: verify error behavior -/

/-- C2, counterexample: `verify` raises instead of returning a boolean.
With a valid signature and public key but an empty message hash, the
`truncateHash` call sits outside every `try/catch` and its
`bytesToNumber([])` throws (`BigInt("0x")` is a `SyntaxError`). -/
theorem claim_C2_counterexample :
    verify (.sig ⟨1, 1⟩) (.str []) (.point basePoint) true =
      .error .bigIntConvert := by
  decide

/-- C2, amended: `verify` returns `false` rather than raising on malformed
signatures, malformed public keys, and zero truncated hashes; but it is not
exception-free: the hash conversion can raise (empty hash, see the
counterexample), and when the computed point `R = u1·G + u2·P` is the
identity, `toAffine` raises (`invert(0)`) instead of returning `false`. -/
theorem claim_C2 :
    (∀ (signature : SigInput) (msgHash : HexInput) (publicKey : PubInput) (strict : Bool),
      (∃ e, normalizeSignature signature = .error e) ∨
      (∃ e, ensureBytes msgHash = .error e) →
      verify signature msgHash publicKey strict = .ok false) ∧
    (∀ (signature : SigInput) (msgHash : HexInput) (publicKey : PubInput) (strict : Bool)
      (sig : Signature) (bs : List Nat),
      normalizeSignature signature = .ok sig → ensureBytes msgHash = .ok bs →
      ¬(strict && hasHighS sig) = true → truncateHash bs = .ok 0 →
      verify signature msgHash publicKey strict = .ok false) ∧
    (∀ (signature : SigInput) (msgHash : HexInput) (publicKey : PubInput) (strict : Bool)
      (sig : Signature) (bs : List Nat) (h : Int),
      normalizeSignature signature = .ok sig → ensureBytes msgHash = .ok bs →
      ¬(strict && hasHighS sig) = true → truncateHash bs = .ok h → h ≠ 0 →
      (∃ e, normalizePublicKey publicKey = .error e) →
      verify signature msgHash publicKey strict = .ok false) ∧
    (∀ (signature : SigInput) (msgHash : HexInput) (publicKey : PubInput) (strict : Bool)
      (sig : Signature) (bs : List Nat) (h s1 : Int) (pub : Point) (Q1 Q2 : JPoint),
      normalizeSignature signature = .ok sig → ensureBytes msgHash = .ok bs →
      ¬(strict && hasHighS sig) = true → truncateHash bs = .ok h → h ≠ 0 →
      normalizePublicKey publicKey = .ok pub →
      invert sig.s Nc = .ok s1 →
      jmultiply jBASE (mod (h * s1) Nc) 8 = .ok Q1 →
      multiplyUnsafe (fromAffine pub) (mod (sig.r * s1) Nc) = .ok Q2 →
      jadd Q1 Q2 = jZERO →
      verify signature msgHash publicKey strict = .error .expectedPositive) := by
  refine ⟨?_, ?_, ?_, ?_⟩
  · intro signature msgHash publicKey strict hbad
    unfold verify
    rcases hbad with ⟨e, he⟩ | ⟨e, he⟩
    · rw [he]
      rfl
    · cases hns : normalizeSignature signature with
      | error e2 => rfl
      | ok sig => rw [EX_bind_ok, he]; rfl
  · intro signature msgHash publicKey strict sig bs hns hms hstrict hth
    unfold verify
    rw [hns, EX_bind_ok, hms]
    show (if (strict && hasHighS sig) = true then pure false
      else do
        let h ← truncateHash bs
        if h = 0 then pure false
        else
          match normalizePublicKey publicKey with
          | .error _ => pure false
          | .ok pub => do
            let pubKey := fromAffine pub
            let s1 ← invert sig.s Nc
            let u1 := mod (h * s1) Nc
            let u2 := mod (sig.r * s1) Nc
            let Ghs1 ← jmultiply jBASE u1 8
            let Prs1 ← multiplyUnsafe pubKey u2
            let R ← toAffine (jadd Ghs1 Prs1)
            let v := mod R.x Nc
            pure (v == sig.r)) = Except.ok false
    rw [if_neg hstrict, hth, EX_bind_ok, if_pos rfl]
    rfl
  · intro signature msgHash publicKey strict sig bs h hns hms hstrict hth hne hpube
    obtain ⟨e, he⟩ := hpube
    unfold verify
    rw [hns, EX_bind_ok, hms]
    show (if (strict && hasHighS sig) = true then pure false
      else do
        let h ← truncateHash bs
        if h = 0 then pure false
        else
          match normalizePublicKey publicKey with
          | .error _ => pure false
          | .ok pub => do
            let pubKey := fromAffine pub
            let s1 ← invert sig.s Nc
            let u1 := mod (h * s1) Nc
            let u2 := mod (sig.r * s1) Nc
            let Ghs1 ← jmultiply jBASE u1 8
            let Prs1 ← multiplyUnsafe pubKey u2
            let R ← toAffine (jadd Ghs1 Prs1)
            let v := mod R.x Nc
            pure (v == sig.r)) = Except.ok false
    rw [if_neg hstrict, hth, EX_bind_ok, if_neg hne, he]
    rfl
  · intro signature msgHash publicKey strict sig bs h s1 pub Q1 Q2 hns hms hstrict hth hne
      hpub hinv hm1 hm2 hzero
    unfold verify
    rw [hns, EX_bind_ok, hms]
    show (if (strict && hasHighS sig) = true then pure false
      else do
        let h ← truncateHash bs
        if h = 0 then pure false
        else
          match normalizePublicKey publicKey with
          | .error _ => pure false
          | .ok pub => do
            let pubKey := fromAffine pub
            let s1 ← invert sig.s Nc
            let u1 := mod (h * s1) Nc
            let u2 := mod (sig.r * s1) Nc
            let Ghs1 ← jmultiply jBASE u1 8
            let Prs1 ← multiplyUnsafe pubKey u2
            let R ← toAffine (jadd Ghs1 Prs1)
            let v := mod R.x Nc
            pure (v == sig.r)) = Except.error .expectedPositive
    rw [if_neg hstrict, hth, EX_bind_ok, if_neg hne, hpub]
    show (do
      let s1v ← invert sig.s Nc
      let Ghs1 ← jmultiply jBASE (mod (h * s1v) Nc) 8
      let Prs1 ← multiplyUnsafe (fromAffine pub) (mod (sig.r * s1v) Nc)
      let R ← toAffine (jadd Ghs1 Prs1)
      pure (mod R.x Nc == sig.r)) = Except.error Err.expectedPositive
    rw [hinv, EX_bind_ok, hm1, EX_bind_ok, hm2, EX_bind_ok, hzero]
    rfl

/-! ## Claim C5 machinery: DER integer encodings -/

/-- Pad a digit list to even length with a leading zero digit. -/
def padEven (ds : List Nat) : List Nat :=
  if ds.length % 2 = 1 then 0 :: ds else ds

/-- Specification-side: minimal big-endian bytes of `n` (the bytes of
`numberToHex`). -/
def minBytes (n : Nat) : List Nat := pairBytes (padEven (natDigits16 600 n))

/-- Specification-side: hex digits of one DER integer after `sliceDER`. -/
def derIntDigits (n : Nat) : List Nat :=
  if 8 <= (padEven (natDigits16 600 n)).headD 0 then
    0 :: 0 :: padEven (natDigits16 600 n)
  else padEven (natDigits16 600 n)

/-- Specification-side: payload bytes of one DER integer (the spec's
"minimal big-endian, with a leading 0x00 byte iff the MSB of the first
payload byte is set"). -/
def derInt (n : Nat) : List Nat := pairBytes (derIntDigits n)

theorem padEven_lt {ds : List Nat} (h : ∀ d ∈ ds, d < 16) :
    ∀ d ∈ padEven ds, d < 16 := by
  unfold padEven
  split
  · intro d hd
    rcases List.mem_cons.mp hd with rfl | hd
    · omega
    · exact h d hd
  · exact h

theorem padEven_even (ds : List Nat) : (padEven ds).length % 2 = 0 := by
  unfold padEven
  split
  next h => simp only [List.length_cons]; omega
  next h => omega

theorem hexVal_padEven (ds : List Nat) : hexVal (padEven ds) = hexVal ds := by
  unfold padEven
  split
  · show hexVal (List.replicate 1 0 ++ ds) = hexVal ds
    exact hexVal_replicate_zero 1 ds
  · rfl

theorem derIntDigits_lt (n : Nat) : ∀ d ∈ derIntDigits n, d < 16 := by
  unfold derIntDigits
  have hbase := padEven_lt (natDigits16_lt 600 n)
  split
  · intro d hd
    rcases List.mem_cons.mp hd with rfl | hd
    · omega
    · rcases List.mem_cons.mp hd with rfl | hd
      · omega
      · exact hbase d hd
  · exact hbase

theorem derIntDigits_even (n : Nat) : (derIntDigits n).length % 2 = 0 := by
  unfold derIntDigits
  have := padEven_even (natDigits16 600 n)
  split
  · simp only [List.length_cons]
    omega
  · exact this

/-- JS `parseInt` of a single hex-digit character. -/
theorem jsParseIntHex_digit {c : Char} {d : Nat} (h : hexDigitVal c = some d) :
    jsParseIntHex [c] = some (Int.ofNat d) := by
  have hb := hexDigitVal_bounds h
  have hnw : jsWhitespace c = false := hexDigitVal_not_ws h
  have hplus : c ≠ '+' := by
    intro hc
    subst hc
    have h43 : ('+').toNat = 43 := rfl
    omega
  have hminus : c ≠ '-' := by
    intro hc
    subst hc
    have h45 : ('-').toNat = 45 := rfl
    omega
  unfold jsParseIntHex
  rw [List.dropWhile_cons_of_neg (by simp [hnw])]
  rw [jsParseIntSign_other hplus hminus]
  have hstrip : jsParseIntStrip [c] = [c] := by
    unfold jsParseIntStrip
    split
    next heq => exact absurd heq (by simp)
    next heq => exact absurd heq (by simp)
    next => rfl
  rw [hstrip]
  simp only [parseHexDigitsAux, h, Option.getD]
  rw [Int.one_mul]
  norm_num

theorem sliceDER_cons (c : Char) (t : List Char) :
    sliceDER (c :: t) =
      (match jsParseIntHex [c] with
       | some v => if v >= 8 then '0' :: '0' :: c :: t else c :: t
       | none => c :: t) := rfl

/-- `sliceDER` on a hex string of digits: prepends `"00"` exactly when the
leading digit is `>= 8`. -/
theorem sliceDER_digits (ds : List Nat) (hds : ∀ d ∈ ds, d < 16) (hne : ds ≠ []) :
    sliceDER (ds.map hexChar) =
      (if 8 <= ds.headD 0 then 0 :: 0 :: ds else ds).map hexChar := by
  cases ds with
  | nil => exact absurd rfl hne
  | cons d t =>
    have hd : d < 16 := hds d (by simp)
    rw [List.map_cons, sliceDER_cons, jsParseIntHex_digit (hexDigitVal_hexChar hd)]
    simp only [List.headD_cons]
    by_cases h8 : 8 <= d
    · rw [if_pos (show Int.ofNat d >= 8 from Int.ofNat_le.mpr h8), if_pos h8]
      rfl
    · rw [if_neg (show ¬ (Int.ofNat d >= 8) from fun hc => h8 (Int.ofNat_le.mp hc)), if_neg h8]
      rfl

/-- `numberToHex` of a nonnegative value, as hex digits. -/
theorem numberToHex_eq_map (n : Nat) :
    numberToHex (Int.ofNat n) = (padEven (natDigits16 600 n)).map hexChar := by
  show (if (natToString16 (Int.ofNat n).toNat).length % 2 = 1
    then '0' :: natToString16 (Int.ofNat n).toNat
    else natToString16 (Int.ofNat n).toNat) = _
  rw [show (Int.ofNat n).toNat = n from rfl]
  unfold natToString16 padEven
  rw [natHexDigits_eq_map]
  rw [List.length_map]
  split
  next h => rfl
  next h => rfl

/-- `sliceDER (numberToHex n)` is exactly the `derIntDigits` hex string. -/
theorem sliceDER_numberToHex (n : Nat) :
    sliceDER (numberToHex (Int.ofNat n)) = (derIntDigits n).map hexChar := by
  rw [numberToHex_eq_map]
  rw [sliceDER_digits _ (padEven_lt (natDigits16_lt 600 n)) ?hne]
  case hne =>
    unfold padEven
    split
    · simp
    · exact natDigits16_ne_nil 600 n (by omega)
  unfold derIntDigits
  by_cases h8 : 8 <= (padEven (natDigits16 600 n)).headD 0
  · simp only [if_pos h8]
  · simp only [if_neg h8]

theorem beVal_minBytes {n : Nat} (h : n < 16 ^ 600) : beVal (minBytes n) = n := by
  unfold minBytes
  rw [beVal_pairBytes _ (padEven_even _), hexVal_padEven, natDigits16_val 600 n h]

theorem beVal_derInt {n : Nat} (h : n < 16 ^ 600) : beVal (derInt n) = n := by
  unfold derInt derIntDigits
  split
  · show beVal (pairBytes (padEven (natDigits16 600 n))) = n
    rw [beVal_pairBytes _ (padEven_even _), hexVal_padEven, natDigits16_val 600 n h]
  · exact beVal_minBytes h

/-- Fuelled binary modular exponentiation. -/
def powModF : Nat → Nat → Nat → Nat → Nat
  | 0, _, _, m => 1 % m
  | fuel+1, a, e, m =>
    if e = 0 then 1 % m
    else
      let r := powModF fuel ((a * a) % m) (e / 2) m
      if e % 2 = 1 then (r * (a % m)) % m else r

def powMod (a e m : Nat) : Nat := powModF 600 a e m

theorem powModF_eq (fuel : Nat) : ∀ (a e m : Nat), e < 2 ^ fuel → 1 ≤ m →
    powModF fuel a e m = a ^ e % m := by
  induction fuel with
  | zero =>
    intro a e m he _
    have : e = 0 := by omega
    subst this
    simp [powModF]
  | succ f ih =>
    intro a e m he hm
    by_cases h0 : e = 0
    · subst h0; simp [powModF]
    · have hd : e / 2 < 2 ^ f := by
        have : 2 ^ (f + 1) = 2 ^ f * 2 := by ring
        omega
      have hr : powModF f ((a * a) % m) (e / 2) m = a ^ (2 * (e / 2)) % m := by
        rw [ih ((a * a) % m) (e / 2) m hd hm, ← Nat.pow_mod, ← sq, ← pow_mul]
      rcases Nat.even_or_odd e with heven | hodd
      · have hmod : ¬ e % 2 = 1 := by
          have := Nat.even_iff.mp heven; omega
        have h2 : 2 * (e / 2) = e := by
          have := Nat.even_iff.mp heven; omega
        simp only [powModF, h0, if_false]
        rw [if_neg hmod, hr, h2]
      · have h1 : e % 2 = 1 := Nat.odd_iff.mp hodd
        have h2 : 2 * (e / 2) + 1 = e := by omega
        simp only [powModF, h0, if_false]
        rw [if_pos h1, hr]
        conv_rhs => rw [← h2, pow_succ, Nat.mul_mod]

theorem powMod_eq (a e m : Nat) (he : e < 2 ^ 600) (hm : 1 ≤ m) :
    powMod a e m = a ^ e % m := powModF_eq 600 a e m he hm

def certProd (l : List (Nat × Nat)) : Nat := (l.map (fun qe => qe.1 ^ qe.2)).prod

theorem lucas_cert (p a : Nat) (l : List (Nat × Nat))
    (hp : 2 ≤ p) (hsz : p - 1 < 2 ^ 600)
    (hprod : certProd l = p - 1)
    (hq : ∀ qe ∈ l, Nat.Prime qe.1)
    (ha : powMod a (p - 1) p = 1)
    (hne : ∀ qe ∈ l, powMod a ((p - 1) / qe.1) p ≠ 1) : p.Prime := by
  have hm : 1 ≤ p := by omega
  haveI : NeZero p := ⟨by omega⟩
  haveI : Fact (1 < p) := ⟨by omega⟩
  have bridge : ∀ e, e < 2 ^ 600 → ((powMod a e p : Nat) : ZMod p) = (a : ZMod p) ^ e := by
    intro e he
    rw [powMod_eq a e p he hm, ZMod.natCast_mod, Nat.cast_pow]
  apply lucas_primality p (a : ZMod p)
  · have := bridge (p - 1) hsz
    rw [ha] at this
    rw [← this, Nat.cast_one]
  · intro q hqp hdvd hcon
    have hdv2 : q ∣ certProd l := hprod ▸ hdvd
    have : ∃ x ∈ l.map (fun qe => qe.1 ^ qe.2), q ∣ x :=
      (Nat.Prime.prime hqp).dvd_prod_iff.mp hdv2
    obtain ⟨x, hx, hqx⟩ := this
    obtain ⟨qe, hqe, rfl⟩ := List.mem_map.mp hx
    have hq1 : q ∣ qe.1 := hqp.dvd_of_dvd_pow hqx
    have hqeq : q = qe.1 := (Nat.prime_dvd_prime_iff_eq hqp (hq qe hqe)).mp hq1
    have hlt : (p - 1) / q < 2 ^ 600 := lt_of_le_of_lt (Nat.div_le_self _ _) hsz
    have hb := bridge ((p - 1) / q) hlt
    rw [hcon] at hb
    have hv : powMod a ((p - 1) / q) p < p := by
      rw [powMod_eq a _ p hlt hm]; exact Nat.mod_lt _ (by omega)
    have hval : powMod a ((p - 1) / q) p = 1 := by
      have h1 := congrArg ZMod.val hb.symm
      rw [ZMod.val_one p, ZMod.val_cast_of_lt hv] at h1
      exact h1.symm
    exact hne qe hqe (hqeq ▸ hval)

theorem prime_13331831 : Nat.Prime 13331831 := by
  apply lucas_cert 13331831 13 [(2,1),(5,1),(971,1),(1373,1)]
  · norm_num
  · decide
  · decide
  · intro qe hqe
    simp only [List.mem_cons, List.not_mem_nil, or_false] at hqe
    rcases hqe with rfl | rfl | rfl | rfl
    · exact by norm_num
    · exact by norm_num
    · exact by norm_num
    · exact by norm_num
  · decide
  · decide

theorem prime_f18_173378 : Nat.Prime 173378833005251801 := by
  apply lucas_cert 173378833005251801 6 [(2,3),(5,2),(2621,1),(24809,1),(13331831,1)]
  · norm_num
  · decide
  · decide
  · intro qe hqe
    simp only [List.mem_cons, List.not_mem_nil, or_false] at hqe
    rcases hqe with rfl | rfl | rfl | rfl | rfl
    · exact by norm_num
    · exact by norm_num
    · exact by norm_num
    · exact by norm_num
    · exact prime_13331831
  · decide
  · decide

theorem prime_f23_221494 : Nat.Prime 22149492674086928081353 := by
  apply lucas_cert 22149492674086928081353 5 [(2,3),(3,1),(5323,1),(173378833005251801,1)]
  · norm_num
  · decide
  · decide
  · intro qe hqe
    simp only [List.mem_cons, List.not_mem_nil, or_false] at hqe
    rcases hqe with rfl | rfl | rfl | rfl
    · exact by norm_num
    · exact by norm_num
    · exact by norm_num
    · exact prime_f18_173378
  · decide
  · decide

theorem prime_f24_132896 : Nat.Prime 132896956044521568488119 := by
  apply lucas_cert 132896956044521568488119 6 [(2,1),(3,1),(22149492674086928081353,1)]
  · norm_num
  · decide
  · decide
  · intro qe hqe
    simp only [List.mem_cons, List.not_mem_nil, or_false] at hqe
    rcases hqe with rfl | rfl | rfl
    · exact by norm_num
    · exact by norm_num
    · exact prime_f23_221494
  · decide
  · decide

theorem prime_1206781 : Nat.Prime 1206781 := by
  apply lucas_cert 1206781 10 [(2,2),(3,1),(5,1),(20113,1)]
  · norm_num
  · decide
  · decide
  · intro qe hqe
    simp only [List.mem_cons, List.not_mem_nil, or_false] at hqe
    rcases hqe with rfl | rfl | rfl | rfl
    · exact by norm_num
    · exact by norm_num
    · exact by norm_num
    · exact by norm_num
  · decide
  · decide

theorem prime_7240687 : Nat.Prime 7240687 := by
  apply lucas_cert 7240687 3 [(2,1),(3,1),(1206781,1)]
  · norm_num
  · decide
  · decide
  · intro qe hqe
    simp only [List.mem_cons, List.not_mem_nil, or_false] at hqe
    rcases hqe with rfl | rfl | rfl
    · exact by norm_num
    · exact by norm_num
    · exact prime_1206781
  · decide
  · decide

theorem prime_107590001 : Nat.Prime 107590001 := by
  apply lucas_cert 107590001 3 [(2,4),(5,4),(7,1),(29,1),(53,1)]
  · norm_num
  · decide
  · decide
  · intro qe hqe
    simp only [List.mem_cons, List.not_mem_nil, or_false] at hqe
    rcases hqe with rfl | rfl | rfl | rfl | rfl
    · exact by norm_num
    · exact by norm_num
    · exact by norm_num
    · exact by norm_num
    · exact by norm_num
  · decide
  · decide

theorem prime_f39_255515 : Nat.Prime 255515944373312847190720520512484175977 := by
  apply lucas_cert 255515944373312847190720520512484175977 3 [(2,3),(7,2),(11,1),(1627,1),(2657,1),(4423,1),(41201,1),(96557,1),(7240687,1),(107590001,1)]
  · norm_num
  · decide
  · decide
  · intro qe hqe
    simp only [List.mem_cons, List.not_mem_nil, or_false] at hqe
    rcases hqe with rfl | rfl | rfl | rfl | rfl | rfl | rfl | rfl | rfl | rfl
    · exact by norm_num
    · exact by norm_num
    · exact by norm_num
    · exact by norm_num
    · exact by norm_num
    · exact by norm_num
    · exact by norm_num
    · exact by norm_num
    · exact prime_7240687
    · exact prime_107590001
  · decide
  · decide

theorem prime_f72_205115 : Nat.Prime 205115282021455665897114700593932402728804164701536103180137503955397371 := by
  apply lucas_cert 205115282021455665897114700593932402728804164701536103180137503955397371 10 [(2,1),(3,1),(5,1),(29,2),(31,1),(7723,1),(132896956044521568488119,1),(255515944373312847190720520512484175977,1)]
  · norm_num
  · decide
  · decide
  · intro qe hqe
    simp only [List.mem_cons, List.not_mem_nil, or_false] at hqe
    rcases hqe with rfl | rfl | rfl | rfl | rfl | rfl | rfl | rfl
    · exact by norm_num
    · exact by norm_num
    · exact by norm_num
    · exact by norm_num
    · exact by norm_num
    · exact by norm_num
    · exact prime_f24_132896
    · exact prime_f39_255515
  · decide
  · decide

theorem prime_P : Nat.Prime 115792089237316195423570985008687907853269984665640564039457584007908834671663 := by
  apply lucas_cert 115792089237316195423570985008687907853269984665640564039457584007908834671663 3 [(2,1),(3,1),(7,1),(13441,1),(205115282021455665897114700593932402728804164701536103180137503955397371,1)]
  · norm_num
  · decide
  · decide
  · intro qe hqe
    simp only [List.mem_cons, List.not_mem_nil, or_false] at hqe
    rcases hqe with rfl | rfl | rfl | rfl | rfl
    · exact by norm_num
    · exact by norm_num
    · exact by norm_num
    · exact by norm_num
    · exact prime_f72_205115
  · decide
  · decide


/-! ## C9: sqrtMod computes the (P+1)/4 power -/

/-- `(P+1)/4`, the exponent computed by `sqrtMod`'s addition chain. -/
def EXP_P14 : Nat := 28948022309329048855892746252171976963317496166410141009864396001977208667916

theorem EXP_P14_def : 4 * (EXP_P14 : Int) = Pc + 1 := by decide

theorem intPow_emod (a : Int) (n : Nat) (m : Int) : a ^ n % m = (a % m) ^ n % m := by
  induction n with
  | zero => rfl
  | succ k ih =>
    conv_lhs => rw [pow_succ, Int.mul_emod, ih]
    conv_rhs => rw [pow_succ, Int.mul_emod, Int.emod_emod_of_dvd a dvd_rfl]

theorem pow2_spec (k : Nat) : ∀ b : Int, 0 ≤ b → b < Pc →
    pow2 b k = b ^ (2 ^ k) % Pc := by
  induction k with
  | zero =>
    intro b hb hblt
    show b = b ^ 1 % Pc
    rw [pow_one, Int.emod_eq_of_lt hb hblt]
  | succ k ih =>
    intro b hb hblt
    show pow2 (jsMod (b * b) Pc) k = b ^ (2 ^ (k+1)) % Pc
    rw [show jsMod (b * b) Pc = (b * b) % Pc from
      Int.tmod_eq_emod (mul_nonneg hb hb) (le_of_lt Pc_pos)]
    rw [ih _ (Int.emod_nonneg _ (ne_of_gt Pc_pos)) (Int.emod_lt_of_pos _ Pc_pos)]
    rw [← intPow_emod, ← sq, ← pow_mul]
    congr 1
    rw [pow_succ, mul_comm]

theorem emod_modEq_self (a : Int) : a % Pc ≡ a [ZMOD Pc] :=
  Int.emod_emod_of_dvd a dvd_rfl

theorem chainStep (x : Int) (e eb k : Nat) :
    jsMod (pow2 (x ^ e % Pc) k * (x ^ eb % Pc)) Pc = x ^ (e * 2 ^ k + eb) % Pc := by
  have h1 : (0:Int) ≤ x ^ e % Pc := Int.emod_nonneg _ (ne_of_gt Pc_pos)
  have h2 : x ^ e % Pc < Pc := Int.emod_lt_of_pos _ Pc_pos
  rw [pow2_spec k _ h1 h2]
  have hnn : (0:Int) ≤ (x ^ e % Pc) ^ 2 ^ k % Pc * (x ^ eb % Pc) :=
    mul_nonneg (Int.emod_nonneg _ (ne_of_gt Pc_pos)) (Int.emod_nonneg _ (ne_of_gt Pc_pos))
  rw [show jsMod ((x ^ e % Pc) ^ 2 ^ k % Pc * (x ^ eb % Pc)) Pc
      = ((x ^ e % Pc) ^ 2 ^ k % Pc * (x ^ eb % Pc)) % Pc from
    Int.tmod_eq_emod hnn (le_of_lt Pc_pos)]
  have ha : ((x ^ e % Pc) ^ 2 ^ k % Pc) ≡ x ^ (e * 2 ^ k) [ZMOD Pc] := by
    have hp : ((x ^ e % Pc) ^ 2 ^ k) ≡ (x ^ e) ^ 2 ^ k [ZMOD Pc] := (emod_modEq_self _).pow _
    have := (emod_modEq_self ((x ^ e % Pc) ^ 2 ^ k)).trans hp
    rwa [← pow_mul] at this
  have hb : (x ^ eb % Pc) ≡ x ^ eb [ZMOD Pc] := emod_modEq_self _
  have := ha.mul hb
  rw [← pow_add] at this
  exact this

theorem chainStart (x : Int) (hx : 0 ≤ x) : jsMod (x * x * x) Pc = x ^ 3 % Pc := by
  rw [show x * x * x = x ^ 3 by ring]
  exact Int.tmod_eq_emod (by positivity) (le_of_lt Pc_pos)

theorem chainCube (x : Int) (hx : 0 ≤ x) :
    jsMod ((x ^ 3 % Pc) * (x ^ 3 % Pc) * x) Pc = x ^ 7 % Pc := by
  rw [show jsMod (x ^ 3 % Pc * (x ^ 3 % Pc) * x) Pc = (x ^ 3 % Pc * (x ^ 3 % Pc) * x) % Pc from
    Int.tmod_eq_emod
      (mul_nonneg (mul_nonneg (Int.emod_nonneg _ (ne_of_gt Pc_pos))
        (Int.emod_nonneg _ (ne_of_gt Pc_pos))) hx)
      (le_of_lt Pc_pos)]
  have h : (x ^ 3 % Pc) ≡ x ^ 3 [ZMOD Pc] := emod_modEq_self _
  have h2 := (h.mul h).mul (Int.ModEq.refl x)
  rw [show x ^ 3 * x ^ 3 * x = x ^ 7 by ring] at h2
  exact h2

/-- The unrolled addition chain of `sqrtMod` computes exactly the exponent
`(P+1)/4`. -/
theorem sqrtMod_pow (x : Int) (hx : 0 ≤ x) :
    sqrtMod x = x ^ EXP_P14 % Pc := by
  have s2 := chainStart x hx
  have s3 := chainCube x hx
  have s6 : jsMod (pow2 (x ^ 7 % Pc) 3 * (x ^ 7 % Pc)) Pc = x ^ 63 % Pc := by
    have h := chainStep x 7 7 3; norm_num at h; exact h
  have s9 : jsMod (pow2 (x ^ 63 % Pc) 3 * (x ^ 7 % Pc)) Pc = x ^ 511 % Pc := by
    have h := chainStep x 63 7 3; norm_num at h; exact h
  have s11 : jsMod (pow2 (x ^ 511 % Pc) 2 * (x ^ 3 % Pc)) Pc = x ^ 2047 % Pc := by
    have h := chainStep x 511 3 2; norm_num at h; exact h
  have s22 : jsMod (pow2 (x ^ 2047 % Pc) 11 * (x ^ 2047 % Pc)) Pc = x ^ 4194303 % Pc := by
    have h := chainStep x 2047 2047 11; norm_num at h; exact h
  have s44 : jsMod (pow2 (x ^ 4194303 % Pc) 22 * (x ^ 4194303 % Pc)) Pc
      = x ^ 17592186044415 % Pc := by
    have h := chainStep x 4194303 4194303 22; norm_num at h; exact h
  have s88 : jsMod (pow2 (x ^ 17592186044415 % Pc) 44 * (x ^ 17592186044415 % Pc)) Pc
      = x ^ 309485009821345068724781055 % Pc := by
    have h := chainStep x 17592186044415 17592186044415 44; norm_num at h; exact h
  have s176 : jsMod (pow2 (x ^ 309485009821345068724781055 % Pc) 88
        * (x ^ 309485009821345068724781055 % Pc)) Pc
      = x ^ 95780971304118053647396689196894323976171195136475135 % Pc := by
    have h := chainStep x 309485009821345068724781055 309485009821345068724781055 88
    norm_num at h; exact h
  have s220 : jsMod (pow2 (x ^ 95780971304118053647396689196894323976171195136475135 % Pc) 44
        * (x ^ 17592186044415 % Pc)) Pc
      = x ^ 1684996666696914987166688442938726917102321526408785780068975640575 % Pc := by
    have h := chainStep x 95780971304118053647396689196894323976171195136475135 17592186044415 44
    norm_num at h; exact h
  have s223 : jsMod (pow2
        (x ^ 1684996666696914987166688442938726917102321526408785780068975640575 % Pc) 3
        * (x ^ 7 % Pc)) Pc
      = x ^ 13479973333575319897333507543509815336818572211270286240551805124607 % Pc := by
    have h := chainStep x 1684996666696914987166688442938726917102321526408785780068975640575 7 3
    norm_num at h; exact h
  have st1 : jsMod (pow2
        (x ^ 13479973333575319897333507543509815336818572211270286240551805124607 % Pc) 23
        * (x ^ 4194303 % Pc)) Pc
      = x ^ 113078212145816597093331040047546785012958969400039613319782796882723471359 % Pc := by
    have h := chainStep x 13479973333575319897333507543509815336818572211270286240551805124607
      4194303 23
    norm_num at h; exact h
  have st2 : jsMod (pow2
        (x ^ 113078212145816597093331040047546785012958969400039613319782796882723471359 % Pc) 6
        * (x ^ 3 % Pc)) Pc
      = x ^ 7237005577332262213973186563042994240829374041602535252466099000494302166979 % Pc := by
    have h := chainStep x
      113078212145816597093331040047546785012958969400039613319782796882723471359 3 6
    norm_num at h; exact h
  have sfin : pow2
        (x ^ 7237005577332262213973186563042994240829374041602535252466099000494302166979 % Pc) 2
      = x ^ EXP_P14 % Pc := by
    have h1 : (0:Int) ≤ x ^ 7237005577332262213973186563042994240829374041602535252466099000494302166979 % Pc :=
      Int.emod_nonneg _ (ne_of_gt Pc_pos)
    have h2 : x ^ 7237005577332262213973186563042994240829374041602535252466099000494302166979 % Pc < Pc :=
      Int.emod_lt_of_pos _ Pc_pos
    rw [pow2_spec 2 _ h1 h2, ← intPow_emod, ← pow_mul]
    norm_num [EXP_P14]
  simp only [sqrtMod]
  rw [s2, s3, s6, s9, s11, s22, s44, s88, s176, s220, s223, st1, st2, sfin]

/-- `P` as a natural number. -/
def PN : Nat := 115792089237316195423570985008687907853269984665640564039457584007908834671663

theorem PN_def : ((PN : Nat) : Int) = Pc := by decide

/-- For a quadratic residue `x` mod `P`, `sqrtMod x` squares back to `x`
(consequence of `P ≡ 3 mod 4`, Fermat, and the primality of `P`). -/
theorem sqrtMod_sq (x y : Int) (hx : 0 ≤ x) (hxlt : x < Pc)
    (hy : mod (y * y) Pc = x) : mod (sqrtMod x * sqrtMod x) Pc = x := by
  haveI : Fact (Nat.Prime PN) := ⟨prime_P⟩
  have key : ∀ a b : Int, a % Pc = b % Pc ↔ ((a : ZMod PN) = (b : ZMod PN)) := by
    intro a b
    rw [ZMod.intCast_eq_intCast_iff', PN_def]
  have hs := sqrtMod_pow x hx
  have hsnn : 0 ≤ sqrtMod x := hs ▸ Int.emod_nonneg _ (ne_of_gt Pc_pos)
  rw [mod_emod _ _ Pc_pos]
  have hxm : x % Pc = x := Int.emod_eq_of_lt hx hxlt
  conv_rhs => rw [← hxm]
  rw [key]
  have hyy : ((y : ZMod PN) * y = (x : ZMod PN)) := by
    rw [mod_emod _ _ Pc_pos] at hy
    have := (key (y * y) x).mp (by rw [hy, hxm])
    push_cast at this
    exact this
  have hcast : ((sqrtMod x : Int) : ZMod PN) = ((x : Int) : ZMod PN) ^ EXP_P14 := by
    rw [hs]
    have h1 : (x ^ EXP_P14 % Pc) % Pc = (x ^ EXP_P14) % Pc := Int.emod_emod_of_dvd _ dvd_rfl
    have := (key (x ^ EXP_P14 % Pc) (x ^ EXP_P14)).mp h1
    rw [this]
    push_cast
    ring
  push_cast
  rw [hcast]
  set a : ZMod PN := ((x : Int) : ZMod PN) with ha
  set b : ZMod PN := ((y : Int) : ZMod PN) with hb
  have hab : b * b = a := hyy
  have hPN1 : PN = 115792089237316195423570985008687907853269984665640564039457584007908834671663 := rfl
  by_cases hb0 : b = 0
  · rw [hb0, mul_zero] at hab
    rw [← hab, zero_pow (by rw [show EXP_P14 = 28948022309329048855892746252171976963317496166410141009864396001977208667916 from rfl]; norm_num), mul_zero]
  · have hfer : b ^ (PN - 1) = 1 := ZMod.pow_card_sub_one_eq_one hb0
    have : a ^ EXP_P14 * a ^ EXP_P14 = a ^ (2 * EXP_P14) := by
      rw [two_mul, pow_add]
    rw [this, ← hab]
    have hexp : 2 * (2 * EXP_P14) = 2 + (PN - 1) := by
      rw [show EXP_P14 = 28948022309329048855892746252171976963317496166410141009864396001977208667916 from rfl, hPN1]
    rw [show (b * b) = b ^ 2 from (sq b).symm, ← pow_mul, hexp, pow_add, hfer, mul_one]

/-- C9: for every field element `x` (`0 ≤ x < P`), `sqrtMod x` equals
`x ^ ((P+1)/4) mod P` (the constant `EXP_P14` satisfies `4·EXP_P14 = P+1`),
and consequently for every quadratic residue `x` the square of `sqrtMod x`
is again `x` modulo `P`. -/
theorem claim_C9 :
    (∀ x : Int, 0 ≤ x → x < Pc → sqrtMod x = x ^ EXP_P14 % Pc)
    ∧ 4 * (EXP_P14 : Int) = Pc + 1
    ∧ (∀ x y : Int, 0 ≤ x → x < Pc → mod (y * y) Pc = x →
        mod (sqrtMod x * sqrtMod x) Pc = x) :=
  ⟨fun x hx _ => sqrtMod_pow x hx, EXP_P14_def, fun x y hx hxlt hy => sqrtMod_sq x y hx hxlt hy⟩

theorem claim_C9_witness :
    sqrtMod 4 = 4 ^ EXP_P14 % Pc ∧ mod (sqrtMod 4 * sqrtMod 4) Pc = 4 :=
  ⟨claim_C9.1 4 (by decide) (by decide),
   claim_C9.2.2 4 2 (by decide) (by decide) (by decide)⟩

/-! ## invertLoop: exact Bezout invariants -/

/-- Exact integer invariants of the extended-Euclid loop: on success the
returned pair `(g, xo)` satisfies `0 < g`, `g` divides both loop inputs,
and `xo·A + yo·B = g` for some `yo`, where `(A, B)` seed the coefficient
invariants. -/
theorem invertLoop_exact : ∀ (fuel : Nat) (a b x y u v A B : Int), 0 ≤ a → 0 < b →
    u * A + v * B = a → x * A + y * B = b →
    ∀ g xo, invertLoop fuel a b x y u v = some (g, xo) →
      0 < g ∧ g ∣ a ∧ g ∣ b ∧ ∃ yo, xo * A + yo * B = g := by
  intro fuel
  induction fuel with
  | zero => intro a b x y u v A B _ _ _ _ g xo h; exact absurd h (by simp [invertLoop])
  | succ f ih =>
    intro a b x y u v A B ha hb hu hx g xo h
    rw [invertLoop] at h
    by_cases h0 : a = 0
    · rw [if_pos h0] at h
      injection h with h'
      injection h' with h1 h2
      subst h1; subst h2; subst h0
      exact ⟨hb, dvd_zero _, dvd_rfl, y, hx⟩
    · rw [if_neg h0] at h
      have hapos : 0 < a := lt_of_le_of_ne ha (Ne.symm h0)
      have hq : jsMod b a = b % a := Int.tmod_eq_emod (le_of_lt hb) (le_of_lt hapos)
      have hrdef : a * jsDiv b a + jsMod b a = b := Int.tdiv_add_tmod b a
      have hr0 : 0 ≤ jsMod b a := by rw [hq]; exact Int.emod_nonneg b (ne_of_gt hapos)
      have hinv1 : (x - u * jsDiv b a) * A + (y - v * jsDiv b a) * B = jsMod b a := by
        have : (x - u * jsDiv b a) * A + (y - v * jsDiv b a) * B
            = (x * A + y * B) - (u * A + v * B) * jsDiv b a := by ring
        rw [this, hu, hx]
        omega
      have := ih (jsMod b a) a u v (x - u * jsDiv b a) (y - v * jsDiv b a) A B
        hr0 hapos hinv1 hu g xo h
      obtain ⟨hg, hga, hgb, yo, hyo⟩ := this
      refine ⟨hg, hgb, ?_, yo, hyo⟩
      have : b = a * jsDiv b a + jsMod b a := hrdef.symm
      rw [this]
      exact dvd_add (Dvd.dvd.mul_right hgb _) hga

/-- Fuel sufficiency: the remainder at least halves every two iterations, so
`2n+1` steps settle any `a < 2^n`. -/
theorem invertLoop_some : ∀ (n : Nat) (a b x y u v : Int) (fuel : Nat),
    0 ≤ a → a < 2 ^ n → 0 < b → 2 * n + 1 ≤ fuel →
    (invertLoop fuel a b x y u v).isSome := by
  intro n
  induction n with
  | zero =>
    intro a b x y u v fuel ha ha2 hb hfuel
    have : a = 0 := by omega
    obtain ⟨f, rfl⟩ : ∃ f, fuel = f + 1 := ⟨fuel - 1, by omega⟩
    rw [invertLoop, if_pos this]
    rfl
  | succ n ih =>
    intro a b x y u v fuel ha ha2 hb hfuel
    obtain ⟨f, rfl⟩ : ∃ f, fuel = f + 1 := ⟨fuel - 1, by omega⟩
    ( by_cases h0 : a = 0
      · rw [invertLoop, if_pos h0]; rfl
      · rw [invertLoop, if_neg h0]
        have hapos : 0 < a := lt_of_le_of_ne ha (Ne.symm h0)
        have hq : jsMod b a = b % a := Int.tmod_eq_emod (le_of_lt hb) (le_of_lt hapos)
        have hr0 : 0 ≤ jsMod b a := by rw [hq]; exact Int.emod_nonneg b (ne_of_gt hapos)
        have hrlt : jsMod b a < a := by rw [hq]; exact Int.emod_lt_of_pos b hapos
        obtain ⟨f', rfl⟩ : ∃ g, f = g + 1 := ⟨f - 1, by omega⟩
        ( by_cases hr : jsMod b a = 0
          · rw [invertLoop, if_pos hr]; rfl
          · rw [invertLoop, if_neg hr]
            have hrpos : 0 < jsMod b a := lt_of_le_of_ne hr0 (Ne.symm hr)
            have hq2 : jsMod a (jsMod b a) = a % (jsMod b a) :=
              Int.tmod_eq_emod (le_of_lt hapos) (le_of_lt hrpos)
            have h2r0 : 0 ≤ jsMod a (jsMod b a) := by
              rw [hq2]; exact Int.emod_nonneg a (ne_of_gt hrpos)
            -- a % r < 2^n: either r ≤ 2^n (then a % r < r) or r > 2^n (then a % r ≤ a − r)
            have h2rlt : jsMod a (jsMod b a) < 2 ^ n := by
              have hmodlt : a % (jsMod b a) < jsMod b a := Int.emod_lt_of_pos a hrpos
              by_cases hcase : jsMod b a ≤ 2 ^ n
              · rw [hq2]; omega
              · have hle : a % (jsMod b a) ≤ a - jsMod b a := by
                  have hdiv : 1 ≤ a / (jsMod b a) := by
                    rw [Int.le_ediv_iff_mul_le hrpos]
                    omega
                  have heq := Int.emod_add_ediv a (jsMod b a)
                  nlinarith [heq, hdiv, hrpos]
                have h2n : (2:Int) ^ (n+1) = 2 ^ n + 2 ^ n := by ring
                rw [hq2]
                omega
            exact ih (jsMod a (jsMod b a)) (jsMod b a) _ _ _ _ f' h2r0 h2rlt hrpos (by omega)))

/-! ## invert correctness over P -/

theorem invert_P_ok (number : Int) (hndvd : ¬ (Pc ∣ number)) :
    ∃ v, invert number Pc = .ok v ∧ 0 ≤ v ∧ v < Pc ∧ v * number ≡ 1 [ZMOD Pc] := by
  have hnz : number ≠ 0 := fun h => hndvd (h ▸ dvd_zero Pc)
  have hA : mod number Pc = number % Pc := mod_emod _ _ Pc_pos
  have hA0 : 0 ≤ number % Pc := Int.emod_nonneg _ (ne_of_gt Pc_pos)
  have hAlt : number % Pc < Pc := Int.emod_lt_of_pos _ Pc_pos
  have hAnz : number % Pc ≠ 0 := fun h => hndvd (Int.dvd_of_emod_eq_zero h)
  have hsome : (invertLoop invertFuelN (mod number Pc) Pc 0 1 1 0).isSome := by
    rw [hA]
    exact invertLoop_some 600 _ Pc 0 1 1 0 invertFuelN hA0
      (lt_trans hAlt (by decide)) Pc_pos (by decide)
  obtain ⟨⟨g, xo⟩, hgx⟩ := Option.isSome_iff_exists.mp hsome
  have hexact := invertLoop_exact invertFuelN (mod number Pc) Pc 0 1 1 0 (number % Pc) Pc
    (by rw [hA]; exact hA0) Pc_pos (by rw [hA]; ring) (by ring) g xo hgx
  obtain ⟨hgpos, hgA, hgP, yo, hyo⟩ := hexact
  rw [hA] at hgA
  have hg1 : g = 1 := by
    have hnat : g.natAbs ∣ PN := by
      have := Int.natAbs_dvd_natAbs.mpr hgP
      rwa [show Pc.natAbs = PN from rfl] at this
    have hgabs : ((g.natAbs : Nat) : Int) = g := Int.natAbs_of_nonneg (le_of_lt hgpos)
    rcases prime_P.eq_one_or_self_of_dvd _ hnat with h1 | hP
    · rw [← hgabs, h1]; rfl
    · exfalso
      have hgPc : g = Pc := by rw [← hgabs, hP]; exact PN_def
      rw [hgPc] at hgA
      have hApos : 0 < number % Pc := lt_of_le_of_ne hA0 (Ne.symm hAnz)
      exact absurd (Int.le_of_dvd hApos hgA) (not_le.mpr hAlt)
  subst hg1
  refine ⟨mod xo Pc, ?_, ?_, ?_, ?_⟩
  · unfold invert
    rw [if_neg (by simp [hnz, Pc]), hgx]
    norm_num
  · rw [mod_emod _ _ Pc_pos]; exact Int.emod_nonneg _ (ne_of_gt Pc_pos)
  · rw [mod_emod _ _ Pc_pos]; exact Int.emod_lt_of_pos _ Pc_pos
  · rw [mod_emod _ _ Pc_pos]
    have h1 : (xo % Pc) ≡ xo [ZMOD Pc] := Int.emod_emod_of_dvd xo dvd_rfl
    have h2 : number ≡ number % Pc [ZMOD Pc] := (Int.emod_emod_of_dvd number dvd_rfl).symm
    have h3 := h1.mul h2
    have h4 : xo * (number % Pc) = 1 - yo * Pc := by omega
    have h5 : (1 - yo * Pc : Int) ≡ 1 - 0 [ZMOD Pc] :=
      (Int.ModEq.refl 1).sub (Int.modEq_zero_iff_dvd.mpr (dvd_mul_left Pc yo))
    rw [h4] at h3
    have := h3.trans h5
    rwa [sub_zero] at this

/-! ## The forward pass: functional characterization -/

/-- The running accumulator of `invertBatch`'s upward loop. -/
def fwdAcc (m : Int) : List Int → Int → Int
  | [], acc => acc
  | x :: xs, acc => if x = 0 then fwdAcc m xs acc else fwdAcc m xs (mod (acc * x) m)

/-- The `scratch` array of `invertBatch`'s upward loop (`none` at skipped
zero entries). -/
def fwdScratch (m : Int) : List Int → Int → List (Option Int)
  | [], _ => []
  | x :: xs, acc =>
    if x = 0 then none :: fwdScratch m xs acc
    else some acc :: fwdScratch m xs (mod (acc * x) m)

theorem ibFwd_eq (m : Int) : ∀ (xs : List Int) (acc : Int) (out : List (Option Int)),
    ibFwd m xs acc out = (out.reverse ++ fwdScratch m xs acc, fwdAcc m xs acc) := by
  intro xs
  induction xs with
  | nil => intro acc out; simp [ibFwd, fwdScratch, fwdAcc]
  | cons x xs ih =>
    intro acc out
    by_cases h : x = 0
    · simp only [ibFwd, fwdScratch, fwdAcc, if_pos h, ih]
      simp
    · simp only [ibFwd, fwdScratch, fwdAcc, if_neg h, ih]
      simp

theorem zipRev_eq {α β : Type} : ∀ (as : List α) (bs : List β) (out : List (α × β)),
    zipRev as bs out = (List.zip as bs).reverse ++ out := by
  intro as
  induction as with
  | nil => intro bs out; cases bs <;> simp [zipRev]
  | cons a as ih =>
    intro bs out
    cases bs with
    | nil => simp [zipRev]
    | cons b bs => simp [zipRev, ih]

theorem ibBwd_append (m : Int) : ∀ (A B : List (Int × Option Int)) (acc : Int) (out : List Int),
    ibBwd m (A ++ B) acc out
      = ibBwd m B (ibBwd m A acc out).2 (ibBwd m A acc out).1 := by
  intro A
  induction A with
  | nil => intro B acc out; rfl
  | cons p A ih =>
    intro B acc out
    obtain ⟨x, sc⟩ := p
    by_cases h : x = 0
    · simp only [List.cons_append, ibBwd, if_pos h, List.append_eq, ih]
    · simp only [List.cons_append, ibBwd, if_neg h, List.append_eq, ih]

/-! ## The backward pass: Montgomery unwinding -/

theorem ibBwd_core : ∀ (xs : List Int) (acc0 aIn : Int) (out0 : List Int),
    (aIn * fwdAcc Pc xs acc0) ≡ 1 [ZMOD Pc] →
    ∃ res aOut,
      ibBwd Pc ((List.zip xs (fwdScratch Pc xs acc0)).reverse) aIn out0 = (res ++ out0, aOut)
      ∧ List.Forall₂ (fun x o => (x = 0 → o = 0) ∧ (x ≠ 0 → (o * x) ≡ 1 [ZMOD Pc])
          ∧ 0 ≤ o ∧ o < Pc) xs res
      ∧ (aOut * acc0) ≡ 1 [ZMOD Pc] := by
  intro xs
  induction xs with
  | nil =>
    intro acc0 aIn out0 hIn
    exact ⟨[], aIn, by simp [ibBwd], List.Forall₂.nil, hIn⟩
  | cons x rest ih =>
    intro acc0 aIn out0 hIn
    by_cases h : x = 0
    · -- skipped entry: scratch holds none, the element passes through as 0
      have hsc : fwdScratch Pc (x :: rest) acc0 = none :: fwdScratch Pc rest acc0 := by
        simp [fwdScratch, if_pos h]
      have hfa : fwdAcc Pc (x :: rest) acc0 = fwdAcc Pc rest acc0 := by
        simp [fwdAcc, if_pos h]
      rw [hfa] at hIn
      obtain ⟨res, aOut, heq, hall, haOut⟩ := ih acc0 aIn out0 hIn
      refine ⟨x :: res, aOut, ?_, ?_, haOut⟩
      · rw [hsc]
        simp only [List.zip_cons_cons, List.reverse_cons]
        rw [ibBwd_append, heq]
        simp only [ibBwd, if_pos h]
        simp
      · refine List.Forall₂.cons ⟨fun hz => hz, fun hnz => absurd h (fun _ => hnz h), ?_, ?_⟩ hall
        · rw [h]
        · rw [h]; exact Pc_pos
    · have hsc : fwdScratch Pc (x :: rest) acc0 = some acc0 :: fwdScratch Pc rest (mod (acc0 * x) Pc) := by
        simp [fwdScratch, if_neg h]
      have hfa : fwdAcc Pc (x :: rest) acc0 = fwdAcc Pc rest (mod (acc0 * x) Pc) := by
        simp [fwdAcc, if_neg h]
      rw [hfa] at hIn
      obtain ⟨res, aOut, heq, hall, haOut⟩ := ih (mod (acc0 * x) Pc) aIn out0 hIn
      have hacc1 : mod (acc0 * x) Pc ≡ acc0 * x [ZMOD Pc] := by
        rw [mod_emod _ _ Pc_pos]
        exact Int.emod_emod_of_dvd _ dvd_rfl
      refine ⟨mod (aOut * acc0) Pc :: res, mod (aOut * x) Pc, ?_, ?_, ?_⟩
      · rw [hsc]
        simp only [List.zip_cons_cons, List.reverse_cons]
        rw [ibBwd_append, heq]
        simp only [ibBwd, if_neg h, Option.getD_some]
        simp
      · refine List.Forall₂.cons ⟨fun hz => absurd hz h, fun _ => ?_,
          by rw [mod_emod _ _ Pc_pos]; exact Int.emod_nonneg _ (ne_of_gt Pc_pos),
          by rw [mod_emod _ _ Pc_pos]; exact Int.emod_lt_of_pos _ Pc_pos⟩ hall
        have h1 : mod (aOut * acc0) Pc ≡ aOut * acc0 [ZMOD Pc] := by
          rw [mod_emod _ _ Pc_pos]
          exact Int.emod_emod_of_dvd _ dvd_rfl
        have h2 : (mod (aOut * acc0) Pc * x) ≡ aOut * acc0 * x [ZMOD Pc] :=
          h1.mul (Int.ModEq.refl x)
        have h3 : (aOut * acc0 * x) ≡ aOut * (mod (acc0 * x) Pc) [ZMOD Pc] := by
          have := (Int.ModEq.refl aOut).mul hacc1.symm
          calc aOut * acc0 * x = aOut * (acc0 * x) := by ring
          _ ≡ aOut * (mod (acc0 * x) Pc) [ZMOD Pc] := this
        exact (h2.trans h3).trans haOut
      · have h1 : mod (aOut * x) Pc ≡ aOut * x [ZMOD Pc] := by
          rw [mod_emod _ _ Pc_pos]
          exact Int.emod_emod_of_dvd _ dvd_rfl
        have h2 : (mod (aOut * x) Pc * acc0) ≡ aOut * x * acc0 [ZMOD Pc] :=
          h1.mul (Int.ModEq.refl acc0)
        have h3 : (aOut * x * acc0) ≡ aOut * (mod (acc0 * x) Pc) [ZMOD Pc] := by
          have := (Int.ModEq.refl aOut).mul hacc1.symm
          calc aOut * x * acc0 = aOut * (acc0 * x) := by ring
          _ ≡ aOut * (mod (acc0 * x) Pc) [ZMOD Pc] := this
        exact (h2.trans h3).trans haOut

/-! ## Top level: invertBatch over P -/

theorem Pc_int_prime : Prime Pc := by
  rw [Int.prime_iff_natAbs_prime]
  exact (show Pc.natAbs = PN from rfl) ▸ prime_P

theorem dvd_mod_iff (y : Int) : Pc ∣ mod y Pc ↔ Pc ∣ y := by
  rw [mod_emod _ _ Pc_pos]
  constructor
  · intro h
    have h1 : (y % Pc) % Pc = 0 := Int.emod_eq_zero_of_dvd h
    rw [Int.emod_emod_of_dvd y dvd_rfl] at h1
    exact Int.dvd_of_emod_eq_zero h1
  · intro h
    rw [Int.emod_eq_zero_of_dvd h]
    exact dvd_zero _

theorem fwdAcc_good : ∀ (xs : List Int) (acc0 : Int),
    (∀ x ∈ xs, 0 ≤ x ∧ x < Pc) → ¬ Pc ∣ acc0 →
    ¬ Pc ∣ fwdAcc Pc xs acc0 := by
  intro xs
  induction xs with
  | nil => intro acc0 _ h; exact h
  | cons x rest ih =>
    intro acc0 hn h0
    by_cases h : x = 0
    · rw [show fwdAcc Pc (x :: rest) acc0 = fwdAcc Pc rest acc0 by simp [fwdAcc, if_pos h]]
      exact ih acc0 (fun z hz => hn z (List.mem_cons_of_mem x hz)) h0
    · rw [show fwdAcc Pc (x :: rest) acc0 = fwdAcc Pc rest (mod (acc0 * x) Pc) by
        simp [fwdAcc, if_neg h]]
      refine ih _ (fun z hz => hn z (List.mem_cons_of_mem x hz)) ?_
      rw [dvd_mod_iff]
      intro hdvd
      rcases (Pc_int_prime.2.2 acc0 x hdvd) with hc | hc
      · exact h0 hc
      · obtain ⟨hx0, hxlt⟩ := hn x (List.mem_cons_self x rest)
        have hxpos : 0 < x := lt_of_le_of_ne hx0 (Ne.symm h)
        exact absurd (Int.le_of_dvd hxpos hc) (not_le.mpr hxlt)

theorem invertBatch_P_ok (nums : List Int) (hn : ∀ x ∈ nums, 0 ≤ x ∧ x < Pc) :
    ∃ out, invertBatch nums Pc = .ok out ∧ out.length = nums.length
      ∧ List.Forall₂ (fun x o => (x = 0 → o = 0) ∧ (x ≠ 0 → mod (o * x) Pc = 1)
          ∧ 0 ≤ o ∧ o < Pc) nums out := by
  have hndvd : ¬ Pc ∣ fwdAcc Pc nums 1 := fwdAcc_good nums 1 hn (by decide)
  obtain ⟨v, hv, hv0, hvlt, hvc⟩ := invert_P_ok (fwdAcc Pc nums 1) hndvd
  obtain ⟨res, aOut, heq, hall, _⟩ := ibBwd_core nums 1 v [] hvc
  refine ⟨res, ?_, (List.Forall₂.length_eq hall).symm, ?_⟩
  · show invertBatch nums Pc = .ok res
    unfold invertBatch
    rw [ibFwd_eq]
    simp only [List.reverse_nil, List.nil_append]
    rw [hv, EX_bind_ok]
    rw [zipRev_eq, List.append_nil, heq]
    simp only [List.append_nil]
    rfl
  · refine List.Forall₂.imp ?_ hall
    intro x o ho
    refine ⟨ho.1, fun hnz => ?_, ho.2.2.1, ho.2.2.2⟩
    have h : (o * x) % Pc = 1 % Pc := ho.2.1 hnz
    rw [mod_emod _ _ Pc_pos, h]
    decide

/-- C6: for every list of field elements (each in `[0, P)`), `invertBatch`
over `P` succeeds and returns a list of the same length in which every zero
entry stays zero and every nonzero entry is replaced by its modular inverse
(`mod (out_i * x_i) P = 1`).  The embedding shows the single `invert` call:
`invertBatch`'s definition applies `invert` exactly once, to the folded
product. -/
theorem claim_C6 (nums : List Int) (hn : ∀ x ∈ nums, 0 ≤ x ∧ x < Pc) :
    ∃ out, invertBatch nums Pc = .ok out ∧ out.length = nums.length
      ∧ List.Forall₂ (fun x o => (x = 0 → o = 0) ∧ (x ≠ 0 → mod (o * x) Pc = 1)) nums out := by
  obtain ⟨out, h1, h2, h3⟩ := invertBatch_P_ok nums hn
  exact ⟨out, h1, h2, List.Forall₂.imp (fun x o ho => ⟨ho.1, ho.2.1⟩) h3⟩

theorem claim_C6_witness :
    ∃ out, invertBatch [2, 0, 3] Pc = .ok out ∧ out.length = 3
      ∧ List.Forall₂ (fun x o => (x = 0 → o = 0) ∧ (x ≠ 0 → mod (o * x) Pc = 1))
          [2, 0, 3] out :=
  claim_C6 [2, 0, 3] (by decide)


/-! ## Claim C5 machinery, part 2: byte-level normal form of toDERHex -/

theorem derInt_def (n : Nat) : derInt n = pairBytes (derIntDigits n) := rfl

theorem pairBytes_head (a b : Nat) (t : List Nat) :
    pairBytes (a :: b :: t) = (16 * a + b) :: pairBytes t := rfl

theorem pairBytes_append : ∀ (A B : List Nat), A.length % 2 = 0 →
    pairBytes (A ++ B) = pairBytes A ++ pairBytes B
  | [], _, _ => rfl
  | [_], _, h => by simp at h
  | a :: b :: t, B, h => by
    simp only [List.cons_append, pairBytes_head]
    rw [pairBytes_append t B (by simp only [List.length_cons] at h; omega)]

/-- The length bytes used by `toDERHex` are single bytes (values `< 256`),
so `numberToHex` renders them as exactly two hex digits. -/
theorem lenPad : ∀ (fuel L : Nat), 2 ≤ fuel → L < 256 →
    padEven (natDigits16 fuel L) = [L / 16, L % 16] := by
  intro fuel L hf hL
  obtain ⟨f, rfl⟩ : ∃ f, fuel = f + 1 := ⟨fuel - 1, by omega⟩
  simp only [natDigits16]
  by_cases h : L < 16
  · rw [if_pos h]
    unfold padEven
    rw [if_pos (by simp)]
    have h1 : L / 16 = 0 := by omega
    have h2 : L % 16 = L := by omega
    rw [h1, h2]
  · rw [if_neg h]
    obtain ⟨g, rfl⟩ : ∃ g, f = g + 1 := ⟨f - 1, by omega⟩
    simp only [natDigits16]
    rw [if_pos (by omega : L / 16 < 16)]
    unfold padEven
    rw [if_neg (by simp)]
    rfl

theorem padEven_length_le {ds : List Nat} {k : Nat} (h : ds.length ≤ k) :
    (padEven ds).length ≤ k + 1 := by
  unfold padEven
  split
  · simp only [List.length_cons]; omega
  · omega

theorem derIntDigits_length_le (n : Nat) (h : n < 16 ^ 64) :
    (derIntDigits n).length ≤ 67 := by
  have h1 : (natDigits16 600 n).length ≤ 64 :=
    natDigits16_length_le 600 n 64 h (by omega) (by omega)
  have h2 := padEven_length_le h1
  unfold derIntDigits
  split
  · simp only [List.length_cons]; omega
  · omega

theorem derInt_length_le (n : Nat) (h : n < 16 ^ 64) : (derInt n).length ≤ 33 := by
  rw [derInt_def, pairBytes_length]
  have := derIntDigits_length_le n h
  omega

theorem derIntDigits_length_pos (n : Nat) : 0 < (derIntDigits n).length := by
  have hne := natDigits16_ne_nil 600 n (by omega)
  have hpe : 0 < (padEven (natDigits16 600 n)).length := by
    unfold padEven
    split
    · simp
    · exact List.length_pos.mpr hne
  unfold derIntDigits
  split
  · simp only [List.length_cons]; omega
  · omega

theorem derInt_length_pos (n : Nat) : 0 < (derInt n).length := by
  rw [derInt_def, pairBytes_length]
  have h1 := derIntDigits_length_pos n
  have h2 := derIntDigits_even n
  omega


theorem toDERHex_digits (r s : Nat) (hr : r < 16 ^ 64) (hs : s < 16 ^ 64) :
    toDERHex ⟨Int.ofNat r, Int.ofNat s⟩ false =
      ([3, 0]
        ++ [((derInt r).length + (derInt s).length + 4) / 16,
            ((derInt r).length + (derInt s).length + 4) % 16]
        ++ [0, 2] ++ [(derInt r).length / 16, (derInt r).length % 16] ++ derIntDigits r
        ++ [0, 2] ++ [(derInt s).length / 16, (derInt s).length % 16] ++ derIntDigits s).map
        hexChar := by
  have hrl := derInt_length_le r hr
  have hsl := derInt_length_le s hs
  simp only [toDERHex, Bool.false_eq_true, if_false]
  rw [sliceDER_numberToHex r, sliceDER_numberToHex s]
  rw [List.length_map, List.length_map]
  rw [← pairBytes_length, ← pairBytes_length]
  rw [← derInt_def, ← derInt_def]
  rw [numberToHex_eq_map, numberToHex_eq_map, numberToHex_eq_map]
  rw [lenPad 600 _ (by omega) (by omega), lenPad 600 _ (by omega) (by omega),
    lenPad 600 _ (by omega) (by omega)]
  simp only [List.map_append]
  rfl


/-- Byte-level normal form of the DER encoding: tag `0x30`, total length,
then two `02 len payload` integers whose payloads are `derInt`. -/
theorem toDER_bytes (r s : Nat) (hr : r < 16 ^ 64) (hs : s < 16 ^ 64) :
    hexToBytes (toDERHex ⟨Int.ofNat r, Int.ofNat s⟩ false)
      = .ok (0x30 :: ((derInt r).length + (derInt s).length + 4)
          :: 2 :: (derInt r).length :: derInt r
          ++ 2 :: (derInt s).length :: derInt s) := by
  have hrl := derInt_length_le r hr
  have hsl := derInt_length_le s hs
  have hrevn := derIntDigits_even r
  have hsevn := derIntDigits_even s
  rw [toDERHex_digits r s hr hs]
  rw [hexToBytes_pairs _ ?bounds ?evn]
  case bounds =>
    intro d hd
    have hdr := derIntDigits_lt r
    have hds := derIntDigits_lt s
    simp only [List.mem_append, List.mem_cons, List.not_mem_nil, or_false] at hd
    rcases hd with ((((((h | h) | h) | h) | h) | h) | h) | h
    · rcases h with rfl | rfl
      · omega
      · omega
    · rcases h with rfl | rfl
      · omega
      · omega
    · rcases h with rfl | rfl
      · omega
      · omega
    · rcases h with rfl | rfl
      · omega
      · omega
    · exact hdr d h
    · rcases h with rfl | rfl
      · omega
      · omega
    · rcases h with rfl | rfl
      · omega
      · omega
    · exact hds d h
  case evn =>
    simp only [List.length_append, List.length_cons, List.length_nil]
    omega
  congr 1
  rw [pairBytes_append _ _ (by simp only [List.length_append, List.length_cons, List.length_nil]; try omega)]
  rw [pairBytes_append _ _ (by simp only [List.length_append, List.length_cons, List.length_nil]; try omega)]
  rw [pairBytes_append _ _ (by simp only [List.length_append, List.length_cons, List.length_nil]; try omega)]
  rw [pairBytes_append _ _ (by simp only [List.length_append, List.length_cons, List.length_nil]; try omega)]
  rw [pairBytes_append _ _ (by simp only [List.length_append, List.length_cons, List.length_nil]; try omega)]
  rw [pairBytes_append _ _ (by simp only [List.length_append, List.length_cons, List.length_nil]; try omega)]
  rw [pairBytes_append _ _ (by simp only [List.length_append, List.length_cons, List.length_nil]; try omega)]
  rw [← derInt_def, ← derInt_def]
  show [16 * 3 + 0] ++ [16 * (((derInt r).length + (derInt s).length + 4) / 16)
      + ((derInt r).length + (derInt s).length + 4) % 16]
    ++ [16 * 0 + 2] ++ [16 * ((derInt r).length / 16) + (derInt r).length % 16]
    ++ derInt r ++ [16 * 0 + 2] ++ [16 * ((derInt s).length / 16) + (derInt s).length % 16]
    ++ derInt s = _
  rw [show 16 * 3 + 0 = 0x30 from rfl, show 16 * 0 + 2 = 2 from rfl]
  rw [show 16 * (((derInt r).length + (derInt s).length + 4) / 16)
      + ((derInt r).length + (derInt s).length + 4) % 16
      = (derInt r).length + (derInt s).length + 4 from by omega]
  rw [show 16 * ((derInt r).length / 16) + (derInt r).length % 16 = (derInt r).length from by omega]
  rw [show 16 * ((derInt s).length / 16) + (derInt s).length % 16 = (derInt s).length from by omega]
  simp


/-! ## Claim C5 machinery, part 3: minimality and the parser -/

theorem natDigits16_head_pos1 : ∀ (fuel n : Nat), 1 ≤ n → n < 16 ^ fuel →
    0 < (natDigits16 fuel n).headD 0
  | 0, n, h1, h2 => by simp at h2; omega
  | fuel + 1, n, h1, h2 => by
    simp only [natDigits16]
    by_cases h : n < 16
    · rw [if_pos h]
      simpa using h1
    · rw [if_neg h]
      have hq1 : 1 ≤ n / 16 := by omega
      have hq2 : n / 16 < 16 ^ fuel := by
        rw [pow_succ] at h2
        exact Nat.div_lt_of_lt_mul (by omega)
      have hfp : 0 < fuel := by
        by_contra hc
        have : fuel = 0 := by omega
        subst this
        simp at hq2
        omega
      have hne := natDigits16_ne_nil fuel (n / 16) hfp
      obtain ⟨d, t, hdt⟩ := List.exists_cons_of_ne_nil hne
      have := natDigits16_head_pos1 fuel (n / 16) hq1 hq2
      rw [hdt] at this ⊢
      simpa using this

/-- Structure of `padEven (natDigits16 600 n)`: two digits then a tail, the
digits bounded by 16, the whole of even length, with `16·p1+p2` positive. -/
theorem padEven_struct (n : Nat) (hn : 1 ≤ n) (h : n < 16 ^ 600) :
    ∃ p1 p2 rest, padEven (natDigits16 600 n) = p1 :: p2 :: rest
      ∧ p1 < 16 ∧ p2 < 16 ∧ rest.length % 2 = 0 ∧ 0 < 16 * p1 + p2
      ∧ (∀ d ∈ rest, d < 16) := by
  have hne := natDigits16_ne_nil 600 n (by omega)
  obtain ⟨d, t, hdt⟩ := List.exists_cons_of_ne_nil hne
  have hdpos : 0 < d := by
    have := natDigits16_head_pos1 600 n hn h
    rw [hdt] at this
    simpa using this
  have hlt := natDigits16_lt 600 n
  rw [hdt] at hlt
  have heven := padEven_even (natDigits16 600 n)
  rw [hdt] at heven
  rw [hdt]
  unfold padEven at heven ⊢
  by_cases hodd : (d :: t).length % 2 = 1
  · rw [if_pos hodd] at heven ⊢
    exact ⟨0, d, t, rfl, by omega, hlt d (by simp), by
        simp only [List.length_cons] at heven ⊢; omega,
      by omega, fun z hz => hlt z (by simp [hz])⟩
  · rw [if_neg hodd] at heven ⊢
    obtain ⟨t1, t2, ht⟩ : ∃ t1 t2, t = t1 :: t2 := by
      cases t with
      | nil => simp at heven hodd
      | cons a b => exact ⟨a, b, rfl⟩
    subst ht
    exact ⟨d, t1, t2, rfl, hlt d (by simp), hlt t1 (by simp), by
        simp only [List.length_cons] at heven ⊢; omega,
      by omega, fun z hz => hlt z (by simp [hz])⟩

theorem minBytes_struct (n : Nat) (hn : 1 ≤ n) (h : n < 16 ^ 600) :
    ∃ b t, minBytes n = b :: t ∧ 0 < b ∧ b < 256
      ∧ (derInt n = if 128 ≤ b then 0 :: minBytes n else minBytes n) := by
  obtain ⟨p1, p2, rest, hpe, hp1, hp2, hre, hpos, _⟩ := padEven_struct n hn h
  refine ⟨16 * p1 + p2, pairBytes rest, ?_, hpos, by omega, ?_⟩
  · unfold minBytes
    rw [hpe]
    rfl
  · rw [derInt_def]
    unfold derIntDigits minBytes
    rw [hpe]
    simp only [List.headD_cons]
    by_cases h8 : 8 ≤ p1
    · rw [if_pos h8, if_pos (by omega : 128 ≤ 16 * p1 + p2)]
      rfl
    · rw [if_neg h8, if_neg (by omega : ¬ 128 ≤ 16 * p1 + p2)]


theorem derInt_lt (n : Nat) : ∀ b ∈ derInt n, b < 256 := by
  rw [derInt_def]
  exact pairBytes_lt _ (derIntDigits_lt n)

theorem derInt_ne_nil (n : Nat) : derInt n ≠ [] :=
  List.length_pos.mp (derInt_length_pos n)

/-- The minimality check of `parseDERInt` passes on `derInt`: the head byte
is zero only when the following byte has its top bit set. -/
theorem derInt_min (n : Nat) (hn : 1 ≤ n) (h : n < 16 ^ 600) :
    ¬ ((derInt n).headD 0 = 0 ∧ (derInt n).getD 1 256 ≤ 127) := by
  obtain ⟨b, t, hmb, hbpos, hblt, hder⟩ := minBytes_struct n hn h
  rw [hder]
  by_cases h128 : 128 ≤ b
  · rw [if_pos h128]
    rintro ⟨h1, h2⟩
    rw [hmb] at h2
    simp only [List.getD_cons_succ, List.getD_cons_zero] at h2
    omega
  · rw [if_neg h128]
    rintro ⟨h1, h2⟩
    rw [hmb] at h1
    simp only [List.headD_cons] at h1
    omega

/-- `parseDERInt` accepts `02 len derInt(n)` and returns `n` with the
remaining bytes. -/
theorem parseDERInt_ok (n : Nat) (rest : List Nat) (hn : 1 ≤ n) (h : n < 16 ^ 64) :
    parseDERInt (2 :: (derInt n).length :: (derInt n ++ rest)) = .ok (Int.ofNat n, rest) := by
  have h600 : n < 16 ^ 600 := lt_of_lt_of_le h (Nat.pow_le_pow_right (by omega) (by omega))
  simp only [parseDERInt, List.getD_cons_succ, List.getD_cons_zero, List.headD_cons,
    List.drop_succ_cons, List.drop_zero, List.length_cons]
  simp only [List.take_left]
  simp only [bne_self_eq_false, Bool.or_false, decide_eq_true_eq]
  rw [if_neg (by omega)]
  rw [if_neg (by have := derInt_length_pos n; omega)]
  rw [if_neg (by
    simp only [Bool.and_eq_true, decide_eq_true_eq]
    exact fun hc => derInt_min n hn h600 hc)]
  rw [bytesToNumber_ok (derInt n) (derInt_lt n) (derInt_ne_nil n), EX_bind_ok]
  rw [beVal_derInt h600]
  rw [List.drop_left]
  rfl


/-- `parseDERSignature` accepts the assembled `30 len r-int s-int` bytes. -/
theorem parseDERSignature_ok (r s : Nat) (hr1 : 1 ≤ r) (hr : r < 16 ^ 64)
    (hs1 : 1 ≤ s) (hs : s < 16 ^ 64) :
    parseDERSignature (0x30 :: ((derInt r).length + (derInt s).length + 4)
        :: 2 :: (derInt r).length :: derInt r ++ 2 :: (derInt s).length :: derInt s)
      = .ok (Int.ofNat r, Int.ofNat s) := by
  simp only [parseDERSignature, List.cons_append, List.getD_cons_succ, List.getD_cons_zero,
    List.headD_cons, List.drop_succ_cons, List.drop_zero, List.length_cons, List.length_append]
  simp only [show ((0x30:Nat) != 0x30) = false from rfl, Bool.or_false, decide_eq_true_eq]
  rw [if_neg (by omega)]
  rw [if_neg (by simp only [bne_iff_ne, ne_eq, not_not]; omega)]
  rw [parseDERInt_ok r (2 :: (derInt s).length :: derInt s) hr1 hr, EX_bind_ok]
  have h2 := parseDERInt_ok s [] hs1 hs
  rw [List.append_nil] at h2
  rw [h2, EX_bind_ok]
  rfl


/-- Wrong outer tag (or truncated data) is rejected. -/
theorem parseDERSig_reject_tag (data : List Nat)
    (h : data.length < 2 ∨ data.headD 0 ≠ 0x30) :
    parseDERSignature data = .error .sigTag := by
  simp only [parseDERSignature]
  rw [if_pos (by simp only [Bool.or_eq_true, decide_eq_true_eq, bne_iff_ne, ne_eq]; exact h)]

/-- A length byte that does not match the remaining length is rejected. -/
theorem parseDERSig_reject_length (data : List Nat) (h2 : 2 ≤ data.length)
    (htag : data.headD 0 = 0x30) (hlen : data.getD 1 0 ≠ data.length - 2) :
    parseDERSignature data = .error .sigLength := by
  simp only [parseDERSignature]
  rw [if_neg (by
    simp only [Bool.or_eq_true, decide_eq_true_eq, bne_iff_ne, ne_eq]
    push_neg
    exact ⟨by omega, htag⟩)]
  rw [if_pos (by simp only [bne_iff_ne, ne_eq]; exact hlen)]

/-- Wrong integer tag is rejected. -/
theorem parseDERInt_reject_tag (data : List Nat)
    (h : data.length < 2 ∨ data.headD 0 ≠ 2) :
    parseDERInt data = .error .sigIntTag := by
  simp only [parseDERInt]
  rw [if_pos (by simp only [Bool.or_eq_true, decide_eq_true_eq, bne_iff_ne, ne_eq]; exact h)]

/-- A non-minimal integer (leading `0x00` followed by a byte `≤ 0x7f`) is
rejected. -/
theorem parseDERInt_reject_nonminimal (b : Nat) (hb : b ≤ 127) (t rest : List Nat) :
    parseDERInt (2 :: (t.length + 2) :: (0 :: b :: t ++ rest))
      = .error .sigIntTrailing := by
  simp only [parseDERInt, List.cons_append, List.getD_cons_succ, List.getD_cons_zero,
    List.headD_cons, List.drop_succ_cons, List.drop_zero, List.length_cons,
    List.take_succ_cons]
  simp only [List.take_left]
  rw [if_neg (by simp only [bne_self_eq_false, Bool.or_false, decide_eq_true_eq]; omega)]
  rw [if_neg (by simp only [Bool.or_eq_true, decide_eq_true_eq, bne_iff_ne, ne_eq]; push_neg; exact ⟨by omega, trivial⟩)]
  rw [if_pos (by simp [hb])]

/-- Left-over bytes after the two integers are rejected. -/
theorem parseDERSig_reject_trailing (r s : Nat) (extra : List Nat)
    (hr1 : 1 ≤ r) (hr : r < 16 ^ 64) (hs1 : 1 ≤ s) (hs : s < 16 ^ 64)
    (hne : extra ≠ []) :
    parseDERSignature ((0x30 :: ((derInt r).length + (derInt s).length + 4 + extra.length)
        :: 2 :: (derInt r).length :: derInt r ++ 2 :: (derInt s).length :: derInt s) ++ extra)
      = .error .sigLeftBytes := by
  simp only [parseDERSignature, List.cons_append, List.append_assoc, List.getD_cons_succ,
    List.getD_cons_zero, List.headD_cons, List.drop_succ_cons, List.drop_zero,
    List.length_cons, List.length_append]
  simp only [show ((0x30:Nat) != 0x30) = false from rfl, Bool.or_false, decide_eq_true_eq]
  rw [if_neg (by omega)]
  rw [if_neg (by simp only [bne_iff_ne, ne_eq, not_not]; omega)]
  have hr2 : parseDERInt (2 :: (derInt r).length
      :: (derInt r ++ (2 :: (derInt s).length :: (derInt s ++ extra))))
      = .ok (Int.ofNat r, 2 :: (derInt s).length :: (derInt s ++ extra)) :=
    parseDERInt_ok r _ hr1 hr
  rw [hr2, EX_bind_ok]
  have hs2 : parseDERInt (2 :: (derInt s).length :: (derInt s ++ extra))
      = .ok (Int.ofNat s, extra) := parseDERInt_ok s extra hs1 hs
  rw [hs2, EX_bind_ok]
  rw [if_pos (by
    simp only [bne_iff_ne, ne_eq]
    have := List.length_pos.mpr hne
    omega)]


theorem mkSignature_ok (r s : Int) (hr : 0 < r) (hrn : r < Nc) (hs : 0 < s) (hsn : s < Nc) :
    mkSignature r s = .ok ⟨r, s⟩ := by
  simp only [mkSignature, sigAssertValidity, isWithinCurveOrder]
  rw [if_neg (by simp [hr, hrn]), if_neg (by simp [hs, hsn])]
  rfl

/-- End-to-end DER round trip at the `Signature` level. -/
theorem derRoundTrip (r s : Int) (hr : 0 < r) (hrn : r < Nc) (hs : 0 < s) (hsn : s < Nc) :
    toDERRawBytes ⟨r, s⟩ false
        = .ok (0x30 :: ((derInt r.toNat).length + (derInt s.toNat).length + 4)
            :: 2 :: (derInt r.toNat).length :: derInt r.toNat
            ++ 2 :: (derInt s.toNat).length :: derInt s.toNat)
      ∧ signatureFromDER (.bytes (0x30
            :: ((derInt r.toNat).length + (derInt s.toNat).length + 4)
            :: 2 :: (derInt r.toNat).length :: derInt r.toNat
            ++ 2 :: (derInt s.toNat).length :: derInt s.toNat)) = .ok ⟨r, s⟩ := by
  have h16 : (16:Nat) ^ 64
      = 115792089237316195423570985008687907853269984665640564039457584007913129639936 := by
    norm_num
  have hNc : Nc = 115792089237316195423570985008687907852837564279074904382605163141518161494337 := rfl
  have hrt : ((r.toNat : Nat) : Int) = r := Int.toNat_of_nonneg (by omega)
  have hst : ((s.toNat : Nat) : Int) = s := Int.toNat_of_nonneg (by omega)
  have hr64 : r.toNat < 16 ^ 64 := by omega
  have hs64 : s.toNat < 16 ^ 64 := by omega
  have hr1 : 1 ≤ r.toNat := by omega
  have hs1 : 1 ≤ s.toNat := by omega
  constructor
  · show hexToBytes (toDERHex ⟨r, s⟩ false) = _
    rw [show (⟨r, s⟩ : Signature) = ⟨Int.ofNat r.toNat, Int.ofNat s.toNat⟩ from by
      rw [show Int.ofNat r.toNat = ((r.toNat : Nat) : Int) from rfl,
        show Int.ofNat s.toNat = ((s.toNat : Nat) : Int) from rfl, hrt, hst]]
    exact toDER_bytes r.toNat s.toNat hr64 hs64
  · show (do
        let bytes ← pure (0x30 :: ((derInt r.toNat).length + (derInt s.toNat).length + 4)
          :: 2 :: (derInt r.toNat).length :: derInt r.toNat
          ++ 2 :: (derInt s.toNat).length :: derInt s.toNat)
        let (rv, sv) ← parseDERSignature bytes
        mkSignature rv sv) = Except.ok ⟨r, s⟩
    rw [show (pure (0x30 :: ((derInt r.toNat).length + (derInt s.toNat).length + 4)
        :: 2 :: (derInt r.toNat).length :: derInt r.toNat
        ++ 2 :: (derInt s.toNat).length :: derInt s.toNat) : EX (List Nat))
      = .ok (0x30 :: ((derInt r.toNat).length + (derInt s.toNat).length + 4)
        :: 2 :: (derInt r.toNat).length :: derInt r.toNat
        ++ 2 :: (derInt s.toNat).length :: derInt s.toNat) from rfl, EX_bind_ok]
    rw [parseDERSignature_ok r.toNat s.toNat hr1 hr64 hs1 hs64, EX_bind_ok]
    rw [show Int.ofNat r.toNat = ((r.toNat : Nat) : Int) from rfl,
      show Int.ofNat s.toNat = ((s.toNat : Nat) : Int) from rfl, hrt, hst]
    exact mkSignature_ok r s hr hrn hs hsn


/-- C5: DER round trip and minimality.  For `0 < r,s < n`: encoding succeeds,
parsing the encoding recovers exactly `(r, s)` (hence re-encoding is
byte-identical), the bytes are `30 len 02 len r-payload 02 len s-payload`
with each payload the minimal big-endian bytes of the value prefixed by a
`0x00` byte exactly when the top bit of the first payload byte is set; and
the parser rejects wrong outer/integer tags, mismatched lengths, non-minimal
encodings, and trailing bytes. -/
theorem claim_C5 :
    (∀ r s : Int, 0 < r → r < Nc → 0 < s → s < Nc →
      ∃ bs, toDERRawBytes ⟨r, s⟩ false = .ok bs
        ∧ signatureFromDER (.bytes bs) = .ok ⟨r, s⟩
        ∧ bs = 0x30 :: ((derInt r.toNat).length + (derInt s.toNat).length + 4)
            :: 2 :: (derInt r.toNat).length :: derInt r.toNat
            ++ 2 :: (derInt s.toNat).length :: derInt s.toNat
        ∧ beVal (derInt r.toNat) = r.toNat ∧ beVal (derInt s.toNat) = s.toNat
        ∧ (∃ b t, minBytes r.toNat = b :: t ∧ 0 < b
            ∧ derInt r.toNat = (if 128 ≤ b then 0 :: minBytes r.toNat else minBytes r.toNat))
        ∧ (∃ b t, minBytes s.toNat = b :: t ∧ 0 < b
            ∧ derInt s.toNat = (if 128 ≤ b then 0 :: minBytes s.toNat else minBytes s.toNat)))
    ∧ (∀ data, data.length < 2 ∨ data.headD 0 ≠ 0x30 →
        parseDERSignature data = .error .sigTag)
    ∧ (∀ data, 2 ≤ data.length → data.headD 0 = 0x30 → data.getD 1 0 ≠ data.length - 2 →
        parseDERSignature data = .error .sigLength)
    ∧ (∀ data, data.length < 2 ∨ data.headD 0 ≠ 2 →
        parseDERInt data = .error .sigIntTag)
    ∧ (∀ b, b ≤ 127 → ∀ t rest, parseDERInt (2 :: (t.length + 2) :: (0 :: b :: t ++ rest))
        = .error .sigIntTrailing)
    ∧ (∀ r s : Nat, ∀ extra, 1 ≤ r → r < 16 ^ 64 → 1 ≤ s → s < 16 ^ 64 → extra ≠ [] →
        parseDERSignature ((0x30 :: ((derInt r).length + (derInt s).length + 4 + extra.length)
            :: 2 :: (derInt r).length :: derInt r ++ 2 :: (derInt s).length :: derInt s) ++ extra)
          = .error .sigLeftBytes) := by
  refine ⟨?_, parseDERSig_reject_tag, parseDERSig_reject_length, parseDERInt_reject_tag,
    (fun b hb t rest => parseDERInt_reject_nonminimal b hb t rest),
    (fun r s extra hr1 hr hs1 hs hne =>
      parseDERSig_reject_trailing r s extra hr1 hr hs1 hs hne)⟩
  intro r s hr hrn hs hsn
  obtain ⟨henc, hdec⟩ := derRoundTrip r s hr hrn hs hsn
  have h16 : (16:Nat) ^ 600 ≥ 16 ^ 64 := Nat.pow_le_pow_right (by omega) (by omega)
  have h64 : (16:Nat) ^ 64
      = 115792089237316195423570985008687907853269984665640564039457584007913129639936 := by
    norm_num
  have hNc : Nc = 115792089237316195423570985008687907852837564279074904382605163141518161494337 := rfl
  have hr600 : r.toNat < 16 ^ 600 := by
    have : r.toNat < 16 ^ 64 := by omega
    omega
  have hs600 : s.toNat < 16 ^ 600 := by
    have : s.toNat < 16 ^ 64 := by omega
    omega
  have hr1 : 1 ≤ r.toNat := by omega
  have hs1 : 1 ≤ s.toNat := by omega
  refine ⟨_, henc, hdec, rfl, beVal_derInt hr600, beVal_derInt hs600, ?_, ?_⟩
  · obtain ⟨b, t, hmb, hbpos, _, hder⟩ := minBytes_struct r.toNat hr1 hr600
    exact ⟨b, t, hmb, hbpos, hder⟩
  · obtain ⟨b, t, hmb, hbpos, _, hder⟩ := minBytes_struct s.toNat hs1 hs600
    exact ⟨b, t, hmb, hbpos, hder⟩

theorem claim_C5_witness :
    (∃ bs, toDERRawBytes ⟨1, 2⟩ false = .ok bs
      ∧ signatureFromDER (.bytes bs) = .ok ⟨1, 2⟩
      ∧ bs = 0x30 :: ((derInt 1).length + (derInt 2).length + 4)
          :: 2 :: (derInt 1).length :: derInt 1 ++ 2 :: (derInt 2).length :: derInt 2
      ∧ beVal (derInt 1) = 1 ∧ beVal (derInt 2) = 2
      ∧ (∃ b t, minBytes 1 = b :: t ∧ 0 < b
          ∧ derInt 1 = (if 128 ≤ b then 0 :: minBytes 1 else minBytes 1))
      ∧ (∃ b t, minBytes 2 = b :: t ∧ 0 < b
          ∧ derInt 2 = (if 128 ≤ b then 0 :: minBytes 2 else minBytes 2)))
    ∧ parseDERSignature [] = Except.error Err.sigTag :=
  ⟨claim_C5.1 1 2 (by decide) (by decide) (by decide) (by decide),
   claim_C5.2.1 [] (Or.inl (by decide))⟩


/-! ## Multiply machinery: coordinate ranges and the precompute table -/

theorem foldl_cons_rev {α β : Type} (f : α → β) :
    ∀ (L : List α) (acc : List β),
      L.foldl (fun out a => f a :: out) acc = (L.map f).reverse ++ acc := by
  intro L
  induction L with
  | nil => intro acc; rfl
  | cons a L ih =>
    intro acc
    simp only [List.foldl_cons, List.map_cons, List.reverse_cons, ih]
    simp

theorem listMapTR_eq_map {α β : Type} (f : α → β) (l : List α) :
    listMapTR f l = l.map f := by
  unfold listMapTR
  rw [foldl_cons_rev]
  simp

/-- All three Jacobian coordinates lie in `[0, P)`. -/
def coordsIn (p : JPoint) : Prop :=
  0 ≤ p.x ∧ p.x < Pc ∧ 0 ≤ p.y ∧ p.y < Pc ∧ 0 ≤ p.z ∧ p.z < Pc

instance (p : JPoint) : Decidable (coordsIn p) := by
  unfold coordsIn
  infer_instance

theorem mod_P_bounds (a : Int) : 0 ≤ mod a Pc ∧ mod a Pc < Pc := by
  rw [mod_emod _ _ Pc_pos]
  exact ⟨Int.emod_nonneg _ (ne_of_gt Pc_pos), Int.emod_lt_of_pos _ Pc_pos⟩

theorem jdouble_eq (p : JPoint) : ∃ a b c, jdouble p = ⟨mod a Pc, mod b Pc, mod c Pc⟩ :=
  ⟨_, _, _, rfl⟩

theorem jdouble_coords (p : JPoint) : coordsIn (jdouble p) := by
  obtain ⟨a, b, c, h⟩ := jdouble_eq p
  rw [h]
  exact ⟨(mod_P_bounds a).1, (mod_P_bounds a).2, (mod_P_bounds b).1, (mod_P_bounds b).2,
    (mod_P_bounds c).1, (mod_P_bounds c).2⟩

theorem jnegate_coords {p : JPoint} (hp : coordsIn p) : coordsIn (jnegate p) := by
  obtain ⟨h1, h2, _, _, h5, h6⟩ := hp
  exact ⟨h1, h2, (mod_P_bounds _).1, (mod_P_bounds _).2, h5, h6⟩

theorem jadd_coords {p q : JPoint} (hp : coordsIn p) (hq : coordsIn q) :
    coordsIn (jadd p q) := by
  simp only [jadd]
  split
  · exact hp
  split
  · exact hq
  split
  · split
    · exact jdouble_coords p
    · decide
  · exact ⟨(mod_P_bounds _).1, (mod_P_bounds _).2, (mod_P_bounds _).1, (mod_P_bounds _).2,
      (mod_P_bounds _).1, (mod_P_bounds _).2⟩

theorem pwInner_spec (pj : JPoint) (hpj : coordsIn pj) :
    ∀ (i : Nat) (base : JPoint), coordsIn base →
      (∀ q ∈ (pwInner pj i base).1, coordsIn q) ∧ coordsIn (pwInner pj i base).2
        ∧ (pwInner pj i base).1.length = i := by
  intro i
  induction i with
  | zero => intro base hb; exact ⟨by simp [pwInner], hb, rfl⟩
  | succ i ih =>
    intro base hb
    have hb2 : coordsIn (jadd base pj) := jadd_coords hb hpj
    obtain ⟨h1, h2, h3⟩ := ih (jadd base pj) hb2
    simp only [pwInner]
    refine ⟨?_, ?_, ?_⟩
    · intro q hqm
      rcases List.mem_cons.mp hqm with rfl | hqm
      · exact hb2
      · exact h1 q hqm
    · exact h2
    · simp only [List.length_cons, h3]

theorem pwGo_spec (W : Nat) :
    ∀ (w : Nat) (p : JPoint), coordsIn p →
      (∀ q ∈ pwGo W w p, coordsIn q) ∧ (pwGo W w p).length = w * 2 ^ (W - 1) := by
  intro w
  induction w with
  | zero => intro p hp; exact ⟨by simp [pwGo], by simp [pwGo]⟩
  | succ w ih =>
    intro p hp
    obtain ⟨hin, hfin, hlen⟩ := pwInner_spec p hp (2 ^ (W - 1) - 1) p hp
    obtain ⟨ih1, ih2⟩ := ih (jdouble (pwInner p (2 ^ (W - 1) - 1) p).2) (jdouble_coords _)
    simp only [pwGo]
    constructor
    · intro q hqm
      simp only [List.mem_append, List.mem_cons] at hqm
      rcases hqm with (rfl | hqm) | hqm
      · exact hp
      · exact hin q hqm
      · exact ih1 q hqm
    · simp only [List.length_append, List.length_cons, hlen, ih2]
      have hpos : 0 < 2 ^ (W - 1) := Nat.pos_pow_of_pos _ (by omega)
      rw [Nat.succ_mul]
      omega

theorem precomputeWindow_coords {p : JPoint} (hp : coordsIn p) (W : Nat) :
    ∀ q ∈ precomputeWindow p W, coordsIn q :=
  (pwGo_spec W (128 / W + 1) p hp).1

theorem precomputeWindow_length {p : JPoint} (hp : coordsIn p) (W : Nat) :
    (precomputeWindow p W).length = (128 / W + 1) * 2 ^ (W - 1) :=
  (pwGo_spec W (128 / W + 1) p hp).2

theorem pwGo_get0 (W w : Nat) (p : JPoint) (hw : 0 < w) :
    (pwGo W w p).get? 0 = some p := by
  obtain ⟨w, rfl⟩ : ∃ v, w = v + 1 := ⟨w - 1, by omega⟩
  simp only [pwGo]
  rfl

theorem pwGo_get1 (W w : Nat) (p : JPoint) (hw : 0 < w) (hW : 2 ≤ 2 ^ (W - 1)) :
    (pwGo W w p).get? 1 = some (jadd p p) := by
  obtain ⟨w, rfl⟩ : ∃ v, w = v + 1 := ⟨w - 1, by omega⟩
  obtain ⟨i, hi⟩ : ∃ i, 2 ^ (W - 1) - 1 = i + 1 := ⟨2 ^ (W - 1) - 2, by omega⟩
  simp only [pwGo, hi, pwInner]
  rfl


/-- `toAffineBatch` succeeds on points with in-range coordinates and maps
each point through `toAffineInv` with its batch inverse. -/
theorem toAffineBatch_spec (pts : List JPoint) (h : ∀ q ∈ pts, coordsIn q) :
    ∃ invs, toAffineBatch pts = .ok ((pts.zip invs).map (fun pi => toAffineInv pi.1 pi.2))
      ∧ invs.length = pts.length
      ∧ List.Forall₂ (fun (p : JPoint) o => (p.z = 0 → o = 0)
          ∧ (p.z ≠ 0 → mod (o * p.z) Pc = 1) ∧ 0 ≤ o ∧ o < Pc) pts invs := by
  obtain ⟨invs, hib, hlen, hall⟩ := invertBatch_P_ok (pts.map (fun p => p.z)) (by
    intro z hz
    obtain ⟨q, hq, rfl⟩ := List.mem_map.mp hz
    have := h q hq
    exact ⟨this.2.2.2.2.1, this.2.2.2.2.2⟩)
  rw [List.length_map] at hlen
  refine ⟨invs, ?_, hlen, ?_⟩
  · unfold toAffineBatch
    rw [listMapTR_eq_map, hib, EX_bind_ok]
    rw [zipRev_eq, List.append_nil, foldl_cons_rev, List.append_nil]
    rw [List.map_reverse, List.reverse_reverse]
    rfl
  · exact List.forall₂_map_left_iff.mp hall

/-- `normalizeZ` succeeds on points with in-range coordinates and maps each
point through `fromAffine ∘ toAffineInv` with its batch inverse. -/
theorem normalizeZ_spec (pts : List JPoint) (h : ∀ q ∈ pts, coordsIn q) :
    ∃ invs, normalizeZ pts
          = .ok ((pts.zip invs).map (fun pi => fromAffine (toAffineInv pi.1 pi.2)))
      ∧ invs.length = pts.length
      ∧ List.Forall₂ (fun (p : JPoint) o => (p.z = 0 → o = 0)
          ∧ (p.z ≠ 0 → mod (o * p.z) Pc = 1) ∧ 0 ≤ o ∧ o < Pc) pts invs := by
  obtain ⟨invs, hta, hlen, hall⟩ := toAffineBatch_spec pts h
  refine ⟨invs, ?_, hlen, hall⟩
  unfold normalizeZ
  rw [hta, EX_bind_ok, listMapTR_eq_map, List.map_map]
  rfl

theorem zip_map_get {α β γ : Type} (f : α × β → γ) (l1 : List α) (l2 : List β)
    (i : Nat) (a : α) (b : β) (ha : l1.get? i = some a) (hb : l2.get? i = some b) :
    ((l1.zip l2).map f).get? i = some (f (a, b)) := by
  rw [List.get?_map]
  rw [(List.get?_zip_eq_some l1 l2 (a, b) i).mpr ⟨ha, hb⟩]
  rfl

/-- Uniqueness of the inverse residue in `[0, P)`. -/
theorem inverse_unique {z o L : Int} (ho : 0 ≤ o) (holt : o < Pc)
    (hL : 0 ≤ L) (hLlt : L < Pc)
    (h1 : mod (o * z) Pc = 1) (h2 : mod (L * z) Pc = 1) : o = L := by
  have e1 : (o * z) % Pc = 1 := by rw [← mod_emod _ _ Pc_pos]; exact h1
  have e2 : (L * z) % Pc = 1 := by rw [← mod_emod _ _ Pc_pos]; exact h2
  have hmod : (o * (L * z)) % Pc = (L * (o * z)) % Pc := by
    rw [show o * (L * z) = L * (o * z) by ring]
  have c1 : (o * (L * z)) % Pc = o % Pc := by
    conv_lhs => rw [Int.mul_emod, e2]
    rw [mul_one, Int.emod_emod_of_dvd _ dvd_rfl]
  have c2 : (L * (o * z)) % Pc = L % Pc := by
    conv_lhs => rw [Int.mul_emod, e1]
    rw [mul_one, Int.emod_emod_of_dvd _ dvd_rfl]
  rw [c1, c2, Int.emod_eq_of_lt ho holt, Int.emod_eq_of_lt hL hLlt] at hmod
  exact hmod


/-! ## wNAF at very small scalars -/

/-- With remaining scalar `0`, every window takes the fake branch: the real
accumulator is returned unchanged. -/
theorem wnafGo_zero (pre : List JPoint) (ws maxN : Nat) (mask : Int) (shiftBy : Nat)
    (hpre : ∀ q ∈ pre, coordsIn q) :
    ∀ (wleft window : Nat) (p f : JPoint), coordsIn f →
      (window + wleft) * ws ≤ pre.length → 1 ≤ ws →
      ∃ fout, wnafGo pre ws maxN mask shiftBy wleft window 0 p f = .ok (p, fout)
        ∧ coordsIn fout := by
  intro wleft
  induction wleft with
  | zero =>
    intro window p f hf _ _
    exact ⟨f, rfl, hf⟩
  | succ wleft ih =>
    intro window p f hf hlen hws
    have hidx : window * ws < pre.length := by
      have h1 : (window + 1) * ws ≤ (window + (wleft + 1)) * ws :=
        Nat.mul_le_mul_right _ (by omega)
      have h2 : (window + 1) * ws = window * ws + ws := Nat.succ_mul window ws
      omega
    obtain ⟨q, hq⟩ : ∃ q, pre.get? (window * ws) = some q := by
      cases hg : pre.get? (window * ws) with
      | none => exact absurd (List.get?_eq_none.mp hg) (by omega)
      | some q => exact ⟨q, rfl⟩
    simp only [wnafGo]
    rw [show jsAndNat 0 mask.toNat = 0 from by simp [jsAndNat]]
    rw [show jsShr 0 shiftBy = 0 from by simp [jsShr]]
    rw [if_neg (show ¬ ((0:Int) > Int.ofNat ws) from Int.not_lt.mpr (Int.ofNat_nonneg ws))]
    rw [if_pos rfl]
    rw [show listGet pre (window * ws) = .ok q from by unfold listGet; rw [hq]]
    rw [EX_bind_ok]
    have hqc : coordsIn q := hpre q (List.get?_mem hq)
    have hprc : coordsIn (if window % 2 = 1 then jnegate q else q) := by
      split
      · exact jnegate_coords hqc
      · exact hqc
    exact ih (window + 1) p
      (jadd f (if window % 2 = 1 then jnegate q else q)) (jadd_coords hf hprc)
      (by rw [show window + 1 + wleft = window + (wleft + 1) from by omega]; exact hlen) hws


/-- First window of a small positive scalar `k ≤ ws` that fits in the mask:
the table entry `k-1` is added to the real accumulator and the rest of the
windows pass through. -/
theorem wnafGo_first (pre : List JPoint) (ws maxN : Nat) (mask : Int) (shiftBy : Nat)
    (hws : 1 ≤ ws) (k : Int)
    (hk0 : 0 < k)
    (hk1 : jsAndNat k mask.toNat = k)
    (hk2 : ¬ (k > Int.ofNat ws))
    (hshr : jsShr k shiftBy = 0) :
    ∀ (wleft : Nat) (p f : JPoint), coordsIn f → (∀ q ∈ pre, coordsIn q) →
      (1 + wleft) * ws ≤ pre.length →
      ∃ q fout, pre.get? (k.toNat - 1) = some q
        ∧ wnafGo pre ws maxN mask shiftBy (wleft + 1) 0 k p f = .ok (jadd p q, fout)
        ∧ coordsIn fout := by
  intro wleft p f hf hpre hlen
  have hwsle : ws ≤ pre.length := by
    have h2 : (1 + wleft) * ws = ws + wleft * ws := by ring
    omega
  have hkws : k ≤ Int.ofNat ws := not_lt.mp hk2
  have hktn : k.toNat ≤ ws := Int.toNat_le.mpr (by exact_mod_cast hkws)
  have hidx : k.toNat - 1 < pre.length := by omega
  obtain ⟨q, hq⟩ : ∃ q, pre.get? (k.toNat - 1) = some q := by
    cases hg : pre.get? (k.toNat - 1) with
    | none => exact absurd (List.get?_eq_none.mp hg) (by omega)
    | some q => exact ⟨q, rfl⟩
  refine ⟨q, ?_⟩
  simp only [wnafGo]
  rw [hk1, hshr]
  rw [if_neg hk2]
  rw [if_neg (show ¬ (k = 0) from by omega)]
  rw [show (0:Nat) * ws + k.natAbs - 1 = k.toNat - 1 from by omega]
  rw [show listGet pre (k.toNat - 1) = .ok q from by unfold listGet; rw [hq]]
  rw [EX_bind_ok]
  rw [if_neg (show ¬ (k < 0) from by omega)]
  obtain ⟨fout, hrec, hfoc⟩ := wnafGo_zero pre ws maxN mask shiftBy hpre wleft 1 (jadd p q) f
    hf (by rw [show (1 + wleft) = 1 + wleft from rfl]; exact hlen) hws
  exact ⟨fout, hq, hrec, hfoc⟩


/-- Affine-normalized double of the base point, as a Jacobian point with
`z = 1` (the second entry of the normalized base precompute table). -/
def G2J : JPoint :=
  ⟨89565891926547004231252920425935692360644145829622209833684329913297188986597,
   12158399299693830322967808612713398636155367887041628176798871954788371653930, 1⟩

/-- The modular inverse of the `z`-coordinate of `jadd jBASE jBASE`. -/
def INV1 : Int :=
  83174505189910067536517124096019359197644205712500122884473429251812128958118

/-- The normalized base-point window table: it exists, has 2176 entries, and
its first two entries are the base point and its normalized double. -/
theorem basePre_spec :
    ∃ PRE, normalizeZ (precomputeWindow jBASE 8) = .ok PRE
      ∧ PRE.length = 2176
      ∧ (∀ q ∈ PRE, coordsIn q)
      ∧ PRE.get? 0 = some jBASE
      ∧ PRE.get? 1 = some G2J := by
  have hco : coordsIn jBASE := by decide
  have hc := precomputeWindow_coords hco 8
  have hlen : (precomputeWindow jBASE 8).length = 2176 := by
    rw [precomputeWindow_length hco 8]
    decide
  obtain ⟨invs, hnz, hilen, hall⟩ := normalizeZ_spec (precomputeWindow jBASE 8) hc
  have hT0 : (precomputeWindow jBASE 8).get? 0 = some jBASE :=
    pwGo_get0 8 (128 / 8 + 1) jBASE (by norm_num)
  have hT1 : (precomputeWindow jBASE 8).get? 1 = some (jadd jBASE jBASE) :=
    pwGo_get1 8 (128 / 8 + 1) jBASE (by norm_num) (by norm_num)
  obtain ⟨hleq, hget⟩ := List.forall₂_iff_get.mp hall
  have h0T : 0 < (precomputeWindow jBASE 8).length := by omega
  have h1T : 1 < (precomputeWindow jBASE 8).length := by omega
  have h0I : 0 < invs.length := by omega
  have h1I : 1 < invs.length := by omega
  -- entry 0
  have hTg0 : (precomputeWindow jBASE 8).get ⟨0, h0T⟩ = jBASE := by
    have := List.get?_eq_get h0T
    rw [hT0] at this
    exact (Option.some.inj this).symm
  have hIg0 : invs.get? 0 = some (invs.get ⟨0, h0I⟩) := List.get?_eq_get h0I
  have hrel0 := hget 0 h0T h0I
  rw [hTg0] at hrel0
  have ho0 : invs.get ⟨0, h0I⟩ = 1 := by
    obtain ⟨_, h2, h3, h4⟩ := hrel0
    exact inverse_unique h3 h4 (by decide) (by decide)
      (h2 (by decide)) (by decide)
  -- entry 1
  have hTg1 : (precomputeWindow jBASE 8).get ⟨1, h1T⟩ = jadd jBASE jBASE := by
    have := List.get?_eq_get h1T
    rw [hT1] at this
    exact (Option.some.inj this).symm
  have hIg1 : invs.get? 1 = some (invs.get ⟨1, h1I⟩) := List.get?_eq_get h1I
  have hrel1 := hget 1 h1T h1I
  rw [hTg1] at hrel1
  have ho1 : invs.get ⟨1, h1I⟩ = INV1 := by
    obtain ⟨_, h2, h3, h4⟩ := hrel1
    exact inverse_unique h3 h4 (by decide) (by decide)
      (h2 (by decide)) (by decide)
  refine ⟨_, hnz, ?_, ?_, ?_, ?_⟩
  · rw [List.length_map, List.length_zip, hlen, hilen, hlen]
    decide
  · intro q hqm
    obtain ⟨pi, _, rfl⟩ := List.mem_map.mp hqm
    refine ⟨?_, ?_, ?_, ?_, ?_, ?_⟩
    · exact (mod_P_bounds _).1
    · exact (mod_P_bounds _).2
    · exact (mod_P_bounds _).1
    · exact (mod_P_bounds _).2
    · show (0:Int) ≤ 1
      decide
    · show (1:Int) < Pc
      decide
  · rw [zip_map_get _ _ _ 0 jBASE (invs.get ⟨0, h0I⟩) hT0 hIg0, ho0]
    decide
  · rw [zip_map_get _ _ _ 1 (jadd jBASE jBASE) (invs.get ⟨1, h1I⟩) hT1 hIg1, ho1]
    decide


theorem wNAF_base_zero :
    ∃ f2, coordsIn f2 ∧ wNAF jBASE 0 8 = .ok (jZERO, f2) := by
  obtain ⟨PRE, hnz, hlen, hcoords, hg0, hg1⟩ := basePre_spec
  unfold wNAF
  rw [if_neg (by decide)]
  rw [if_pos (by decide), hnz, EX_bind_ok]
  obtain ⟨fout, heq, hfc⟩ := wnafGo_zero PRE (2 ^ (8 - 1)) (2 ^ 8) (Int.ofNat (2 ^ 8 - 1)) 8
    hcoords (128 / 8 + 1) 0 jZERO jZERO (by decide)
    (by rw [hlen]; decide) (by decide)
  exact ⟨fout, hfc, heq⟩

theorem wNAF_base_one :
    ∃ f1, coordsIn f1 ∧ wNAF jBASE 1 8 = .ok (jBASE, f1) := by
  obtain ⟨PRE, hnz, hlen, hcoords, hg0, hg1⟩ := basePre_spec
  unfold wNAF
  rw [if_neg (by decide)]
  rw [if_pos (by decide), hnz, EX_bind_ok]
  obtain ⟨q, fout, hq, heq, hfc⟩ := wnafGo_first PRE (2 ^ (8 - 1)) (2 ^ 8)
    (Int.ofNat (2 ^ 8 - 1)) 8 (by decide) 1 (by decide) (by decide) (by decide) (by decide)
    (128 / 8) jZERO jZERO (by decide) hcoords (by rw [hlen]; decide)
  rw [show ((1:Int).toNat - 1) = 0 from rfl, hg0] at hq
  have hqb : q = jBASE := (Option.some.inj hq).symm
  subst hqb
  rw [show jadd jZERO jBASE = jBASE from by decide] at heq
  exact ⟨fout, hfc, heq⟩

theorem wNAF_base_two :
    ∃ f1, coordsIn f1 ∧ wNAF jBASE 2 8 = .ok (G2J, f1) := by
  obtain ⟨PRE, hnz, hlen, hcoords, hg0, hg1⟩ := basePre_spec
  unfold wNAF
  rw [if_neg (by decide)]
  rw [if_pos (by decide), hnz, EX_bind_ok]
  obtain ⟨q, fout, hq, heq, hfc⟩ := wnafGo_first PRE (2 ^ (8 - 1)) (2 ^ 8)
    (Int.ofNat (2 ^ 8 - 1)) 8 (by decide) 2 (by decide) (by decide) (by decide) (by decide)
    (128 / 8) jZERO jZERO (by decide) hcoords (by rw [hlen]; decide)
  rw [show ((2:Int).toNat - 1) = 1 from rfl, hg1] at hq
  have hqb : q = G2J := (Option.some.inj hq).symm
  subst hqb
  rw [show jadd jZERO G2J = G2J from by decide] at heq
  exact ⟨fout, hfc, heq⟩


/-- The final `normalizeZ [point, fake]` step of `jmultiply` when the real
point already has `z = 1`: the head of the result is the point itself. -/
theorem normalizeZ_pair (point fake : JPoint) (hp : coordsIn point) (hz : point.z = 1)
    (hf : coordsIn fake) :
    ∃ rest, normalizeZ [point, fake] = .ok (point :: rest) := by
  obtain ⟨invs, hnz, hilen, hall⟩ := normalizeZ_spec [point, fake] (by
    intro q hqm
    rcases List.mem_cons.mp hqm with rfl | hqm
    · exact hp
    · rcases List.mem_cons.mp hqm with rfl | hqm
      · exact hf
      · cases hqm)
  simp only [List.length_cons, List.length_nil] at hilen
  obtain ⟨a, b, rfl⟩ := List.length_eq_two.mp hilen
  rcases hall with _ | ⟨⟨ha1, ha2, ha3, ha4⟩, hall2⟩
  have ha : a = 1 := by
    have h1 := ha2 (by rw [hz]; exact one_ne_zero)
    rw [hz] at h1
    exact inverse_unique ha3 ha4 (by decide) (by decide) h1 (by decide)
  subst ha
  refine ⟨[fromAffine (toAffineInv fake b)], ?_⟩
  rw [hnz]
  show Except.ok (List.map (fun pi => fromAffine (toAffineInv pi.1 pi.2))
    [(point, 1), (fake, b)]) = _
  simp only [List.map_cons, List.map_nil]
  congr 2
  obtain ⟨px, py, pz⟩ := point
  simp only at hz
  subst hz
  obtain ⟨hx0, hx1, hy0, hy1, _, _⟩ := hp
  show (⟨mod (px * jsPow 1 2) Pc, mod (py * jsPow 1 2 * 1) Pc, 1⟩ : JPoint) = _
  rw [show jsPow 1 2 = 1 from rfl, mul_one, mul_one, mul_one]
  rw [mod_emod _ _ Pc_pos, mod_emod _ _ Pc_pos]
  rw [Int.emod_eq_of_lt hx0 hx1, Int.emod_eq_of_lt hy0 hy1]

theorem jmultiply_base_one : jmultiply jBASE 1 8 = .ok jBASE := by
  unfold jmultiply
  rw [show normalizeScalar 1 = .ok 1 from by decide, EX_bind_ok]
  rw [show splitScalarEndo 1 = .ok (false, 1, false, 0) from by decide, EX_bind_ok]
  obtain ⟨f1, hf1c, hw1⟩ := wNAF_base_one
  obtain ⟨f2, hf2c, hw2⟩ := wNAF_base_zero
  simp only [EX_bind_ok, hw1, hw2, Bool.false_eq_true, if_false, jZERO]
  rw [show jadd jBASE ⟨mod ((0:Int) * betaC) Pc, 1, 0⟩ = jBASE from by decide]
  obtain ⟨rest, hpair⟩ :=
    normalizeZ_pair jBASE (jadd f1 f2) (by decide) (by decide) (jadd_coords hf1c hf2c)
  rw [hpair]
  rfl

theorem jmultiply_base_two : jmultiply jBASE 2 8 = .ok G2J := by
  unfold jmultiply
  rw [show normalizeScalar 2 = .ok 2 from by decide, EX_bind_ok]
  rw [show splitScalarEndo 2 = .ok (false, 2, false, 0) from by decide, EX_bind_ok]
  obtain ⟨f1, hf1c, hw1⟩ := wNAF_base_two
  obtain ⟨f2, hf2c, hw2⟩ := wNAF_base_zero
  simp only [EX_bind_ok, hw1, hw2, Bool.false_eq_true, if_false, jZERO]
  rw [show jadd G2J ⟨mod ((0:Int) * betaC) Pc, 1, 0⟩ = G2J from by decide]
  obtain ⟨rest, hpair⟩ :=
    normalizeZ_pair G2J (jadd f1 f2) (by decide) (by decide) (jadd_coords hf1c hf2c)
  rw [hpair]
  rfl


theorem claim_C2_witness :
    verify (.sig ⟨1, 1⟩) (.bytes (List.replicate 31 0 ++ [1])) (.point ⟨Gx, Pc - Gy⟩) false
      = .error .expectedPositive :=
  claim_C2.2.2.2 (.sig ⟨1, 1⟩) (.bytes (List.replicate 31 0 ++ [1]))
    (.point ⟨Gx, Pc - Gy⟩) false ⟨1, 1⟩ (List.replicate 31 0 ++ [1]) 1 1
    ⟨Gx, Pc - Gy⟩ jBASE ⟨Gx, Pc - Gy, 1⟩
    (by decide) (by decide) (by decide) (by decide) (by decide) (by decide) (by decide)
    (by rw [show mod (1 * 1) Nc = 1 from by decide]; exact jmultiply_base_one)
    (by decide) (by decide)


/-! ## Claim C3: the Schnorr verification condition -/

/-- Injected hash whose digest is always the 32-byte big-endian `1`
(a stand-in for sha256, which the source receives from the environment). -/
def mockShaOne : List Nat → List Nat := fun _ => List.replicate 31 0 ++ [1]

/-- 32-byte big-endian bytes of `Gx` (an x-only public key equal to the base
point). -/
def gxBytes : List Nat :=
  [121, 190, 102, 126, 249, 220, 187, 172, 85, 160, 98, 149, 206, 135, 11, 7,
   2, 155, 252, 219, 45, 206, 40, 217, 89, 242, 129, 91, 22, 248, 23, 152]

/-- The double of the base point, in affine coordinates. -/
def G2pt : Point :=
  ⟨89565891926547004231252920425935692360644145829622209833684329913297188986597,
   12158399299693830322967808612713398636155367887041628176798871954788371653930⟩

theorem fromPrivateKey_two : fromPrivateKey (.int 2) = .ok G2pt := by
  show (do
    let p ← normalizePrivateKey (.int 2)
    pointMultiply basePoint p 8) = _
  rw [show normalizePrivateKey (.int 2) = .ok 2 from by decide, EX_bind_ok]
  show (do
    let j ← jmultiply (fromAffine basePoint) 2 8
    toAffine j) = _
  rw [show fromAffine basePoint = jBASE from rfl, jmultiply_base_two, EX_bind_ok]
  decide

/-- `wNAF` at window size 1 (the anchor is not the base point, so the
source skips `normalizeZ` and uses the raw table) and scalar 0: the real
accumulator stays at the identity. -/
theorem wNAF_base_zero_w1 :
    ∃ f2, coordsIn f2 ∧ wNAF jBASE 0 1 = .ok (jZERO, f2) := by
  have hco : coordsIn jBASE := by decide
  have hcoords := precomputeWindow_coords hco 1
  have hlen : (precomputeWindow jBASE 1).length = 129 := by
    rw [precomputeWindow_length hco 1]; decide
  unfold wNAF
  rw [if_neg (by decide)]
  rw [if_neg (by decide)]
  rw [show (pure (precomputeWindow jBASE 1) : EX (List JPoint))
    = .ok (precomputeWindow jBASE 1) from rfl, EX_bind_ok]
  obtain ⟨fout, heq, hfc⟩ := wnafGo_zero (precomputeWindow jBASE 1) (2 ^ (1 - 1)) (2 ^ 1)
    (Int.ofNat (2 ^ 1 - 1)) 1 hcoords (128 / 1 + 1) 0 jZERO jZERO (by decide)
    (by rw [hlen]; decide) (by decide)
  exact ⟨fout, hfc, heq⟩

/-- `wNAF` at window size 1 and scalar 1: only window 0 contributes, and
the raw table's entry 0 is the base point itself. -/
theorem wNAF_base_one_w1 :
    ∃ f1, coordsIn f1 ∧ wNAF jBASE 1 1 = .ok (jBASE, f1) := by
  have hco : coordsIn jBASE := by decide
  have hcoords := precomputeWindow_coords hco 1
  have hlen : (precomputeWindow jBASE 1).length = 129 := by
    rw [precomputeWindow_length hco 1]; decide
  have hg0 : (precomputeWindow jBASE 1).get? 0 = some jBASE :=
    pwGo_get0 1 (128 / 1 + 1) jBASE (by norm_num)
  unfold wNAF
  rw [if_neg (by decide)]
  rw [if_neg (by decide)]
  rw [show (pure (precomputeWindow jBASE 1) : EX (List JPoint))
    = .ok (precomputeWindow jBASE 1) from rfl, EX_bind_ok]
  obtain ⟨q, fout, hq, heq, hfc⟩ := wnafGo_first (precomputeWindow jBASE 1) (2 ^ (1 - 1))
    (2 ^ 1) (Int.ofNat (2 ^ 1 - 1)) 1 (by decide) 1 (by decide) (by decide) (by decide)
    (by decide) (128 / 1) jZERO jZERO (by decide) hcoords (by rw [hlen]; decide)
  rw [show ((1:Int).toNat - 1) = 0 from rfl, hg0] at hq
  have hqb : q = jBASE := (Option.some.inj hq).symm
  subst hqb
  rw [show jadd jZERO jBASE = jBASE from by decide] at heq
  exact ⟨fout, hfc, heq⟩

/-- `JacobianPoint#multiply` at window size 1 and scalar 1 returns the
base point. -/
theorem jmultiply_base_one_w1 : jmultiply jBASE 1 1 = .ok jBASE := by
  unfold jmultiply
  rw [show normalizeScalar 1 = .ok 1 from by decide, EX_bind_ok]
  rw [show splitScalarEndo 1 = .ok (false, 1, false, 0) from by decide, EX_bind_ok]
  obtain ⟨f1, hf1c, hw1⟩ := wNAF_base_one_w1
  obtain ⟨f2, hf2c, hw2⟩ := wNAF_base_zero_w1
  simp only [EX_bind_ok, hw1, hw2, Bool.false_eq_true, if_false, jZERO]
  rw [show jadd jBASE ⟨mod ((0:Int) * betaC) Pc, 1, 0⟩ = jBASE from by decide]
  obtain ⟨rest, hpair⟩ :=
    normalizeZ_pair jBASE (jadd f1 f2) (by decide) (by decide) (jadd_coords hf1c hf2c)
  rw [hpair]
  rfl

theorem eP_one : pointMultiply basePoint 1 1 = .ok basePoint := by
  show (do
    let j ← jmultiply (fromAffine basePoint) 1 1
    toAffine j) = _
  rw [show fromAffine basePoint = jBASE from rfl, jmultiply_base_one_w1, EX_bind_ok]
  decide

/-- The full `schnorrVerify` run on the counterexample inputs: everything
succeeds, `R` comes out as the base point, and the function returns `false`. -/
theorem schnorrVerify_basePoint_run :
    schnorrVerify mockShaOne (.sig ⟨Gx, 2⟩) (.bytes []) (.bytes gxBytes) = .ok false := by
  show (do
    let sig ← (pure (⟨Gx, 2⟩ : SchnorrSignature) : EX SchnorrSignature)
    let m ← ensureBytes (.bytes [])
    let P ← normalizePublicKey (.hex (.bytes gxBytes))
    let e ← createChallenge mockShaOne sig.r P m
    let sG ← fromPrivateKey (.int sig.s)
    let eP ← pointMultiply P e 1
    let R ← pointSub sG eP
    if R == basePoint || !(hasEvenY R) || R.x != sig.r then pure false else pure true)
    = Except.ok false
  rw [show (pure (⟨Gx, 2⟩ : SchnorrSignature) : EX SchnorrSignature)
    = .ok ⟨Gx, 2⟩ from rfl, EX_bind_ok]
  rw [show ensureBytes (.bytes []) = .ok [] from by decide, EX_bind_ok]
  rw [show normalizePublicKey (.hex (.bytes gxBytes)) = .ok basePoint from by decide, EX_bind_ok]
  rw [show createChallenge mockShaOne (⟨Gx, 2⟩ : SchnorrSignature).r basePoint []
    = .ok 1 from by decide, EX_bind_ok]
  rw [show (.int (⟨Gx, 2⟩ : SchnorrSignature).s) = PrivInput.int 2 from rfl,
    fromPrivateKey_two, EX_bind_ok]
  rw [eP_one, EX_bind_ok]
  rw [show pointSub G2pt basePoint = .ok basePoint from by decide, EX_bind_ok]
  decide


/-- C3 counterexample: with the injected hash returning the digest `1`, the
signature `(Gx, 2)` and the x-only public key `Gx` (the base point), the
chain computes `R = 2·G − 1·G = G`, a valid non-identity point with even `y`
and `R.x = r`; the claim then demands `true`, but `schnorrVerify` returns
`false`, because the source compares `R` against `Point.BASE` rather than
against the identity. -/
theorem claim_C3_counterexample :
    schnorrVerify mockShaOne (.sig ⟨Gx, 2⟩) (.bytes []) (.bytes gxBytes) = .ok false
    ∧ fromPrivateKey (.int (⟨Gx, 2⟩ : SchnorrSignature).s) = .ok G2pt
    ∧ pointMultiply basePoint 1 1 = .ok basePoint
    ∧ pointSub G2pt basePoint = .ok basePoint
    ∧ createChallenge mockShaOne (⟨Gx, 2⟩ : SchnorrSignature).r basePoint [] = .ok 1
    ∧ hasEvenY basePoint = true
    ∧ basePoint.x = (⟨Gx, 2⟩ : SchnorrSignature).r :=
  ⟨schnorrVerify_basePoint_run, fromPrivateKey_two, eP_one,
   by decide, by decide, by decide, rfl⟩

/-- C3 (amended): when parsing, challenge computation, and the three point
computations succeed, `schnorrVerify` computes `R = s·G − e·P` and returns
`false` exactly when `R` equals the *base point* (not the identity: the
identity cannot be returned by `pointSub`, which throws on it), or `R.y` is
odd, or `R.x ≠ r`; otherwise it returns `true`. -/
theorem claim_C3 (sha : List Nat → List Nat) (sig : SchnorrSignature)
    (message publicKey : HexInput) (m : List Nat) (P : Point) (e : Int) (sG eP R : Point)
    (hm : ensureBytes message = .ok m)
    (hP : normalizePublicKey (.hex publicKey) = .ok P)
    (he : createChallenge sha sig.r P m = .ok e)
    (hsG : fromPrivateKey (.int sig.s) = .ok sG)
    (heP : pointMultiply P e 1 = .ok eP)
    (hR : pointSub sG eP = .ok R) :
    schnorrVerify sha (.sig sig) message publicKey
      = .ok (!(R == basePoint || !(hasEvenY R) || R.x != sig.r)) := by
  show (do
    let sg ← (pure sig : EX SchnorrSignature)
    let m2 ← ensureBytes message
    let P2 ← normalizePublicKey (.hex publicKey)
    let e2 ← createChallenge sha sg.r P2 m2
    let sG2 ← fromPrivateKey (.int sg.s)
    let eP2 ← pointMultiply P2 e2 1
    let R2 ← pointSub sG2 eP2
    if R2 == basePoint || !(hasEvenY R2) || R2.x != sg.r then pure false else pure true)
    = _
  rw [show (pure sig : EX SchnorrSignature) = .ok sig from rfl, EX_bind_ok]
  rw [hm, EX_bind_ok, hP, EX_bind_ok, he, EX_bind_ok, hsG, EX_bind_ok, heP, EX_bind_ok,
    hR, EX_bind_ok]
  cases hb : (R == basePoint || !(hasEvenY R) || R.x != sig.r)
  · rfl
  · rfl

theorem claim_C3_witness :
    schnorrVerify mockShaOne (.sig ⟨Gx, 2⟩) (.bytes []) (.bytes gxBytes)
      = .ok (!(basePoint == basePoint || !(hasEvenY basePoint)
          || basePoint.x != (⟨Gx, 2⟩ : SchnorrSignature).r)) :=
  claim_C3 mockShaOne ⟨Gx, 2⟩ (.bytes []) (.bytes gxBytes) [] basePoint 1 G2pt basePoint
    basePoint (by decide) (by decide) (by decide) fromPrivateKey_two eP_one (by decide)


/-! ## C4 at small scalars: the two multiplications agree pointwise -/

theorem multiplyUnsafe_toAffine_one :
    (jmultiply jBASE 1 8 >>= toAffine) = (multiplyUnsafe jBASE 1 >>= toAffine) := by
  rw [jmultiply_base_one, EX_bind_ok]
  decide

theorem multiplyUnsafe_toAffine_two :
    (jmultiply jBASE 2 8 >>= toAffine) = (multiplyUnsafe jBASE 2 >>= toAffine) := by
  rw [jmultiply_base_two, EX_bind_ok]
  decide

end Secp
